import Mathlib

/-! Format-compliant JPEG coefficient scrambling: embedding and properties.

A shallow embedding of the coefficient pipeline of `encryption.cpp`, `decryption.cpp`
and `key.cpp`.

* `JCOEF` values are modelled as `Int`; `encrypt` and `decrypt` only move them around, and
  the only arithmetic on them there (the overflow tracker `prev_dc` of the iterative swap)
  adds at most thirty 16-bit values in an `int`, so no machine overflow is possible.  The
  extraction and write-back loops of `proposedEncryptionScheme` store a difference or a
  sum of two `JCOEF` values into a `JCOEF`; that store is modelled with 16-bit
  wrap-around (`toJcoef`).
* C arrays are lists; `diff_ptr` is a `List Int`, `ac_ptr` a `List (List Int)` (one list of
  zigzag-ordered AC values per block).  The global `block_sum` is the length of those lists.
* `mpf_class` values are rationals.  The 128-bit `mpf_class` operations themselves belong
  to GMP; the pipeline takes them as a parameter `M : Mpf`, and `exactMpf` is the instance
  that computes without rounding.
* SHA3-512 belongs to Crypto++; the key derivation takes it as a parameter.
* `rand()` belongs to the C library; the branch of `getImageFeature` for a file that
  cannot be opened takes the values that its calls return as a parameter.
* `std::sort` with the comparator `lhs.value < rhs.value` is modelled by insertion sort
  on `value`; it returns a sorted rearrangement of its input, and on inputs with
  pairwise distinct values every correct sort returns the same list.
* `malloc` failure (which exits the process) is not modelled.
-/

namespace JpegScramble

/-! ## Data model (`encryptAndDecrypt.h`) -/

/-- A `randSequence`: an original index and the chaotic value drawn for it. -/
structure randSequence where
  number : Nat
  value : ℚ
deriving DecidableEq, Repr

/-- An `intPair`: a local index and an externally supplied rank. -/
structure intPair where
  number : Nat
  value : Nat
deriving DecidableEq, Repr

/-- A `nonZeroAcInfo`: where a nonzero AC coefficient lives, and its value. -/
structure nonZeroAcInfo where
  blockPosition : Nat
  zigzagPosition : Nat
  value : Int
deriving DecidableEq, Repr

/-- The values `a[start], ..., a[stop - 1]` read by a loop `for (i = start; i < stop; ++i)`. -/
def slice {α : Type} (a : List α) (start stop : Nat) : List α :=
  (a.drop start).take (stop - start)

/-- The effect of `memcpy(a + start, src, sizeof(src))` on the array `a`. -/
def memcpyAt {α : Type} (a : List α) (start : Nat) (src : List α) : List α :=
  a.take start ++ src ++ a.drop (start + src.length)

/-- The global array `zigzag` of `main.cpp`: entry `i` is the index, inside a block of 64
coefficients, of the AC coefficient stored at position `i` of `ac_ptr[block]`. -/
def zigzag : List Nat :=
  [1, 8, 16, 9, 2, 3, 10, 17, 24, 32, 25, 18, 11, 4, 5, 12, 19, 26, 33, 40, 48, 41, 34, 27, 20,
   13, 6, 7, 14, 21, 28, 35, 42, 49, 56, 57, 50, 43, 36, 29, 22, 15, 23, 30, 37, 44, 51, 58, 59,
   52, 45, 38, 31, 39, 46, 53, 60, 61, 54, 47, 55, 62, 63]

/-- The extraction loop of `proposedEncryptionScheme` for one block of 64 coefficients:
`ac_ptr[block_index][i_zigzag] = block_ptr[zigzag[i_zigzag]]` for `i_zigzag = 0, ..., 62`. -/
def extractAc (block_ptr : List Int) : List Int :=
  (List.range 63).map (fun i_zigzag => block_ptr.getD (zigzag.getD i_zigzag 0) 0)

/-! ## DCIterativeSwapper (`dccIterSwap`, `reDccIterSwap`) -/

/-- One overflow-check loop of `dccIterSwap`: accumulates the values of one half window into
`prev_dc` and clears `can_swap` when the accumulated value leaves `[floor_dc, ceiling_dc]`;
once `can_swap` is cleared the values are still accumulated, without a range check. -/
def overflowCheck (ceiling_dc floor_dc : Int) : List Int → Int × Bool → Int × Bool
  | [], st => st
  | d :: ds, (prev_dc, can_swap) =>
    if can_swap then
      if ¬ (prev_dc + d ≤ ceiling_dc ∧ prev_dc + d ≥ floor_dc) then
        overflowCheck ceiling_dc floor_dc ds (prev_dc + d, false)
      else
        overflowCheck ceiling_dc floor_dc ds (prev_dc + d, true)
    else
      overflowCheck ceiling_dc floor_dc ds (prev_dc + d, false)

/-- The flag `can_swap` that `dccIterSwap` (and `reDccIterSwap`) computes for the window
`group_index` of iteration `iter_time`: the right half is accumulated first, then the left
half, starting from `prev_dc = 0`. -/
def canSwap (ceiling_dc floor_dc : Int) (diff : List Int) (iter_time group_index : Nat) :
    Bool :=
  let right_part_start_idx := 2 * iter_time * group_index + iter_time
  let right_part_end_idx := 2 * (group_index + 1) * iter_time
  let left_part_start_idx := 2 * iter_time * group_index
  let left_part_end_idx := 2 * iter_time * group_index + iter_time
  let st := overflowCheck ceiling_dc floor_dc
    (slice diff right_part_start_idx right_part_end_idx) (0, true)
  (overflowCheck ceiling_dc floor_dc
    (slice diff left_part_start_idx left_part_end_idx) st).2

/-- The three `memcpy` calls that exchange the two halves of a window. -/
def swapHalves (diff : List Int) (iter_time group_index : Nat) : List Int :=
  let right_part_start_idx := 2 * iter_time * group_index + iter_time
  let left_part_start_idx := 2 * iter_time * group_index
  let left_part_temp := slice diff left_part_start_idx (left_part_start_idx + iter_time)
  let diff1 := memcpyAt diff left_part_start_idx
    (slice diff right_part_start_idx (right_part_start_idx + iter_time))
  memcpyAt diff1 right_part_start_idx left_part_temp

/-- The body of the inner loop of `dccIterSwap` for one window; `rp_iter` is
`rp[iter_time - 1]`.  The body of `reDccIterSwap` is the same code. -/
def swapGroup (ceiling_dc floor_dc : Int) (iter_time : Nat) (rp_iter : List randSequence)
    (diff : List Int) (group_index : Nat) : List Int :=
  let swap_decision_number := (rp_iter.getD group_index ⟨0, 0⟩).number
  if canSwap ceiling_dc floor_dc diff iter_time group_index = true then
    if swap_decision_number % 2 = 1 then swapHalves diff iter_time group_index else diff
  else diff

/-- One iteration `iter_time` of the outer loop: all its windows, left to right. -/
def swapIteration (ceiling_dc floor_dc : Int) (rp : List (List randSequence))
    (iters_group_num : List Nat) (diff : List Int) (iter_time : Nat) : List Int :=
  (List.range (iters_group_num.getD (iter_time - 1) 0)).foldl
    (swapGroup ceiling_dc floor_dc iter_time (rp.getD (iter_time - 1) [])) diff

/-- The function `dccIterSwap`: iterations `1, ..., iter_times` in ascending order. -/
def dccIterSwap (iter_times : Nat) (ceiling_dc floor_dc : Int)
    (rp : List (List randSequence)) (diff : List Int) (iters_group_num : List Nat) :
    List Int :=
  (List.range' 1 iter_times).foldl (swapIteration ceiling_dc floor_dc rp iters_group_num) diff

/-- The function `reDccIterSwap`: iterations `iter_times, ..., 1` in descending order. -/
def reDccIterSwap (iter_times : Nat) (ceiling_dc floor_dc : Int)
    (rp : List (List randSequence)) (diff : List Int) (iters_group_num : List Nat) :
    List Int :=
  (List.range' 1 iter_times).reverse.foldl
    (swapIteration ceiling_dc floor_dc rp iters_group_num) diff

/-- The array `iters_group_num_ptr` filled by `encrypt` and by `decrypt`:
`block_sum / (iter_time_val * 2)` for `iter_time_val = 1, ..., iter_times`. -/
def itersGroupNum (iter_times block_sum : Nat) : List Nat :=
  (List.range' 1 iter_times).map (fun iter_time_val => block_sum / (iter_time_val * 2))

/-- The reconstructed absolute DC values: the running sums of the differences, from 0. -/
def runningSums : List Int → Int → List Int
  | [], _ => []
  | d :: ds, prev_dc => (d + prev_dc) :: runningSums ds (d + prev_dc)

/-! ## DCSignGroupScrambler -/

/-- The call of `std::sort` on a vector of `intPair` with the comparator `lhs.value < rhs.value`. -/
def sortIntPair (l : List intPair) : List intPair :=
  l.insertionSort (fun a b => a.value ≤ b.value)

/-- The call of `std::sort` on a vector of `randSequence` with the comparator `lhs.value < rhs.value`. -/
def sortRand (l : List randSequence) : List randSequence :=
  l.insertionSort (fun a b => a.value ≤ b.value)

/-- The grouping loop of `encrypt` (and of `decrypt`) from `block_idx = 1` on: the arguments
are the remaining differences, `current_sign` and `group_diff_num_current`; the result is
`groups_diff_num_ptr[0 .. group_sum]`, the last entry being stored after the loop. -/
def signGroupLoop : List Int → Bool → Nat → List Nat
  | [], _, group_diff_num_current => [group_diff_num_current]
  | d :: ds, current_sign, group_diff_num_current =>
    if (d ≥ 0 ∧ current_sign = true) ∨ (d < 0 ∧ current_sign = false) then
      signGroupLoop ds current_sign (group_diff_num_current + 1)
    else
      group_diff_num_current :: signGroupLoop ds (!current_sign) 1

/-- The group sizes `groups_diff_num_ptr[0 .. group_sum]` computed from `diff_ptr`.  With
`block_sum = 0` the loop body never runs and the single entry stored is `0`. -/
def groupsDiffNum : List Int → List Nat
  | [] => [0]
  | d :: ds => signGroupLoop ds (decide (d ≥ 0)) 1

/-- Step 2 of the stage: `groups_diff_ptr[group_idx]` is a copy of `num_in_group` values
of `diff_ptr` taken at the running offset `diff_index_offset`. -/
def copyGroups : List Nat → List Int → List (List Int)
  | [], _ => []
  | num_in_group :: nums, diff => diff.take num_in_group :: copyGroups nums (diff.drop num_in_group)

/-- The `intPair` vector of one group before it is sorted: `number` is the local index,
`value` the `number` of the next entries of the sorted global sequence. -/
def groupPairs (ranks : List randSequence) : List intPair :=
  (List.range ranks.length).map (fun diff_idx => ⟨diff_idx, (ranks.getD diff_idx ⟨0, 0⟩).number⟩)

/-- Step 4 of the stage: the sorted global sequence `temp_rp1` is handed out to the groups
from left to right (`rand_index_counter`), every group taking `num_in_group` entries, and
each group's `intPair` vector is sorted by `value`. -/
def assignRanks : List Nat → List randSequence → List (List intPair)
  | [], _ => []
  | num_in_group :: nums, temp_rp1 =>
    sortIntPair (groupPairs (temp_rp1.take num_in_group)) ::
      assignRanks nums (temp_rp1.drop num_in_group)

/-- The value of `rand_index_counter` after step 4: the counter is incremented once for
every `diff_idx` of every group, whatever the size of the group. -/
def randIndexCounter (groups_diff_num : List Nat) : Nat :=
  groups_diff_num.foldl (fun rand_index_counter num_in_group =>
    (List.range num_in_group).foldl (fun counter _ => counter + 1) rand_index_counter) 0

/-- The assertion `assert(num_in_group >= 1)` of step 4, over all groups. -/
def groupsAsserted (groups_diff_num : List Nat) : Bool :=
  groups_diff_num.all (fun num_in_group => decide (num_in_group ≥ 1))

/-- The body of `scrambleSameSignDccGroup` for one group: a group of one value is skipped,
otherwise position `diff_index` receives `group_dc_temp[rp[diff_index].number]`. -/
def scrambleGroup (rp_group : List intPair) (group : List Int) (group_diff_num : Nat) :
    List Int :=
  if group_diff_num = 1 then group
  else
    let group_dc_temp := group
    (List.range group_diff_num).foldl (fun g diff_index =>
      g.set diff_index (group_dc_temp.getD (rp_group.getD diff_index ⟨0, 0⟩).number 0)) group

/-- The body of `reScrambleSameSignDccGroup` for one group: position
`rp[diff_index].number` receives `group_dc_temp[diff_index]`. -/
def reScrambleGroup (rp_group : List intPair) (group : List Int) (group_diff_num : Nat) :
    List Int :=
  if group_diff_num = 1 then group
  else
    let group_dc_temp := group
    (List.range group_diff_num).foldl (fun g diff_index =>
      g.set (rp_group.getD diff_index ⟨0, 0⟩).number (group_dc_temp.getD diff_index 0)) group

/-- The function `scrambleSameSignDccGroup`, over all groups. -/
def scrambleSameSignDccGroup : List (List intPair) → List (List Int) → List Nat →
    List (List Int)
  | rp_group :: rp, group :: groups, num :: nums =>
    scrambleGroup rp_group group num :: scrambleSameSignDccGroup rp groups nums
  | _, groups, _ => groups

/-- The function `reScrambleSameSignDccGroup`, over all groups. -/
def reScrambleSameSignDccGroup : List (List intPair) → List (List Int) → List Nat →
    List (List Int)
  | rp_group :: rp, group :: groups, num :: nums =>
    reScrambleGroup rp_group group num :: reScrambleSameSignDccGroup rp groups nums
  | _, groups, _ => groups

/-- Step 6 of the stage: the groups are copied back into `diff_ptr` at the running offset
`diff_index_offset`; a group of one value is skipped. -/
def writeBackGroups : List (List Int) → List Nat → Nat → List Int → List Int
  | group :: groups, num_in_group :: nums, diff_index_offset, diff =>
    if num_in_group = 1 then
      writeBackGroups groups nums (diff_index_offset + 1) diff
    else
      writeBackGroups groups nums (diff_index_offset + num_in_group)
        (memcpyAt diff diff_index_offset (group.take num_in_group))
  | _, _, _, diff => diff

/-- The sign-group stage of `encrypt`, steps 1, 2 and 4 to 6, given the sorted global
sequence `temp_rp1` of step 3. -/
def signGroupStage (temp_rp1 : List randSequence) (diff : List Int) : List Int :=
  let groups_diff_num := groupsDiffNum diff
  let groups_diff := copyGroups groups_diff_num diff
  let rp1 := assignRanks groups_diff_num temp_rp1
  writeBackGroups (scrambleSameSignDccGroup rp1 groups_diff groups_diff_num)
    groups_diff_num 0 diff

/-- The sign-group stage of `decrypt`: the groups are recomputed from the current
`diff_ptr`, the same global sequence is handed out left to right, and the groups are put
through `reScrambleSameSignDccGroup`. -/
def reSignGroupStage (temp_rp1 : List randSequence) (diff : List Int) : List Int :=
  let groups_diff_num := groupsDiffNum diff
  let groups_diff := copyGroups groups_diff_num diff
  let rp1 := assignRanks groups_diff_num temp_rp1
  writeBackGroups (reScrambleSameSignDccGroup rp1 groups_diff groups_diff_num)
    groups_diff_num 0 diff

/-! ## ACBlockScrambler (`scrambleMcuNoDcc`, `reScrambleMcuNoDcc`) -/

/-- The function `scrambleMcuNoDcc`: block `i` receives a copy of the block that was at
position `rp[i].number`. -/
def scrambleMcuNoDcc (rp : List randSequence) (ac : List (List Int)) : List (List Int) :=
  let temp_ac := ac
  (List.range ac.length).foldl (fun a i =>
    a.set i (temp_ac.getD (rp.getD i ⟨0, 0⟩).number [])) ac

/-- The function `reScrambleMcuNoDcc`: block `rp[i].number` receives a copy of the block
that was at position `i`. -/
def reScrambleMcuNoDcc (rp : List randSequence) (ac : List (List Int)) : List (List Int) :=
  let temp_ac := ac
  (List.range ac.length).foldl (fun a i =>
    a.set (rp.getD i ⟨0, 0⟩).number (temp_ac.getD i [])) ac

/-! ## ACRunClassScrambler (`scrambleSameRunAcc`, `reScrambleSameRunAcc`) -/

/-- The first scan of one block: `runs_ac_num_ptr` and `zero_run_count` are updated for
each AC value in zigzag order. -/
def countBlock (ceiling_run : Nat) : List Int → List Nat × Nat → List Nat × Nat
  | [], st => st
  | v :: vs, (runs_ac_num, zero_run_count) =>
    if v ≠ 0 then
      countBlock ceiling_run vs
        (if zero_run_count < ceiling_run then
          runs_ac_num.set zero_run_count (runs_ac_num.getD zero_run_count 0 + 1)
         else runs_ac_num, 0)
    else
      countBlock ceiling_run vs (runs_ac_num, zero_run_count + 1)

/-- The array `runs_ac_num_ptr`: for each run length below `ceiling_run`, the number of
nonzero AC coefficients preceded by that many zeros; `zero_run_count` restarts at `0` in
every block. -/
def countRuns (ceiling_run : Nat) (ac : List (List Int)) : List Nat :=
  ac.foldl (fun runs_ac_num blk => (countBlock ceiling_run blk (runs_ac_num, 0)).1)
    (List.replicate ceiling_run 0)

/-- The second scan of one block: a nonzero value whose preceding run is below
`ceiling_run` is stored in the next free slot of its class (`counter_ptr`). -/
def recordBlock (ceiling_run block_idx : Nat) :
    List Int → Nat → List (List nonZeroAcInfo) × Nat → List (List nonZeroAcInfo) × Nat
  | [], _, st => st
  | v :: vs, zigzag_idx, (runs_ac_info, zero_run_count) =>
    if v ≠ 0 then
      recordBlock ceiling_run block_idx vs (zigzag_idx + 1)
        (if zero_run_count < ceiling_run then
          runs_ac_info.set zero_run_count
            (runs_ac_info.getD zero_run_count [] ++ [⟨block_idx, zigzag_idx, v⟩])
         else runs_ac_info, 0)
    else
      recordBlock ceiling_run block_idx vs (zigzag_idx + 1) (runs_ac_info, zero_run_count + 1)

/-- The second scan over the blocks from `block_idx` on. -/
def recordBlocks (ceiling_run : Nat) :
    List (List Int) → Nat → List (List nonZeroAcInfo) → List (List nonZeroAcInfo)
  | [], _, runs_ac_info => runs_ac_info
  | blk :: rest, block_idx, runs_ac_info =>
    recordBlocks ceiling_run rest (block_idx + 1)
      (recordBlock ceiling_run block_idx blk 0 (runs_ac_info, 0)).1

/-- The arrays `runs_ac_info_ptr[0 .. ceiling_run - 1]`. -/
def recordRuns (ceiling_run : Nat) (ac : List (List Int)) : List (List nonZeroAcInfo) :=
  recordBlocks ceiling_run ac 0 (List.replicate ceiling_run [])

/-- The assignment `ac_ptr[block_position][zigzag_position] = v`. -/
def setAc (ac : List (List Int)) (block_position zigzag_position : Nat) (v : Int) :
    List (List Int) :=
  ac.set block_position ((ac.getD block_position []).set zigzag_position v)

/-- The value `ac_ptr[block_position][zigzag_position]`. -/
def getAc (ac : List (List Int)) (block_position zigzag_position : Nat) : Int :=
  (ac.getD block_position []).getD zigzag_position 0

/-- The body of `scrambleSameRunAcc` for one run-length class with `num_ac_in_run`
members: the recorded values are copied to `temp_ac_values`, then the position of member
`ac_count` receives `temp_ac_values[rp[run][ac_count].number]`. -/
def scrambleRun (rp_run : List randSequence) (info_run : List nonZeroAcInfo)
    (num_ac_in_run : Nat) (ac : List (List Int)) : List (List Int) :=
  let temp_ac_values :=
    (List.range num_ac_in_run).map (fun ac_count => (info_run.getD ac_count ⟨0, 0, 0⟩).value)
  (List.range num_ac_in_run).foldl (fun a ac_count =>
    let original_index := (rp_run.getD ac_count ⟨0, 0⟩).number
    let block_position := (info_run.getD ac_count ⟨0, 0, 0⟩).blockPosition
    let zigzag_position := (info_run.getD ac_count ⟨0, 0, 0⟩).zigzagPosition
    setAc a block_position zigzag_position (temp_ac_values.getD original_index 0)) ac

/-- The body of `reScrambleSameRunAcc` for one run-length class: the current values at
the recorded positions are copied to `temp_ac_values`, then the position of member
`rp[run][ac_count].number` receives `temp_ac_values[ac_count]`. -/
def reScrambleRun (rp_run : List randSequence) (info_run : List nonZeroAcInfo)
    (num_ac_in_run : Nat) (ac : List (List Int)) : List (List Int) :=
  let temp_ac_values :=
    (List.range num_ac_in_run).map (fun ac_count =>
      getAc ac (info_run.getD ac_count ⟨0, 0, 0⟩).blockPosition
        (info_run.getD ac_count ⟨0, 0, 0⟩).zigzagPosition)
  (List.range num_ac_in_run).foldl (fun a ac_count =>
    let original_index_in_sorted_rp := (rp_run.getD ac_count ⟨0, 0⟩).number
    let block_position := (info_run.getD original_index_in_sorted_rp ⟨0, 0, 0⟩).blockPosition
    let zigzag_position := (info_run.getD original_index_in_sorted_rp ⟨0, 0, 0⟩).zigzagPosition
    setAc a block_position zigzag_position (temp_ac_values.getD ac_count 0)) ac

/-- The function `scrambleSameRunAcc`: the classes `0, ..., ceiling_run - 1` in order, a
class without members being skipped. -/
def scrambleSameRunAcc (ceiling_run : Nat) (rp : List (List randSequence))
    (ac : List (List Int)) (runs_ac_info : List (List nonZeroAcInfo))
    (runs_ac_num : List Nat) : List (List Int) :=
  (List.range ceiling_run).foldl (fun a run =>
    let num_ac_in_run := runs_ac_num.getD run 0
    if num_ac_in_run = 0 then a
    else scrambleRun (rp.getD run []) (runs_ac_info.getD run []) num_ac_in_run a) ac

/-- The function `reScrambleSameRunAcc`. -/
def reScrambleSameRunAcc (ceiling_run : Nat) (rp : List (List randSequence))
    (ac : List (List Int)) (runs_ac_info : List (List nonZeroAcInfo))
    (runs_ac_num : List Nat) : List (List Int) :=
  (List.range ceiling_run).foldl (fun a run =>
    let num_ac_in_run := runs_ac_num.getD run 0
    if num_ac_in_run = 0 then a
    else reScrambleRun (rp.getD run []) (runs_ac_info.getD run []) num_ac_in_run a) ac

/-! ## ChaoticSequenceGenerator -/

/-- The `mpf_class` operations used by the pipeline: the conversion of a decimal numeral
(`mpf_class(str, 128, 10)`), the product of two values and the difference `1 - x`. -/
structure Mpf where
  ofDecimal : ℚ → ℚ
  mul : ℚ → ℚ → ℚ
  oneSub : ℚ → ℚ

/-- The `Mpf` operations without rounding. -/
def exactMpf : Mpf := ⟨fun q => q, fun a b => a * b, fun x => 1 - x⟩

/-- The statement `x = u * x * (1 - x)`. -/
def logisticNext (M : Mpf) (u x : ℚ) : ℚ :=
  M.mul (M.mul u x) (M.oneSub x)

/-- A generation loop `for (i = ...; i < ...; ++i) { x = u * x * (1 - x); r.number = i;
r.value = x; push_back(r); }` with `count` iterations left, the next index being `i`; the
result is the vector built and the value of `x` after the loop. -/
def drawLoop (M : Mpf) (u : ℚ) : Nat → Nat → ℚ → List randSequence × ℚ
  | 0, _, x => ([], x)
  | count + 1, i, x =>
    let r := drawLoop M u count (i + 1) (logisticNext M u x)
    (⟨i, logisticNext M u x⟩ :: r.1, r.2)

/-- A generation loop from index `0` followed by `std::sort` on the values. -/
def drawSorted (M : Mpf) (u : ℚ) (count : Nat) (x : ℚ) : List randSequence × ℚ :=
  ((sortRand (drawLoop M u count 0 x).1), (drawLoop M u count 0 x).2)

/-- A sequence of generation loops, one sorted vector per entry of `counts` (the vectors
`rp2[iter_time_val - 1]` and `rp3[run_val]`). -/
def drawMany (M : Mpf) (u : ℚ) : List Nat → ℚ → List (List randSequence) × ℚ
  | [], x => ([], x)
  | count :: counts, x =>
    let r := drawMany M u counts (drawSorted M u count x).2
    ((drawSorted M u count x).1 :: r.1, r.2)

/-! ## KeyDerivation and FeatureFingerprint (`key.cpp`) -/

/-- The inner loop of `getImageFeature`: the number of nonzero values among the 63 AC
coefficients of a block. -/
def nonZeroAcCount (blk : List Int) : Nat :=
  blk.foldl (fun count v => if v ≠ 0 then count + 1 else count) 0

/-- The histogram `vec` of `getImageFeature`: 64 bins, bin `count` counting the blocks
with `count` nonzero AC coefficients. -/
def featureHistogram (blocks : List (List Int)) : List Nat :=
  blocks.foldl (fun vec blk =>
    if nonZeroAcCount blk < 64 then
      vec.set (nonZeroAcCount blk) (vec.getD (nonZeroAcCount blk) 0 + 1)
    else vec) (List.replicate 64 0)

/-- The inner loop of `getImageFeature` on the 64 coefficients of one block: `k` runs
from 1 to 63, the DC coefficient at index 0 is not read. -/
def blockAcCount (coef : List Int) : Nat :=
  (List.range' 1 63).foldl (fun count k => if coef.getD k 0 ≠ 0 then count + 1 else count) 0

/-- The histogram `vec` of `getImageFeature` computed from the blocks of 64 coefficients
of the luma plane: `if (count >= 0 && count < 64) ++vec[count]`. -/
def imageFeatureVec (blocks : List (List Int)) : List Nat :=
  blocks.foldl (fun vec coef =>
    if blockAcCount coef < 64 then
      vec.set (blockAcCount coef) (vec.getD (blockAcCount coef) 0 + 1)
    else vec) (List.replicate 64 0)

/-- The feature string `ss << (int)i << vec[i]` over all bins. -/
def featureString (vec : List Nat) : String :=
  String.join ((List.range vec.length).map (fun i => toString i ++ toString (vec.getD i 0)))

/-- The function `byteToBool`: every byte contributes its 8 bits, most significant first. -/
def byteToBool (hash : List Nat) : List Bool :=
  hash.flatMap (fun b => (List.range 8).map (fun j => (b / 2 ^ (7 - j)) % 2 = 1))

/-- The number of set bits among `hashBool[start], ..., hashBool[start + len - 1]`. -/
def countOnes (hashBool : List Bool) (start len : Nat) : Nat :=
  (List.range len).foldl (fun count1 j =>
    if hashBool.getD (start + j) false = true then count1 + 1 else count1) 0

/-- The digits that `initializeKey` appends for the 256-bit field starting at `offset`:
28 groups of 9 bits and one trailing group of `256 % 9 = 4` bits. -/
def keyDigits (hashBool : List Bool) (offset : Nat) : List Nat :=
  (List.range (256 / 9)).map (fun i => countOnes hashBool (offset + 9 * i) 9) ++
    [countOnes hashBool (offset + 9 * (256 / 9)) (256 % 9)]

/-- The value of the decimal numeral `int_part . digits`. -/
def decimalValue (int_part : Nat) (digits : List Nat) : ℚ :=
  (int_part : ℚ) + ((digits.foldl (fun n d => 10 * n + d) 0 : Nat) : ℚ) / (10 : ℚ) ^ digits.length

/-- The function `initializeKey`: the pair `(m_x, m_u)`. -/
def initializeKey (M : Mpf) (hashBool : List Bool) : ℚ × ℚ :=
  (M.ofDecimal (decimalValue 0 ([5, 2] ++ keyDigits hashBool 0)),
   M.ofDecimal (decimalValue 3 ([7, 2] ++ keyDigits hashBool 256)))

/-- The constructor `Key::Key` on a readable file whose luma blocks have the AC values
`blocks`; `sha3_512` maps the feature string to the 64 digest bytes. -/
def deriveKey (sha3_512 : String → List Nat) (M : Mpf) (blocks : List (List Int)) : ℚ × ℚ :=
  initializeKey M (byteToBool (sha3_512 (featureString (featureHistogram blocks))))

/-- The branch of `getImageFeature` for a file that cannot be opened:
`vec[i] = rand() % 100` for `i = 0, ..., 63`; `rand_results` are the values that the calls
of `rand()` return. -/
def fallbackFeatureVec (rand_results : List Nat) : List Nat :=
  (List.range 64).map (fun i => rand_results.getD i 0 % 100)

/-- The function `getImageFeature`: `file` is `none` when `fopen` fails and otherwise
holds the blocks of 64 coefficients of the luma plane; the result is the feature string. -/
def getImageFeature (file : Option (List (List Int))) (rand_results : List Nat) : String :=
  match file with
  | none => featureString (fallbackFeatureVec rand_results)
  | some blocks => featureString (imageFeatureVec blocks)

/-- The constructor `Key::Key` with both branches of `getImageFeature`: the pair
`(m_x, m_u)` for a file and the values that `rand()` would return. -/
def keyOfFile (sha3_512 : String → List Nat) (M : Mpf) (file : Option (List (List Int)))
    (rand_results : List Nat) : ℚ × ℚ :=
  initializeKey M (byteToBool (sha3_512 (getImageFeature file rand_results)))

/-! ## CoefficientPipeline (`encrypt`, `decrypt`) -/

/-- The generation loops of the two DC stages, which `encrypt` and `decrypt` run with
the same counts: `temp_rp1` (`block_sum` values, sorted), then `rp2` (for every
`iter_time_val` a sorted vector of `block_sum / (iter_time_val * 2)` values); the last
component is the generator value `x` after these loops. -/
def dcSchedule (M : Mpf) (iter_times : Nat) (u x : ℚ) (block_sum : Nat) :
    List randSequence × List (List randSequence) × ℚ :=
  let temp_rp1 := drawSorted M u block_sum x
  let rp2 := drawMany M u (itersGroupNum iter_times block_sum) temp_rp1.2
  (temp_rp1.1, rp2.1, rp2.2)

/-- The DC half of `encrypt`: the sign-group stage followed by the iterative swap. -/
def encryptDc (M : Mpf) (iter_times : Nat) (ceiling_dc floor_dc : Int) (u x : ℚ)
    (diff : List Int) : List Int :=
  let block_sum := diff.length
  let sched := dcSchedule M iter_times u x block_sum
  let diff1 := signGroupStage sched.1 diff
  dccIterSwap iter_times ceiling_dc floor_dc sched.2.1 diff1 (itersGroupNum iter_times block_sum)

/-- The AC half of `encrypt`: the run-class stage followed by the block stage; `x` is the
generator value on entry. -/
def encryptAc (M : Mpf) (ceiling_run : Nat) (u x : ℚ) (ac : List (List Int)) :
    List (List Int) :=
  let block_sum := ac.length
  let runs_ac_num := countRuns ceiling_run ac
  let runs_ac_info := recordRuns ceiling_run ac
  let rp3 := drawMany M u runs_ac_num x
  let ac1 := scrambleSameRunAcc ceiling_run rp3.1 ac runs_ac_info runs_ac_num
  let rp4 := drawSorted M u block_sum rp3.2
  scrambleMcuNoDcc rp4.1 ac1

/-- The AC half of `decrypt`: the class counts are taken from the blocks as received,
`rp3` and `rp4` are regenerated, the block stage is undone, the class members are
recomputed and the run-class stage is undone; `x` is the generator value after the
regeneration of `temp_rp1` and `rp2`. -/
def decryptAc (M : Mpf) (ceiling_run : Nat) (u x : ℚ) (ac : List (List Int)) :
    List (List Int) :=
  let block_sum := ac.length
  let runs_ac_num := countRuns ceiling_run ac
  let rp3 := drawMany M u runs_ac_num x
  let rp4 := drawSorted M u block_sum rp3.2
  let ac1 := reScrambleMcuNoDcc rp4.1 ac
  let runs_ac_info := recordRuns ceiling_run ac1
  reScrambleSameRunAcc ceiling_run rp3.1 ac1 runs_ac_info runs_ac_num

/-- The first DC step of `decrypt`: `reDccIterSwap` with the regenerated `rp2`. -/
def decryptUnswap (M : Mpf) (iter_times : Nat) (ceiling_dc floor_dc : Int) (u x : ℚ)
    (diff : List Int) : List Int :=
  let block_sum := diff.length
  let sched := dcSchedule M iter_times u x block_sum
  reDccIterSwap iter_times ceiling_dc floor_dc sched.2.1 diff (itersGroupNum iter_times block_sum)

/-- The DC half of `decrypt`: the iterative swap and the sign-group stage are undone in
that order, with the regenerated `temp_rp1` and `rp2`. -/
def decryptDc (M : Mpf) (iter_times : Nat) (ceiling_dc floor_dc : Int) (u x : ℚ)
    (diff : List Int) : List Int :=
  reSignGroupStage (dcSchedule M iter_times u x diff.length).1
    (decryptUnswap M iter_times ceiling_dc floor_dc u x diff)

/-- The function `encrypt` with the key `(x, u)`: `none` when `assert(num_in_group >= 1)`
fails, otherwise the new `diff_ptr` and `ac_ptr`. -/
def encrypt (M : Mpf) (iter_times ceiling_run : Nat) (ceiling_dc floor_dc : Int) (x u : ℚ)
    (diff : List Int) (ac : List (List Int)) : Option (List Int × List (List Int)) :=
  if groupsAsserted (groupsDiffNum diff) = true then
    some (encryptDc M iter_times ceiling_dc floor_dc u x diff,
      encryptAc M ceiling_run u (dcSchedule M iter_times u x diff.length).2.2 ac)
  else none

/-- The function `decrypt` with the key `(x, u)`: `none` when `assert(num_in_group >= 1)`
fails, otherwise the new `diff_ptr` and `ac_ptr`. -/
def decrypt (M : Mpf) (iter_times ceiling_run : Nat) (ceiling_dc floor_dc : Int) (x u : ℚ)
    (diff : List Int) (ac : List (List Int)) : Option (List Int × List (List Int)) :=
  if groupsAsserted (groupsDiffNum
      (decryptUnswap M iter_times ceiling_dc floor_dc u x diff)) = true then
    some (decryptDc M iter_times ceiling_dc floor_dc u x diff,
      decryptAc M ceiling_run u (dcSchedule M iter_times u x diff.length).2.2 ac)
  else none

/-! ## Extraction and write-back (`proposedEncryptionScheme`) -/

/-- The conversion of an `int` value to `JCOEF`, a 16-bit `short`, when it is stored. -/
def toJcoef (v : Int) : Int := (v + 32768) % 65536 - 32768

/-- The C library function `round`: the nearest integer, halfway cases away from zero.
The argument is the exact quotient; the `double` quotient of two integers below `2 ^ 16`
rounds to the same integer. -/
def cRound (x : ℚ) : Int := if 0 ≤ x then Int.floor (x + 1 / 2) else Int.ceil (x - 1 / 2)

/-- The assignment `ceiling_dc = round((double)(1016) / dc_step)`. -/
def ceilingDc (dc_step : Nat) : Int := cRound ((1016 : ℚ) / (dc_step : ℚ))

/-- The assignment `floor_dc = round((double)(-1024) / dc_step)`. -/
def floorDc (dc_step : Nat) : Int := cRound ((-1024 : ℚ) / (dc_step : ℚ))

/-- The adjustment `if (block_width % 2 != 0) block_width--` (and the same for
`block_height`). -/
def evenDim (n : Nat) : Nat := if n % 2 ≠ 0 then n - 1 else n

/-- The positions `(h, w)` in the order in which the luma plane of a multi-channel image
is traversed: `h_mcu` and `w_mcu` step by 2 below `block_height` and `block_width`, and
each step visits `(h_mcu, w_mcu)`, `(h_mcu, w_mcu + 1)`, `(h_mcu + 1, w_mcu)`,
`(h_mcu + 1, w_mcu + 1)`. -/
def lumaOrder (block_height block_width : Nat) : List (Nat × Nat) :=
  (List.range ((block_height + 1) / 2)).flatMap (fun i =>
    (List.range ((block_width + 1) / 2)).flatMap (fun j =>
      [(2 * i, 2 * j), (2 * i, 2 * j + 1), (2 * i + 1, 2 * j), (2 * i + 1, 2 * j + 1)]))

/-- The positions `(h, w)` in raster order, the traversal of the other planes. -/
def rasterOrder (block_height block_width : Nat) : List (Nat × Nat) :=
  (List.range block_height).flatMap (fun h => (List.range block_width).map (fun w => (h, w)))

/-- The block `block_array[h][w]`: a list of 64 coefficients. -/
def getBlock (block_array : List (List (List Int))) (h w : Nat) : List Int :=
  (block_array.getD h []).getD w []

/-- The array `block_array` after the block at `[h][w]` has been overwritten. -/
def setBlock (block_array : List (List (List Int))) (h w : Nat) (blk : List Int) :
    List (List (List Int)) :=
  block_array.set h ((block_array.getD h []).set w blk)

/-- The extraction loop over the positions of a traversal: for each block,
`diff_ptr[block_index] = block_ptr[0] - prev_dc`, `prev_dc = block_ptr[0]`, and the AC
values are copied through `zigzag`.  The result is `(diff_ptr, ac_ptr)`. -/
def extractLoop (block_array : List (List (List Int))) :
    List (Nat × Nat) → Int → List Int × List (List Int)
  | [], _ => ([], [])
  | (h, w) :: rest, prev_dc =>
    let block_ptr := getBlock block_array h w
    let r := extractLoop block_array rest (block_ptr.getD 0 0)
    (toJcoef (block_ptr.getD 0 0 - prev_dc) :: r.1, extractAc block_ptr :: r.2)

/-- The write-back of the AC values of one block:
`block_ptr[zigzag[i_zigzag]] = ac_ptr[block_index][i_zigzag]` for `i_zigzag = 0, ..., 62`. -/
def writeAc (block_ptr ac : List Int) : List Int :=
  (List.range 63).foldl (fun b i_zigzag =>
    b.set (zigzag.getD i_zigzag 0) (ac.getD i_zigzag 0)) block_ptr

/-- The write-back loop over the positions of a traversal, from `block_index` on:
`block_ptr[0] = diff_ptr[block_index] + prev_dc`, `prev_dc = block_ptr[0]`, then the AC
values are written through `zigzag`. -/
def writeBackLoop (diff : List Int) (ac : List (List Int)) :
    List (Nat × Nat) → Nat → Int → List (List (List Int)) → List (List (List Int))
  | [], _, _, block_array => block_array
  | (h, w) :: rest, block_index, prev_dc, block_array =>
    let block_ptr := (getBlock block_array h w).set 0
      (toJcoef (diff.getD block_index 0 + prev_dc))
    writeBackLoop diff ac rest (block_index + 1) (block_ptr.getD 0 0)
      (setBlock block_array h w (writeAc block_ptr (ac.getD block_index [])))

/-! ## Closed forms used in the proofs -/

/-- The sign class of a DC difference: `true` for a value `>= 0`. -/
def signClass (d : Int) : Bool := decide (d ≥ 0)

/-- The result of the sign-group stage read group by group: `F` is the body of
`scrambleSameSignDccGroup` or of `reScrambleSameSignDccGroup`. -/
def stageGroups (F : List intPair → List Int → Nat → List Int) :
    List Nat → List randSequence → List Int → List Int
  | [], _, _ => []
  | num_in_group :: nums, temp_rp1, diff =>
    F (sortIntPair (groupPairs (temp_rp1.take num_in_group))) (diff.take num_in_group)
        num_in_group ++
      stageGroups F nums (temp_rp1.drop num_in_group) (diff.drop num_in_group)

/-- A position that the block array has. -/
def validPos (ac : List (List Int)) (p : Nat × Nat) : Prop :=
  p.1 < ac.length ∧ p.2 < (ac.getD p.1 []).length

/-- The position recorded in a `nonZeroAcInfo`. -/
def infoPos (e : nonZeroAcInfo) : Nat × Nat := (e.blockPosition, e.zigzagPosition)

/-- The records that the scan of one block makes, in scan order, each with the class
(the value of `zero_run_count`) under which it is stored. -/
def blockEvents (ceiling_run block_idx : Nat) : List Int → Nat → Nat → List (Nat × nonZeroAcInfo)
  | [], _, _ => []
  | v :: vs, zigzag_idx, zero_run_count =>
    if v ≠ 0 then
      (if zero_run_count < ceiling_run then
        [(zero_run_count, (⟨block_idx, zigzag_idx, v⟩ : nonZeroAcInfo))] else []) ++
        blockEvents ceiling_run block_idx vs (zigzag_idx + 1) 0
    else
      blockEvents ceiling_run block_idx vs (zigzag_idx + 1) (zero_run_count + 1)

/-- The records that the scan of all blocks from `block_idx` on makes, in scan order. -/
def allEvents (ceiling_run : Nat) : List (List Int) → Nat → List (Nat × nonZeroAcInfo)
  | [], _ => []
  | blk :: rest, block_idx =>
    blockEvents ceiling_run block_idx blk 0 0 ++ allEvents ceiling_run rest (block_idx + 1)

/-- The statement `++runs_ac_num_ptr[run]`. -/
def bumpCount (runs_ac_num : List Nat) (run : Nat) : List Nat :=
  runs_ac_num.set run (runs_ac_num.getD run 0 + 1)

/-- The storing of one record in the next free slot of its class. -/
def pushInfo (runs_ac_info : List (List nonZeroAcInfo)) (e : Nat × nonZeroAcInfo) :
    List (List nonZeroAcInfo) :=
  runs_ac_info.set e.1 (runs_ac_info.getD e.1 [] ++ [e.2])

/-- The zero pattern of a block array: which coefficients are zero. -/
def zeroPattern (ac : List (List Int)) : List (List Bool) :=
  ac.map (fun blk => blk.map (fun v => decide (v = 0)))

/-- The position of member `i` of class `r`. -/
def classPos (runs_ac_info : List (List nonZeroAcInfo)) (r i : Nat) : Nat × Nat :=
  infoPos ((runs_ac_info.getD r []).getD i ⟨0, 0, 0⟩)

/-- The index `rp[r][i].number`. -/
def classIdx (rp : List (List randSequence)) (r i : Nat) : Nat :=
  ((rp.getD r []).getD i ⟨0, 0⟩).number

/-- The sum of the absolute values of a sequence of differences. -/
def absSum (l : List Int) : Int := (l.map (fun d => abs d)).sum

/-- One window of `2 * t` values at the head of a list: its right half followed by its
left half when `b` is set, the window as it is otherwise. -/
def swapChunk (t : Nat) (b : Bool) (l : List Int) : List Int :=
  if b then (l.drop t).take t ++ l.take t else l.take (2 * t)

/-- One iteration of the swap when no guard fires, read window by window: the windows of
`2 * t` values whose flag is set have their halves exchanged. -/
def swapChunks (t : Nat) : List Bool → List Int → List Int
  | [], l => l
  | b :: bs, l => swapChunk t b l ++ swapChunks t bs (l.drop (2 * t))

/-! ## Draw schedule, descriptors and the specification's reading of the sign stage -/

/-- The descriptors `(i, value_i)`, `i = 0, ..., n - 1`, that a generation loop builds
from the `n` values it draws, before they are sorted. -/
def descriptors (values : List ℚ) : List randSequence :=
  (List.range values.length).map (fun i => ⟨i, values.getD i 0⟩)

/-- The draw counts of the four stages as they are computed from the coefficients at
hand, by `encrypt` from its input and by `decrypt` from the coefficients it receives:
`block_sum` for the sign-group stage, `block_sum / (2 * iter_time_val)` for every
iteration, `runs_ac_num_ptr` for the run-length classes and `block_sum` for the block
stage. -/
def drawCounts (iter_times ceiling_run : Nat) (diff : List Int) (ac : List (List Int)) :
    Nat × List Nat × List Nat × Nat :=
  (diff.length, itersGroupNum iter_times diff.length, countRuns ceiling_run ac, ac.length)

/-- The sorted descriptor sequences `temp_rp1`, `rp2`, `rp3` and `rp4`, generated in this
order from the key `(x, u)` with the draw counts computed from the coefficients at
hand. -/
def drawSchedule (M : Mpf) (iter_times ceiling_run : Nat) (u x : ℚ) (diff : List Int)
    (ac : List (List Int)) :
    List randSequence × List (List randSequence) × List (List randSequence) ×
      List randSequence :=
  let dc := dcSchedule M iter_times u x diff.length
  let rp3 := drawMany M u (countRuns ceiling_run ac) dc.2.2
  let rp4 := drawSorted M u ac.length rp3.2
  (dc.1, dc.2.1, rp3.1, rp4.1)

/-- The total number of nonzero AC coefficients of all blocks. -/
def totalNonZero (ac : List (List Int)) : Nat :=
  (ac.map nonZeroAcCount).sum

/-- The permutation that section 4.3 of the specification describes for one run: the
run's own draws are paired with the local indices `0, ..., L - 1` and sorted ascending by
value; entry `i` is the local index found at position `i`. -/
def specRunPermutation (draws : List ℚ) : List Nat :=
  (sortRand (descriptors draws)).map (fun r => r.number)

/-- The forward step that section 4.3 of the specification describes for one run:
`group[i] = original_group[π(i)]` with `π = specRunPermutation draws`. -/
def specScrambleRun (draws : List ℚ) (group : List Int) : List Int :=
  (specRunPermutation draws).map (fun j => group.getD j 0)

/-- The first position of group `k`: the sum of the sizes of the groups before it. -/
def groupOffset (groups_diff_num : List Nat) (k : Nat) : Nat :=
  (groups_diff_num.take k).sum

/-- The part of an array that belongs to group `k`: `num_in_group` entries from the
running offset of the group on. -/
def groupSlice {α : Type} (a : List α) (groups_diff_num : List Nat) (k : Nat) : List α :=
  slice a (groupOffset groups_diff_num k)
    (groupOffset groups_diff_num k + groups_diff_num.getD k 0)

/-- The local indices of `rp1[k]` as `encrypt` builds it: the pairs of group `k` are made
from the entries of the sorted global sequence at the positions of the group and sorted
by the global `number` they carry. -/
def codeRunPermutation (temp_rp1 : List randSequence) (groups_diff_num : List Nat)
    (k : Nat) : List Nat :=
  (sortIntPair (groupPairs (groupSlice temp_rp1 groups_diff_num k))).map (fun p => p.number)

/-! ## The specification's reading of draw counts, run classes, digits and the scan -/

/-- The number of draws that section 4.3 of the specification gives for the sign-group
stage: the sum of `L` over the runs with `L > 1`. -/
def specSignStageDraws (diff : List Int) : Nat :=
  ((groupsDiffNum diff).filter (fun L => decide (1 < L))).sum

/-- The number of consecutive zero coefficients that immediately precede position `z` of
a block, counted back to the previous nonzero coefficient or to the block start. -/
def zeroRunBefore (blk : List Int) (z : Nat) : Nat :=
  ((blk.take z).reverse.takeWhile (fun v => decide (v = 0))).length

/-- The members of run-length class `r` as section 4.5 of the specification describes
them: in block-then-zigzag order, the nonzero AC coefficients preceded by exactly `r`
zeros, each with its block position, zigzag position and value. -/
def specClass (ac : List (List Int)) (r : Nat) : List nonZeroAcInfo :=
  (List.range ac.length).flatMap (fun b =>
    ((List.range (ac.getD b []).length).filter (fun z =>
      decide (getAc ac b z ≠ 0) && decide (zeroRunBefore (ac.getD b []) z = r))).map
      (fun z => (⟨b, z, getAc ac b z⟩ : nonZeroAcInfo)))

/-- The population count of a group of bits. -/
def popCount (bits : List Bool) : Nat := bits.count true

/-- The number of nonzero coefficients among the 63 AC positions `1, ..., 63` of a block
of 64 coefficients. -/
def nonZeroAmongAc (coef : List Int) : Nat :=
  ((List.range' 1 63).filter (fun k => decide (coef.getD k 0 ≠ 0))).length

/-- The zigzag scan of an 8x8 block as row-major indices `8 * row + column`: the
anti-diagonals `row + column = 0, 1, ..., 14` in order, an odd one walked with the row
ascending and an even one with the row descending. -/
def zigzagScan : List Nat :=
  (List.range 15).flatMap (fun s =>
    let diag := ((List.range 8).filter (fun r => decide (r ≤ s ∧ s - r < 8))).map
      (fun r => 8 * r + (s - r))
    if s % 2 = 1 then diag else diag.reverse)

/-- The histogram of nonzero-AC counts as section 4.1 of the specification describes it:
bin `k`, for `k = 0, ..., 63`, is the number of blocks with exactly `k` nonzero
coefficients among their 63 AC positions. -/
def specHistogram (blocks : List (List Int)) : List Nat :=
  (List.range 64).map (fun k => blocks.countP (fun coef => decide (nonZeroAmongAc coef = k)))

/-! ## Sample data -/

/-- Sorted decision vectors for four blocks: two windows in iteration 1 (the first with
decision 0, the second with decision 1), one window in iteration 2 and none later. -/
def sampleRp : List (List randSequence) :=
  [[⟨0, 1 / 4⟩, ⟨1, 1 / 2⟩], [⟨0, 1 / 3⟩]] ++ List.replicate 13 []

/-- Four AC blocks of 63 zero coefficients. -/
def zeroBlocks : List (List Int) := List.replicate 4 (List.replicate 63 0)

/-- The value `x0` that `initializeKey` derives, without rounding, for an image of four
blocks whose AC coefficients are all zero (feature string `04102030...630`). -/
def zeroBlocksX : ℚ := 5255235534454474644444335343442 / 10000000000000000000000000000000

/-- The value `u` that `initializeKey` derives, without rounding, for the same image. -/
def zeroBlocksU : ℚ := 37233566451525452356862577533553 / 10000000000000000000000000000000

/-- The DC differences of the example scenario. -/
def sampleDiff : List Int := [3, -1, -2, 5, 0, -4]

/-- A sorted global sequence for six blocks: its indices are a rearrangement of
`0, ..., 5`. -/
def sampleTempRp1 : List randSequence :=
  [⟨5, 1 / 7⟩, ⟨3, 1 / 5⟩, ⟨1, 1 / 3⟩, ⟨0, 1 / 2⟩, ⟨4, 2 / 3⟩, ⟨2, 3 / 4⟩]

/-- Six AC blocks of 63 coefficients, a few of them nonzero. -/
def sampleAc : List (List Int) :=
  [[0, 5, 0, 0, 3, 1] ++ List.replicate 57 0,
   [7, 0, 2, 0, 0, 9] ++ List.replicate 57 0,
   [1, 2, 0, 0, -4, 6] ++ List.replicate 57 0,
   List.replicate 63 0,
   [0, 0, 0, -2] ++ List.replicate 59 0,
   [4] ++ List.replicate 62 0]

/-- Index vectors for the run-length classes of `sampleAc`: every class is reversed. -/
def sampleRp3 : List (List randSequence) :=
  (countRuns 63 sampleAc).map (fun n =>
    (List.range n).reverse.map (fun i => (⟨i, 0⟩ : randSequence)))

/-- A sorted index vector for six blocks. -/
def sampleRp4 : List randSequence :=
  [⟨2, 1 / 7⟩, ⟨5, 1 / 5⟩, ⟨0, 1 / 3⟩, ⟨3, 1 / 2⟩, ⟨1, 2 / 3⟩, ⟨4, 3 / 4⟩]

/-- Four draws for one run of four values. -/
def sampleDraws : List ℚ := [9 / 10, 1 / 5, 7 / 10, 4 / 5]

/-- The sorted global sequence built from `sampleDraws`. -/
def sampleDrawsSorted : List randSequence :=
  [⟨1, 1 / 5⟩, ⟨2, 7 / 10⟩, ⟨3, 4 / 5⟩, ⟨0, 9 / 10⟩]

/-- Six AC blocks with the same histogram as `sampleAc`: other values, other order. -/
def sampleAcB : List (List Int) :=
  [[-3] ++ List.replicate 62 0,
   List.replicate 63 0,
   [0, 1, 1, 0, 0, 0, 1] ++ List.replicate 56 0,
   [2, 2, 2, 2] ++ List.replicate 59 0,
   List.replicate 62 0 ++ [8],
   List.replicate 60 0 ++ [1, -1, 5]]

/-- Three blocks of 64 coefficients: the first has a nonzero DC coefficient and no
nonzero AC coefficient, the other two have exactly one nonzero AC coefficient. -/
def sampleCoef : List (List Int) :=
  [[7] ++ List.replicate 63 0, [0, 0, 4] ++ List.replicate 61 0, [1, -3] ++ List.replicate 62 0]

/-- A grid of two rows of two blocks of 64 coefficients; the difference of the first two
DC values does not fit into 16 bits. -/
def sampleGrid : List (List (List Int)) :=
  [[[30000] ++ List.replicate 63 0, [-30000, 5] ++ List.replicate 62 0],
   [[7, 0, 4] ++ List.replicate 61 0, [-3] ++ List.replicate 63 1]]

/-- A target grid of two rows of two blocks whose 64 coefficients are all 9. -/
def sampleTarget : List (List (List Int)) :=
  List.replicate 2 (List.replicate 2 (List.replicate 64 9))

/-- Three blocks with the histogram of `sampleCoef`: other DC values, other AC values at
other positions, another order. -/
def sampleCoefB : List (List Int) :=
  [[-2] ++ List.replicate 62 0 ++ [6], List.replicate 5 0 ++ [-1] ++ List.replicate 58 0,
   [100] ++ List.replicate 63 0]

/-! # Properties -/

/-! ## Array lemmas -/

theorem getD_set_same {α : Type} (l : List α) (i : Nat) (a d : α) (h : i < l.length) :
    (l.set i a).getD i d = a := by
  simp [List.getD_eq_getElem?_getD, List.getElem?_set, h]

theorem getD_set_other {α : Type} (l : List α) (i j : Nat) (a d : α) (h : i ≠ j) :
    (l.set i a).getD j d = l.getD j d := by
  simp [List.getD_eq_getElem?_getD, List.getElem?_set, h]

theorem ext_getD {α : Type} (d : α) (l₁ l₂ : List α) (hlen : l₁.length = l₂.length)
    (h : ∀ i, i < l₁.length → l₁.getD i d = l₂.getD i d) : l₁ = l₂ := by
  apply List.ext_getElem hlen
  intro i h1 h2
  have := h i h1
  rwa [List.getD_eq_getElem _ _ h1, List.getD_eq_getElem _ _ h2] at this

/-- A loop that writes `f i` to slot `i` for `i < n` builds the list of the `f i`. -/
theorem foldl_set_gather {α : Type} (f : Nat → α) (n : Nat) (g : List α) (hn : n ≤ g.length) :
    (List.range n).foldl (fun a i => a.set i (f i)) g = (List.range n).map f ++ g.drop n := by
  induction n with
  | zero => simp
  | succ k ih =>
    rw [List.range_succ, List.foldl_append, ih (by omega)]
    simp only [List.foldl_cons, List.foldl_nil, List.map_append, List.map_cons, List.map_nil]
    have hlen : ((List.range k).map f).length = k := by simp
    rw [List.set_append_right _ _ (by omega), hlen, Nat.sub_self]
    have hd : g.drop k = g[k] :: g.drop (k + 1) := by
      rw [List.drop_eq_getElem_cons]
    rw [hd, List.set_cons_zero]
    simp

theorem length_foldl_set {α : Type} (s : Nat → Nat) (v : Nat → α) (n : Nat) (g : List α) :
    ((List.range n).foldl (fun a i => a.set (s i) (v i)) g).length = g.length := by
  induction n with
  | zero => simp
  | succ k ih => rw [List.range_succ, List.foldl_append]; simp [ih]

/-- A scatter loop leaves a slot that no index hits unchanged. -/
theorem scatter_miss {α : Type} (s : Nat → Nat) (v : Nat → α) (n : Nat) (g : List α) (d : α)
    (j : Nat) (h : ∀ i, i < n → s i ≠ j) :
    ((List.range n).foldl (fun a i => a.set (s i) (v i)) g).getD j d = g.getD j d := by
  induction n with
  | zero => simp
  | succ k ih =>
    rw [List.range_succ, List.foldl_append]
    simp only [List.foldl_cons, List.foldl_nil]
    rw [getD_set_other _ _ _ _ _ (h k (by omega))]
    exact ih (fun i hi => h i (by omega))

/-- A scatter loop with pairwise distinct targets leaves `v i` in slot `s i`. -/
theorem scatter_hit {α : Type} (s : Nat → Nat) (v : Nat → α) (n : Nat) (g : List α) (d : α)
    (hinj : ∀ i, i < n → ∀ j, j < n → s i = s j → i = j)
    (i : Nat) (hi : i < n) (hs : s i < g.length) :
    ((List.range n).foldl (fun a i => a.set (s i) (v i)) g).getD (s i) d = v i := by
  induction n with
  | zero => omega
  | succ k ih =>
    rw [List.range_succ, List.foldl_append]
    simp only [List.foldl_cons, List.foldl_nil]
    by_cases hik : i = k
    · subst hik
      exact getD_set_same _ _ _ _ (by rw [length_foldl_set]; exact hs)
    · have hne : s k ≠ s i := fun he => hik (hinj i hi k (by omega) he.symm)
      rw [getD_set_other _ _ _ _ _ hne]
      exact ih (fun a ha b hb => hinj a (by omega) b (by omega)) (by omega)

/-! ## Index sequences that are permutations of `[0, n)` -/

theorem number_getD (rp : List randSequence) (i : Nat) :
    (rp.getD i ⟨0, 0⟩).number = (rp.map (fun r => r.number)).getD i 0 := by
  simp only [List.getD_eq_getElem?_getD, List.getElem?_map]
  cases rp[i]? <;> rfl

theorem perm_range_length (l : List Nat) (n : Nat) (h : l.Perm (List.range n)) :
    l.length = n := by
  simpa using h.length_eq

theorem perm_range_lt (l : List Nat) (n : Nat) (h : l.Perm (List.range n)) (i : Nat)
    (hi : i < n) : l.getD i 0 < n := by
  have hl := perm_range_length l n h
  have hi2 : i < l.length := by omega
  rw [List.getD_eq_getElem _ _ hi2]
  have : l[i] ∈ List.range n := h.subset (List.getElem_mem _)
  simpa using this

theorem perm_range_inj (l : List Nat) (n : Nat) (h : l.Perm (List.range n)) (i : Nat)
    (hi : i < n) (j : Nat) (hj : j < n) (he : l.getD i 0 = l.getD j 0) : i = j := by
  have hl := perm_range_length l n h
  have hnd : l.Nodup := h.nodup_iff.mpr (List.nodup_range n)
  have hi' : i < l.length := by omega
  have hj' : j < l.length := by omega
  rw [List.getD_eq_getElem _ _ hi', List.getD_eq_getElem _ _ hj'] at he
  exact (List.Nodup.getElem_inj_iff hnd).mp he

theorem perm_range_surj (l : List Nat) (n : Nat) (h : l.Perm (List.range n)) (j : Nat)
    (hj : j < n) : ∃ i, i < n ∧ l.getD i 0 = j := by
  have hl := perm_range_length l n h
  have hm : j ∈ l := h.symm.subset (by simpa using hj)
  obtain ⟨i, hi, he⟩ := List.getElem_of_mem hm
  exact ⟨i, by omega, by rw [List.getD_eq_getElem _ _ hi]; exact he⟩

/-! ## ACBlockScrambler -/

theorem scrambleMcuNoDcc_eq (rp : List randSequence) (ac : List (List Int)) :
    scrambleMcuNoDcc rp ac =
      (List.range ac.length).map (fun i => ac.getD (rp.getD i ⟨0, 0⟩).number []) := by
  unfold scrambleMcuNoDcc
  rw [foldl_set_gather _ _ _ (le_refl _)]
  simp

theorem length_scrambleMcuNoDcc (rp : List randSequence) (ac : List (List Int)) :
    (scrambleMcuNoDcc rp ac).length = ac.length := by
  simp [scrambleMcuNoDcc_eq]

theorem length_reScrambleMcuNoDcc (rp : List randSequence) (ac : List (List Int)) :
    (reScrambleMcuNoDcc rp ac).length = ac.length := by
  unfold reScrambleMcuNoDcc
  exact length_foldl_set _ _ _ _

theorem scrambleMcuNoDcc_getD (rp : List randSequence) (ac : List (List Int)) (i : Nat)
    (hi : i < ac.length) :
    (scrambleMcuNoDcc rp ac).getD i [] = ac.getD (rp.getD i ⟨0, 0⟩).number [] := by
  rw [scrambleMcuNoDcc_eq, List.getD_eq_getElem _ _ (by simpa using hi)]
  simp

/-- Undoing the block scramble with the same index sequence restores every block. -/
theorem reScramble_scrambleMcuNoDcc (rp : List randSequence) (ac : List (List Int))
    (hrp : (rp.map (fun r => r.number)).Perm (List.range ac.length)) :
    reScrambleMcuNoDcc rp (scrambleMcuNoDcc rp ac) = ac := by
  have hlen := length_scrambleMcuNoDcc rp ac
  apply ext_getD [] _ _ (by rw [length_reScrambleMcuNoDcc, hlen])
  intro j hj
  rw [length_reScrambleMcuNoDcc, hlen] at hj
  obtain ⟨i, hi, hij⟩ := perm_range_surj _ _ hrp j hj
  rw [← number_getD] at hij
  unfold reScrambleMcuNoDcc
  rw [hlen, ← hij]
  rw [scatter_hit (fun i => (rp.getD i ⟨0, 0⟩).number)
    (fun i => (scrambleMcuNoDcc rp ac).getD i []) ac.length _ []
    (fun a ha b hb he => perm_range_inj _ _ hrp a ha b hb
      (by rw [← number_getD, ← number_getD]; exact he))
    i hi (by show (rp.getD i ⟨0, 0⟩).number < _; rw [hlen, hij]; exact hj)]
  exact scrambleMcuNoDcc_getD rp ac i hi

/-! ## DCSignGroupScrambler -/

theorem pairNumber_getD (rp : List intPair) (i : Nat) :
    (rp.getD i ⟨0, 0⟩).number = (rp.map (fun r => r.number)).getD i 0 := by
  simp only [List.getD_eq_getElem?_getD, List.getElem?_map]
  cases rp[i]? <;> rfl

theorem groupPairs_number (ranks : List randSequence) :
    (groupPairs ranks).map (fun p => p.number) = List.range ranks.length := by
  unfold groupPairs
  rw [List.map_map]
  exact List.map_id'' (fun _ => rfl) _

/-- The local indices of a sorted group vector are a rearrangement of `0, ..., L - 1`. -/
theorem sortIntPair_groupPairs_perm (ranks : List randSequence) :
    ((sortIntPair (groupPairs ranks)).map (fun p => p.number)).Perm
      (List.range ranks.length) := by
  rw [← groupPairs_number]
  exact (List.perm_insertionSort _ _).map _

theorem scrambleGroup_eq (rp : List intPair) (g : List Int) (n : Nat) (hn : n = g.length)
    (h1 : n ≠ 1) :
    scrambleGroup rp g n =
      (List.range n).map (fun i => g.getD (rp.getD i ⟨0, 0⟩).number 0) := by
  unfold scrambleGroup
  rw [if_neg h1]
  simp only []
  rw [foldl_set_gather _ _ _ (by omega), hn]
  simp

theorem length_scrambleGroup (rp : List intPair) (g : List Int) (n : Nat) :
    (scrambleGroup rp g n).length = g.length := by
  unfold scrambleGroup
  split
  · rfl
  · exact length_foldl_set _ (fun i => g.getD (rp.getD i ⟨0, 0⟩).number 0) n g

theorem length_reScrambleGroup (rp : List intPair) (g : List Int) (n : Nat) :
    (reScrambleGroup rp g n).length = g.length := by
  unfold reScrambleGroup
  split
  · rfl
  · exact length_foldl_set _ _ n g

/-- Within one group, the inverse loop undoes the forward loop. -/
theorem reScramble_scrambleGroup (rp : List intPair) (g : List Int) (n : Nat)
    (hn : n = g.length) (hrp : (rp.map (fun p => p.number)).Perm (List.range n)) :
    reScrambleGroup rp (scrambleGroup rp g n) n = g := by
  by_cases h1 : n = 1
  · simp [reScrambleGroup, scrambleGroup, h1]
  · have hlen := length_scrambleGroup rp g n
    apply ext_getD 0 _ _ (by rw [length_reScrambleGroup, hlen])
    intro j hj
    rw [length_reScrambleGroup, hlen, ← hn] at hj
    obtain ⟨i, hi, hij⟩ := perm_range_surj _ _ hrp j hj
    rw [← pairNumber_getD] at hij
    unfold reScrambleGroup
    rw [if_neg h1]
    simp only []
    rw [← hij]
    rw [scatter_hit (fun i => (rp.getD i ⟨0, 0⟩).number)
      (fun i => (scrambleGroup rp g n).getD i 0) n _ 0
      (fun a ha b hb he => perm_range_inj _ _ hrp a ha b hb
        (by rw [← pairNumber_getD, ← pairNumber_getD]; exact he))
      i hi (by show (rp.getD i ⟨0, 0⟩).number < _; rw [hlen, hij, ← hn]; exact hj)]
    rw [scrambleGroup_eq rp g n hn h1, List.getD_eq_getElem _ _ (by simpa using hi)]
    simp

/-- Every value of a scrambled group is a value of the group. -/
theorem scrambleGroup_perm (rp : List intPair) (g : List Int) (n : Nat)
    (hn : n = g.length) (hrp : (rp.map (fun p => p.number)).Perm (List.range n)) :
    (scrambleGroup rp g n).Perm g := by
  by_cases h1 : n = 1
  · simp [scrambleGroup, h1]
  · rw [scrambleGroup_eq rp g n hn h1]
    have hl : rp.length = n := by simpa using hrp.length_eq
    have e1 : (List.range n).map (fun i => g.getD (rp.getD i ⟨0, 0⟩).number 0) =
        (rp.map (fun p => p.number)).map (fun k => g.getD k 0) := by
      apply List.ext_getElem (by simp [hl])
      intro i h1 h2
      simp only [List.getElem_map, List.getElem_range]
      rw [List.getD_eq_getElem rp _ (by simpa [hl] using h1)]
    rw [e1]
    refine (hrp.map _).trans ?_
    rw [hn]
    have e2 : (List.range g.length).map (fun k => g.getD k 0) = g := by
      apply List.ext_getElem (by simp)
      intro i h1 h2
      simp only [List.getElem_map, List.getElem_range]
      exact List.getD_eq_getElem _ _ h2
    rw [e2]

theorem memcpyAt_append {α : Type} (pre rest src : List α) :
    memcpyAt (pre ++ rest) pre.length src = pre ++ src ++ rest.drop src.length := by
  unfold memcpyAt
  rw [List.take_left' rfl, List.drop_append]

/-- The write-back loop of the encrypt-side stage leaves the groups side by side. -/
theorem writeBack_scramble (nums : List Nat) :
    ∀ (temp_rp1 : List randSequence) (pre rest : List Int), nums.sum ≤ rest.length →
      writeBackGroups
        (scrambleSameSignDccGroup (assignRanks nums temp_rp1) (copyGroups nums rest) nums)
        nums pre.length (pre ++ rest) =
      pre ++ stageGroups scrambleGroup nums temp_rp1 rest ++ rest.drop nums.sum := by
  induction nums with
  | nil => intro temp_rp1 pre rest _; simp [writeBackGroups, stageGroups, copyGroups]
  | cons n ns ih =>
    intro temp_rp1 pre rest hsum
    rw [List.sum_cons] at hsum
    have hn : n ≤ rest.length := by omega
    have htk : (rest.take n).length = n := by simp [hn]
    simp only [assignRanks, copyGroups, scrambleSameSignDccGroup, writeBackGroups, stageGroups]
    have hrest : ns.sum ≤ (rest.drop n).length := by simp; omega
    by_cases h1 : n = 1
    · rw [if_pos h1]
      have hg : scrambleGroup (sortIntPair (groupPairs (temp_rp1.take n))) (rest.take n) n =
          rest.take n := by simp [scrambleGroup, h1]
      rw [hg]
      have hsplit : pre ++ rest = (pre ++ rest.take n) ++ rest.drop n := by simp
      have hoff : pre.length + 1 = (pre ++ rest.take n).length := by
        rw [List.length_append, htk, h1]
      rw [hsplit, hoff, ih _ _ _ hrest]
      simp [List.sum_cons, Nat.add_comm]
    · rw [if_neg h1]
      have hgl := length_scrambleGroup (sortIntPair (groupPairs (temp_rp1.take n)))
        (rest.take n) n
      rw [htk] at hgl
      rw [List.take_of_length_le (by omega)]
      rw [memcpyAt_append, hgl]
      have hoff : pre.length + n =
          (pre ++ scrambleGroup (sortIntPair (groupPairs (temp_rp1.take n)))
            (rest.take n) n).length := by simp [hgl]
      rw [hoff, ih _ _ _ hrest]
      simp [List.sum_cons, Nat.add_comm]

/-- The write-back loop of the decrypt-side stage leaves the groups side by side. -/
theorem writeBack_reScramble (nums : List Nat) :
    ∀ (temp_rp1 : List randSequence) (pre rest : List Int), nums.sum ≤ rest.length →
      writeBackGroups
        (reScrambleSameSignDccGroup (assignRanks nums temp_rp1) (copyGroups nums rest) nums)
        nums pre.length (pre ++ rest) =
      pre ++ stageGroups reScrambleGroup nums temp_rp1 rest ++ rest.drop nums.sum := by
  induction nums with
  | nil => intro temp_rp1 pre rest _; simp [writeBackGroups, stageGroups, copyGroups]
  | cons n ns ih =>
    intro temp_rp1 pre rest hsum
    rw [List.sum_cons] at hsum
    have hn : n ≤ rest.length := by omega
    have htk : (rest.take n).length = n := by simp [hn]
    simp only [assignRanks, copyGroups, reScrambleSameSignDccGroup, writeBackGroups,
      stageGroups]
    have hrest : ns.sum ≤ (rest.drop n).length := by simp; omega
    by_cases h1 : n = 1
    · rw [if_pos h1]
      have hg : reScrambleGroup (sortIntPair (groupPairs (temp_rp1.take n))) (rest.take n) n =
          rest.take n := by simp [reScrambleGroup, h1]
      rw [hg]
      have hsplit : pre ++ rest = (pre ++ rest.take n) ++ rest.drop n := by simp
      have hoff : pre.length + 1 = (pre ++ rest.take n).length := by
        rw [List.length_append, htk, h1]
      rw [hsplit, hoff, ih _ _ _ hrest]
      simp [List.sum_cons, Nat.add_comm]
    · rw [if_neg h1]
      have hgl := length_reScrambleGroup (sortIntPair (groupPairs (temp_rp1.take n)))
        (rest.take n) n
      rw [htk] at hgl
      rw [List.take_of_length_le (by omega)]
      rw [memcpyAt_append, hgl]
      have hoff : pre.length + n =
          (pre ++ reScrambleGroup (sortIntPair (groupPairs (temp_rp1.take n)))
            (rest.take n) n).length := by simp [hgl]
      rw [hoff, ih _ _ _ hrest]
      simp [List.sum_cons, Nat.add_comm]

/-- The group sizes found by the grouping loop add up to the values it has seen. -/
theorem signGroupLoop_sum (ds : List Int) :
    ∀ (s : Bool) (cur : Nat), (signGroupLoop ds s cur).sum = cur + ds.length := by
  induction ds with
  | nil => intro s cur; simp [signGroupLoop]
  | cons d ds ih =>
    intro s cur
    unfold signGroupLoop
    split
    · rw [ih]; simp; omega
    · rw [List.sum_cons, ih]; simp; omega

theorem groupsDiffNum_sum (diff : List Int) : (groupsDiffNum diff).sum = diff.length := by
  cases diff with
  | nil => simp [groupsDiffNum]
  | cons d ds => simp [groupsDiffNum, signGroupLoop_sum]; omega

theorem signGroupStage_eq (temp_rp1 : List randSequence) (diff : List Int) :
    signGroupStage temp_rp1 diff =
      stageGroups scrambleGroup (groupsDiffNum diff) temp_rp1 diff := by
  unfold signGroupStage
  have h := writeBack_scramble (groupsDiffNum diff) temp_rp1 [] diff
    (by rw [groupsDiffNum_sum])
  simp only [List.length_nil, List.nil_append] at h
  rw [h, groupsDiffNum_sum]
  simp

theorem reSignGroupStage_eq (temp_rp1 : List randSequence) (diff : List Int) :
    reSignGroupStage temp_rp1 diff =
      stageGroups reScrambleGroup (groupsDiffNum diff) temp_rp1 diff := by
  unfold reSignGroupStage
  have h := writeBack_reScramble (groupsDiffNum diff) temp_rp1 [] diff
    (by rw [groupsDiffNum_sum])
  simp only [List.length_nil, List.nil_append] at h
  rw [h, groupsDiffNum_sum]
  simp

theorem signGroupLoop_cond (d : Int) (s : Bool) :
    ((d ≥ 0 ∧ s = true) ∨ (d < 0 ∧ s = false)) ↔ signClass d = s := by
  unfold signClass
  cases s <;> simp

/-- The group sizes depend on the sign classes of the values only. -/
theorem signGroupLoop_congr (ds : List Int) :
    ∀ (ds' : List Int) (s : Bool) (cur : Nat), ds.map signClass = ds'.map signClass →
      signGroupLoop ds s cur = signGroupLoop ds' s cur := by
  induction ds with
  | nil =>
    intro ds' s cur h
    cases ds' with
    | nil => rfl
    | cons _ _ => simp at h
  | cons d ds ih =>
    intro ds' s cur h
    cases ds' with
    | nil => simp at h
    | cons d' ds' =>
      simp only [List.map_cons, List.cons.injEq] at h
      unfold signGroupLoop
      simp only [signGroupLoop_cond, h.1]
      rw [ih ds' s (cur + 1) h.2, ih ds' (!s) 1 h.2]

theorem groupsDiffNum_congr (diff diff' : List Int)
    (h : diff.map signClass = diff'.map signClass) : groupsDiffNum diff = groupsDiffNum diff' := by
  cases diff with
  | nil =>
    cases diff' with
    | nil => rfl
    | cons _ _ => simp at h
  | cons d ds =>
    cases diff' with
    | nil => simp at h
    | cons d' ds' =>
      simp only [List.map_cons, List.cons.injEq] at h
      have hd : decide (d ≥ 0) = decide (d' ≥ 0) := h.1
      show signGroupLoop ds (decide (d ≥ 0)) 1 = signGroupLoop ds' (decide (d' ≥ 0)) 1
      rw [hd]
      exact signGroupLoop_congr ds ds' _ 1 h.2

/-- Every group cut out by the grouping loop holds values of one sign class. -/
theorem signGroupLoop_const (ds : List Int) :
    ∀ (s : Bool) (cur : Nat) (pre : List Int), pre.length = cur →
      (∀ a ∈ pre, signClass a = s) →
      ∀ g ∈ copyGroups (signGroupLoop ds s cur) (pre ++ ds),
        ∃ s', ∀ a ∈ g, signClass a = s' := by
  induction ds with
  | nil =>
    intro s cur pre hlen hpre g hg
    simp only [signGroupLoop, copyGroups, List.append_nil, List.mem_cons, List.mem_nil_iff,
      or_false] at hg
    subst hg
    exact ⟨s, fun a ha => hpre a (List.mem_of_mem_take ha)⟩
  | cons d ds ih =>
    intro s cur pre hlen hpre g hg
    unfold signGroupLoop at hg
    by_cases hc : signClass d = s
    · rw [if_pos ((signGroupLoop_cond d s).mpr hc)] at hg
      have hsplit : pre ++ d :: ds = (pre ++ [d]) ++ ds := by simp
      rw [hsplit] at hg
      refine ih s (cur + 1) (pre ++ [d]) (by simp [hlen]) ?_ g hg
      intro a ha
      rcases List.mem_append.mp ha with h | h
      · exact hpre a h
      · simp only [List.mem_singleton] at h
        rw [h]; exact hc
    · rw [if_neg (fun h => hc ((signGroupLoop_cond d s).mp h))] at hg
      simp only [copyGroups, List.mem_cons] at hg
      rcases hg with h | h
      · subst h
        exact ⟨s, fun a ha => hpre a (by
          have := List.mem_of_mem_take ha
          rw [← hlen, List.take_left' rfl] at ha
          exact ha)⟩
      · rw [← hlen, List.drop_left' rfl] at h
        have hsplit : d :: ds = [d] ++ ds := rfl
        rw [hsplit] at h
        refine ih (!s) 1 [d] rfl ?_ g h
        intro a ha
        simp only [List.mem_singleton] at ha
        rw [ha]
        cases hs : signClass d <;> cases s <;> simp_all

theorem groupsDiffNum_const (diff : List Int) :
    ∀ g ∈ copyGroups (groupsDiffNum diff) diff, ∃ s', ∀ a ∈ g, signClass a = s' := by
  cases diff with
  | nil =>
    intro g hg
    simp only [groupsDiffNum, copyGroups, List.take_nil, List.mem_cons, List.mem_nil_iff,
      or_false] at hg
    subst hg
    exact ⟨true, fun a ha => by simp at ha⟩
  | cons d ds =>
    intro g hg
    unfold groupsDiffNum at hg
    have hsplit : d :: ds = [d] ++ ds := rfl
    rw [hsplit] at hg
    refine signGroupLoop_const ds (decide (d ≥ 0)) 1 [d] rfl ?_ g hg
    intro a ha
    simp only [List.mem_singleton] at ha
    rw [ha]; rfl

theorem length_stageGroups_scramble (nums : List Nat) :
    ∀ (temp_rp1 : List randSequence) (diff : List Int), nums.sum ≤ diff.length →
      (stageGroups scrambleGroup nums temp_rp1 diff).length = nums.sum := by
  induction nums with
  | nil => intro _ _ _; simp [stageGroups]
  | cons n ns ih =>
    intro temp_rp1 diff h
    rw [List.sum_cons] at h
    simp only [stageGroups, List.length_append, length_scrambleGroup, List.sum_cons]
    rw [ih _ _ (by simp; omega)]
    simp; omega

/-- The encrypt-side stage leaves the sign class of the value at every position as it
was. -/
theorem stageGroups_scramble_sign (nums : List Nat) :
    ∀ (temp_rp1 : List randSequence) (diff : List Int), nums.sum ≤ diff.length →
      nums.sum ≤ temp_rp1.length →
      (∀ g ∈ copyGroups nums diff, ∃ s', ∀ a ∈ g, signClass a = s') →
      (stageGroups scrambleGroup nums temp_rp1 diff).map signClass =
        (diff.take nums.sum).map signClass := by
  induction nums with
  | nil => intro _ _ _ _ _; simp [stageGroups]
  | cons n ns ih =>
    intro temp_rp1 diff hd ht hconst
    rw [List.sum_cons] at hd ht
    simp only [copyGroups, List.mem_cons, forall_eq_or_imp] at hconst
    obtain ⟨⟨s, hs⟩, hrest⟩ := hconst
    have htk : (diff.take n).length = n := by simp; omega
    have htt : (temp_rp1.take n).length = n := by simp; omega
    have hperm := scrambleGroup_perm (sortIntPair (groupPairs (temp_rp1.take n)))
      (diff.take n) n htk.symm (by
        have := sortIntPair_groupPairs_perm (temp_rp1.take n)
        rwa [htt] at this)
    simp only [stageGroups, List.map_append, List.sum_cons]
    rw [ih _ _ (by simp; omega) (by simp; omega) hrest]
    rw [List.take_add, List.map_append]
    congr 1
    have h1 : (scrambleGroup (sortIntPair (groupPairs (temp_rp1.take n))) (diff.take n) n).map
        signClass = List.replicate n s := by
      rw [List.eq_replicate_iff]
      refine ⟨by rw [List.length_map, hperm.length_eq, htk], ?_⟩
      intro b hb
      obtain ⟨a, ha, rfl⟩ := List.mem_map.mp hb
      exact hs a (hperm.subset ha)
    have h2 : (diff.take n).map signClass = List.replicate n s := by
      rw [List.eq_replicate_iff]
      refine ⟨by rw [List.length_map, htk], ?_⟩
      intro b hb
      obtain ⟨a, ha, rfl⟩ := List.mem_map.mp hb
      exact hs a ha
    rw [h1, h2]

/-- Group by group, the decrypt-side stage undoes the encrypt-side stage. -/
theorem stageGroups_round_trip (nums : List Nat) :
    ∀ (temp_rp1 : List randSequence) (diff : List Int), nums.sum ≤ diff.length →
      nums.sum ≤ temp_rp1.length →
      stageGroups reScrambleGroup nums temp_rp1
        (stageGroups scrambleGroup nums temp_rp1 diff) = diff.take nums.sum := by
  induction nums with
  | nil => intro _ _ _ _; simp [stageGroups]
  | cons n ns ih =>
    intro temp_rp1 diff hd ht
    rw [List.sum_cons] at hd ht
    have htk : (diff.take n).length = n := by simp; omega
    have htt : (temp_rp1.take n).length = n := by simp; omega
    have hgl := length_scrambleGroup (sortIntPair (groupPairs (temp_rp1.take n)))
      (diff.take n) n
    rw [htk] at hgl
    have hrp : ((sortIntPair (groupPairs (temp_rp1.take n))).map (fun p => p.number)).Perm
        (List.range n) := by
      have := sortIntPair_groupPairs_perm (temp_rp1.take n)
      rwa [htt] at this
    simp only [stageGroups, List.sum_cons]
    rw [List.take_left' hgl, List.drop_left' hgl, ih _ _ (by simp; omega) (by simp; omega),
      reScramble_scrambleGroup _ _ n htk.symm hrp, List.take_add]

/-- The decrypt-side sign-group stage undoes the encrypt-side sign-group stage. -/
theorem reSignGroupStage_signGroupStage (temp_rp1 : List randSequence) (diff : List Int)
    (ht : diff.length ≤ temp_rp1.length) :
    reSignGroupStage temp_rp1 (signGroupStage temp_rp1 diff) = diff := by
  have hsum := groupsDiffNum_sum diff
  have hsign : (signGroupStage temp_rp1 diff).map signClass = diff.map signClass := by
    rw [signGroupStage_eq, stageGroups_scramble_sign _ _ _ (by omega) (by omega)
      (groupsDiffNum_const diff), hsum, List.take_length]
  rw [reSignGroupStage_eq, groupsDiffNum_congr _ _ hsign, signGroupStage_eq,
    stageGroups_round_trip _ _ _ (by omega) (by omega), hsum, List.take_length]

/-! ## ACRunClassScrambler: writes into the block array -/

theorem shape_setAc (ac : List (List Int)) (b z : Nat) (v : Int) :
    (setAc ac b z v).map List.length = ac.map List.length := by
  unfold setAc
  apply List.ext_getElem (by simp)
  intro i h1 h2
  simp only [List.getElem_map, List.getElem_set]
  split
  · rename_i hb
    subst hb
    have hb : b < ac.length := by simpa using h2
    rw [List.length_set, List.getD_eq_getElem _ _ hb]
  · rfl

theorem getAc_setAc_same (ac : List (List Int)) (b z : Nat) (v : Int) (hb : b < ac.length)
    (hz : z < (ac.getD b []).length) : getAc (setAc ac b z v) b z = v := by
  unfold getAc setAc
  rw [getD_set_same _ _ _ _ hb, getD_set_same _ _ _ _ hz]

theorem getAc_setAc_other (ac : List (List Int)) (b z b' z' : Nat) (v : Int)
    (h : (b, z) ≠ (b', z')) : getAc (setAc ac b z v) b' z' = getAc ac b' z' := by
  unfold getAc setAc
  by_cases hb : b = b'
  · subst hb
    have hz : z ≠ z' := fun he => h (by rw [he])
    by_cases hl : b < ac.length
    · rw [getD_set_same _ _ _ _ hl, getD_set_other _ _ _ _ _ hz]
    · rw [List.set_eq_of_length_le (by omega)]
  · rw [getD_set_other _ _ _ _ _ hb]

theorem getD_length_of_shape (a a0 : List (List Int))
    (h : a.map List.length = a0.map List.length) (b : Nat) :
    (a.getD b []).length = (a0.getD b []).length := by
  have hl : a.length = a0.length := by simpa using congrArg List.length h
  by_cases hb : b < a.length
  · have h1 := congrArg (fun l => l.getD b 0) h
    simp only [List.getD_eq_getElem?_getD, List.getElem?_map] at h1
    rw [List.getD_eq_getElem _ _ hb, List.getD_eq_getElem _ _ (by omega)]
    rw [List.getElem?_eq_getElem hb, List.getElem?_eq_getElem (by omega)] at h1
    simpa using h1
  · rw [List.getD_eq_default _ _ (by omega), List.getD_eq_default _ _ (by omega)]

/-- Two block arrays of the same shape that agree at every position are equal. -/
theorem ext_getAc (a a0 : List (List Int)) (hs : a.map List.length = a0.map List.length)
    (h : ∀ b z, b < a0.length → z < (a0.getD b []).length → getAc a b z = getAc a0 b z) :
    a = a0 := by
  have hl : a.length = a0.length := by simpa using congrArg List.length hs
  apply ext_getD [] _ _ hl
  intro b hb
  have hlen := getD_length_of_shape a a0 hs b
  apply ext_getD 0 _ _ hlen
  intro z hz
  exact h b z (by omega) (by omega)

theorem shape_scatterAc (P : Nat → Nat × Nat) (v : Nat → Int) (n : Nat) (a : List (List Int)) :
    ((List.range n).foldl (fun a i => setAc a (P i).1 (P i).2 (v i)) a).map List.length =
      a.map List.length := by
  induction n with
  | zero => simp
  | succ k ih =>
    rw [List.range_succ, List.foldl_append]
    simp only [List.foldl_cons, List.foldl_nil]
    rw [shape_setAc, ih]

theorem scatterAc_miss (P : Nat → Nat × Nat) (v : Nat → Int) (n : Nat) (a : List (List Int))
    (b z : Nat) (h : ∀ i, i < n → P i ≠ (b, z)) :
    getAc ((List.range n).foldl (fun a i => setAc a (P i).1 (P i).2 (v i)) a) b z =
      getAc a b z := by
  induction n with
  | zero => simp
  | succ k ih =>
    rw [List.range_succ, List.foldl_append]
    simp only [List.foldl_cons, List.foldl_nil]
    rw [getAc_setAc_other _ _ _ _ _ _ (h k (by omega))]
    exact ih (fun i hi => h i (by omega))

theorem scatterAc_hit (P : Nat → Nat × Nat) (v : Nat → Int) (n : Nat) (a : List (List Int))
    (hinj : ∀ i, i < n → ∀ j, j < n → P i = P j → i = j)
    (i : Nat) (hi : i < n) (hv : validPos a (P i)) :
    getAc ((List.range n).foldl (fun a i => setAc a (P i).1 (P i).2 (v i)) a) (P i).1 (P i).2 =
      v i := by
  induction n with
  | zero => omega
  | succ k ih =>
    rw [List.range_succ, List.foldl_append]
    simp only [List.foldl_cons, List.foldl_nil]
    by_cases hik : i = k
    · subst hik
      have hsh := shape_scatterAc P v i a
      have hl : ((List.range i).foldl (fun a i => setAc a (P i).1 (P i).2 (v i)) a).length =
          a.length := by simpa using congrArg List.length hsh
      exact getAc_setAc_same _ _ _ _ (by rw [hl]; exact hv.1)
        (by rw [getD_length_of_shape _ _ hsh]; exact hv.2)
    · have hne : P k ≠ P i := fun he => hik (hinj i hi k (by omega) he.symm)
      rw [getAc_setAc_other _ _ _ _ _ _ hne]
      exact ih (fun a ha b hb => hinj a (by omega) b (by omega)) (by omega)

/-- A loop over the classes, each class being a scatter over its own positions. -/
theorem classFold (c : Nat) (n : Nat → Nat) (P : Nat → Nat → Nat × Nat) (w : Nat → Nat → Int)
    (step : Nat → List (List Int) → List (List Int)) (a0 : List (List Int))
    (hinj : ∀ r, r < c → ∀ i, i < n r → ∀ r', r' < c → ∀ i', i' < n r' →
      P r i = P r' i' → r = r' ∧ i = i')
    (hstep : ∀ r, r < c → ∀ a, a.map List.length = a0.map List.length →
      (∀ i, i < n r → getAc a (P r i).1 (P r i).2 = getAc a0 (P r i).1 (P r i).2) →
      (step r a).map List.length = a0.map List.length ∧
      (∀ i, i < n r → getAc (step r a) (P r i).1 (P r i).2 = w r i) ∧
      (∀ b z, (∀ i, i < n r → P r i ≠ (b, z)) → getAc (step r a) b z = getAc a b z)) :
    ((List.range c).foldl (fun a r => step r a) a0).map List.length = a0.map List.length ∧
    (∀ r, r < c → ∀ i, i < n r →
      getAc ((List.range c).foldl (fun a r => step r a) a0) (P r i).1 (P r i).2 = w r i) ∧
    (∀ b z, (∀ r, r < c → ∀ i, i < n r → P r i ≠ (b, z)) →
      getAc ((List.range c).foldl (fun a r => step r a) a0) b z = getAc a0 b z) := by
  induction c with
  | zero => simp
  | succ m ih =>
    have ih' := ih (fun r hr i hi r' hr' i' hi' => hinj r (by omega) i hi r' (by omega) i' hi')
      (fun r hr => hstep r (by omega))
    obtain ⟨ih1, ih2, ih3⟩ := ih'
    rw [List.range_succ, List.foldl_append]
    simp only [List.foldl_cons, List.foldl_nil]
    have hunch : ∀ i, i < n m →
        getAc ((List.range m).foldl (fun a r => step r a) a0) (P m i).1 (P m i).2 =
          getAc a0 (P m i).1 (P m i).2 := by
      intro i hi
      apply ih3
      intro r hr j hj he
      have := (hinj r (by omega) j hj m (by omega) i hi he).1
      omega
    obtain ⟨s1, s2, s3⟩ := hstep m (by omega) _ ih1 hunch
    refine ⟨s1, ?_, ?_⟩
    · intro r hr i hi
      by_cases hrm : r = m
      · subst hrm; exact s2 i hi
      · rw [s3 _ _ (fun j hj he => hrm (hinj m (by omega) j hj r hr i hi he).1.symm)]
        exact ih2 r (by omega) i hi
    · intro b z hbz
      rw [s3 b z (fun i hi => hbz m (by omega) i hi)]
      exact ih3 b z (fun r hr i hi => hbz r (by omega) i hi)

/-! ## ACRunClassScrambler: the two scans -/

theorem recordBlock_eq (c b : Nat) (blk : List Int) :
    ∀ (z run : Nat) (info : List (List nonZeroAcInfo)),
      (recordBlock c b blk z (info, run)).1 = (blockEvents c b blk z run).foldl pushInfo info := by
  induction blk with
  | nil => intro z run info; rfl
  | cons v vs ih =>
    intro z run info
    unfold recordBlock blockEvents
    by_cases hv : v ≠ 0
    · rw [if_pos hv, if_pos hv, ih]
      by_cases hr : run < c
      · rw [if_pos hr, if_pos hr]; rfl
      · rw [if_neg hr, if_neg hr]; rfl
    · rw [if_neg hv, if_neg hv, ih]

theorem recordBlocks_eq (c : Nat) (ac : List (List Int)) :
    ∀ (b : Nat) (info : List (List nonZeroAcInfo)),
      recordBlocks c ac b info = (allEvents c ac b).foldl pushInfo info := by
  induction ac with
  | nil => intro b info; rfl
  | cons blk rest ih =>
    intro b info
    unfold recordBlocks allEvents
    rw [ih, recordBlock_eq, List.foldl_append]

theorem countBlock_eq (c b : Nat) (blk : List Int) :
    ∀ (z run : Nat) (cnt : List Nat),
      (countBlock c blk (cnt, run)).1 =
        ((blockEvents c b blk z run).map (fun e => e.1)).foldl bumpCount cnt := by
  induction blk with
  | nil => intro z run cnt; rfl
  | cons v vs ih =>
    intro z run cnt
    unfold countBlock blockEvents
    by_cases hv : v ≠ 0
    · rw [if_pos hv, if_pos hv, ih (z + 1)]
      by_cases hr : run < c
      · rw [if_pos hr, if_pos hr]; rfl
      · rw [if_neg hr, if_neg hr]; rfl
    · rw [if_neg hv, if_neg hv, ih (z + 1)]

theorem countFold_eq (c : Nat) (ac : List (List Int)) :
    ∀ (b : Nat) (cnt : List Nat),
      ac.foldl (fun runs_ac_num blk => (countBlock c blk (runs_ac_num, 0)).1) cnt =
        ((allEvents c ac b).map (fun e => e.1)).foldl bumpCount cnt := by
  induction ac with
  | nil => intro b cnt; rfl
  | cons blk rest ih =>
    intro b cnt
    unfold allEvents
    rw [List.foldl_cons, ih (b + 1), countBlock_eq c b blk 0 0, List.map_append,
      List.foldl_append]

theorem length_foldl_pushInfo (E : List (Nat × nonZeroAcInfo)) :
    ∀ info : List (List nonZeroAcInfo), (E.foldl pushInfo info).length = info.length := by
  induction E with
  | nil => intro info; rfl
  | cons e E ih => intro info; rw [List.foldl_cons, ih]; simp [pushInfo]

theorem length_foldl_bumpCount (R : List Nat) :
    ∀ cnt : List Nat, (R.foldl bumpCount cnt).length = cnt.length := by
  induction R with
  | nil => intro cnt; rfl
  | cons e E ih => intro cnt; rw [List.foldl_cons, ih]; simp [bumpCount]

/-- Class `r` receives, in scan order, the records made under `zero_run_count = r`. -/
theorem getD_foldl_pushInfo (E : List (Nat × nonZeroAcInfo)) :
    ∀ (info : List (List nonZeroAcInfo)) (r : Nat), (∀ e ∈ E, e.1 < info.length) →
      (E.foldl pushInfo info).getD r [] =
        info.getD r [] ++ (E.filter (fun e => decide (e.1 = r))).map (fun e => e.2) := by
  induction E with
  | nil => intro info r _; simp
  | cons e E ih =>
    intro info r h
    have he : e.1 < info.length := h e (List.mem_cons_self _ _)
    rw [List.foldl_cons, ih _ _ (by
      intro e' he'
      simp only [pushInfo, List.length_set]
      exact h e' (List.mem_cons_of_mem _ he'))]
    unfold pushInfo
    by_cases her : e.1 = r
    · subst her
      rw [getD_set_same _ _ _ _ he]
      simp [List.filter_cons]
    · rw [getD_set_other _ _ _ _ _ her]
      simp [List.filter_cons, her]

theorem getD_foldl_bumpCount (R : List Nat) :
    ∀ (cnt : List Nat) (r : Nat), (∀ e ∈ R, e < cnt.length) →
      (R.foldl bumpCount cnt).getD r 0 = cnt.getD r 0 + R.count r := by
  induction R with
  | nil => intro cnt r _; simp
  | cons e E ih =>
    intro cnt r h
    have he : e < cnt.length := h e (List.mem_cons_self _ _)
    rw [List.foldl_cons, ih _ _ (by
      intro e' he'
      simp only [bumpCount, List.length_set]
      exact h e' (List.mem_cons_of_mem _ he'))]
    unfold bumpCount
    by_cases her : e = r
    · subst her
      rw [getD_set_same _ _ _ _ he]
      simp [List.count_cons]; omega
    · rw [getD_set_other _ _ _ _ _ her]
      simp [List.count_cons, her]

theorem blockEvents_spec (c b : Nat) (blk : List Int) :
    ∀ (z run : Nat), ∀ e ∈ blockEvents c b blk z run,
      e.1 < c ∧ e.2.blockPosition = b ∧ z ≤ e.2.zigzagPosition ∧
      e.2.zigzagPosition < z + blk.length ∧
      blk.getD (e.2.zigzagPosition - z) 0 = e.2.value ∧ e.2.value ≠ 0 := by
  induction blk with
  | nil => intro z run e he; simp [blockEvents] at he
  | cons v vs ih =>
    intro z run e he
    have hrec : ∀ run', e ∈ blockEvents c b vs (z + 1) run' →
        e.1 < c ∧ e.2.blockPosition = b ∧ z ≤ e.2.zigzagPosition ∧
        e.2.zigzagPosition < z + (v :: vs).length ∧
        (v :: vs).getD (e.2.zigzagPosition - z) 0 = e.2.value ∧ e.2.value ≠ 0 := by
      intro run' h
      obtain ⟨h1, h2, h3, h4, h5, h6⟩ := ih (z + 1) run' e h
      refine ⟨h1, h2, by omega, by simp only [List.length_cons]; omega, ?_, h6⟩
      have : e.2.zigzagPosition - z = (e.2.zigzagPosition - (z + 1)) + 1 := by omega
      rw [this, List.getD_cons_succ]
      exact h5
    unfold blockEvents at he
    by_cases hv : v ≠ 0
    · rw [if_pos hv] at he
      rcases List.mem_append.mp he with h | h
      · by_cases hr : run < c
        · rw [if_pos hr] at h
          simp only [List.mem_singleton] at h
          subst h
          refine ⟨hr, rfl, le_refl _, by simp, by simp, hv⟩
        · rw [if_neg hr] at h
          simp at h
      · exact hrec 0 h
    · rw [if_neg hv] at he
      exact hrec (run + 1) he

theorem blockEvents_sorted (c b : Nat) (blk : List Int) :
    ∀ (z run : Nat), (blockEvents c b blk z run).Pairwise
      (fun e e' => e.2.zigzagPosition < e'.2.zigzagPosition) := by
  induction blk with
  | nil => intro z run; simp [blockEvents]
  | cons v vs ih =>
    intro z run
    unfold blockEvents
    by_cases hv : v ≠ 0
    · rw [if_pos hv]
      by_cases hr : run < c
      · rw [if_pos hr]
        simp only [List.singleton_append, List.pairwise_cons]
        refine ⟨?_, ih (z + 1) 0⟩
        intro e' he'
        have := (blockEvents_spec c b vs (z + 1) 0 e' he').2.2.1
        show z < _
        omega
      · rw [if_neg hr]
        simpa using ih (z + 1) 0
    · rw [if_neg hv]
      exact ih (z + 1) (run + 1)

theorem blockEvents_nodup (c b : Nat) (blk : List Int) (z run : Nat) :
    ((blockEvents c b blk z run).map (fun e => infoPos e.2)).Nodup := by
  unfold List.Nodup
  rw [List.pairwise_map]
  refine (blockEvents_sorted c b blk z run).imp ?_
  intro e e' h he
  unfold infoPos at he
  have := congrArg Prod.snd he
  simp only at this
  omega

theorem allEvents_spec (c : Nat) (ac : List (List Int)) :
    ∀ (b0 : Nat), ∀ e ∈ allEvents c ac b0,
      e.1 < c ∧ b0 ≤ e.2.blockPosition ∧ e.2.blockPosition < b0 + ac.length ∧
      e.2.zigzagPosition < (ac.getD (e.2.blockPosition - b0) []).length ∧
      getAc ac (e.2.blockPosition - b0) e.2.zigzagPosition = e.2.value ∧ e.2.value ≠ 0 := by
  induction ac with
  | nil => intro b0 e he; simp [allEvents] at he
  | cons blk rest ih =>
    intro b0 e he
    unfold allEvents at he
    rcases List.mem_append.mp he with h | h
    · obtain ⟨h1, h2, _, h4, h5, h6⟩ := blockEvents_spec c b0 blk 0 0 e h
      rw [h2]
      simp only [Nat.sub_self, List.getD_cons_zero, getAc, List.length_cons]
      simp only [Nat.sub_zero, Nat.zero_add] at h4 h5
      exact ⟨h1, le_refl _, by omega, h4, h5, h6⟩
    · obtain ⟨h1, h2, h3, h4, h5, h6⟩ := ih (b0 + 1) e h
      have hb : e.2.blockPosition - b0 = (e.2.blockPosition - (b0 + 1)) + 1 := by omega
      refine ⟨h1, by omega, by simp only [List.length_cons]; omega, ?_, ?_, h6⟩
      · rw [hb, List.getD_cons_succ]; exact h4
      · unfold getAc at h5 ⊢
        rw [hb, List.getD_cons_succ]; exact h5

/-- No position is recorded twice. -/
theorem allEvents_nodup (c : Nat) (ac : List (List Int)) :
    ∀ (b0 : Nat), ((allEvents c ac b0).map (fun e => infoPos e.2)).Nodup := by
  induction ac with
  | nil => intro b0; simp [allEvents]
  | cons blk rest ih =>
    intro b0
    unfold allEvents
    rw [List.map_append, List.nodup_append]
    refine ⟨blockEvents_nodup c b0 blk 0 0, ih (b0 + 1), ?_⟩
    intro p hp hp'
    obtain ⟨e, he, rfl⟩ := List.mem_map.mp hp
    obtain ⟨e', he', hee⟩ := List.mem_map.mp hp'
    have h1 := (blockEvents_spec c b0 blk 0 0 e he).2.1
    have h2 := (allEvents_spec c rest (b0 + 1) e' he').2.1
    have := congrArg Prod.fst hee
    simp only [infoPos] at this
    omega

theorem blockEvents_pattern (c b : Nat) (blk : List Int) :
    ∀ (blk' : List Int) (z run : Nat),
      blk.map (fun v => decide (v = 0)) = blk'.map (fun v => decide (v = 0)) →
      (blockEvents c b blk z run).map (fun e => (e.1, infoPos e.2)) =
        (blockEvents c b blk' z run).map (fun e => (e.1, infoPos e.2)) := by
  induction blk with
  | nil =>
    intro blk' z run h
    cases blk' with
    | nil => rfl
    | cons _ _ => simp at h
  | cons v vs ih =>
    intro blk' z run h
    cases blk' with
    | nil => simp at h
    | cons v' vs' =>
      simp only [List.map_cons, List.cons.injEq, decide_eq_decide] at h
      unfold blockEvents
      by_cases hv : v ≠ 0
      · have hv' : v' ≠ 0 := fun h0 => hv (h.1.mpr h0)
        rw [if_pos hv, if_pos hv', List.map_append, List.map_append, ih vs' (z + 1) 0 h.2]
        congr 1
        by_cases hr : run < c
        · rw [if_pos hr, if_pos hr]; rfl
        · rw [if_neg hr, if_neg hr]
      · have hv' : ¬ v' ≠ 0 := fun h0 => hv (fun h1 => h0 (h.1.mp h1))
        rw [if_neg hv, if_neg hv', ih vs' (z + 1) (run + 1) h.2]

/-- The classes and positions recorded depend on the zero pattern only. -/
theorem allEvents_pattern (c : Nat) (ac : List (List Int)) :
    ∀ (ac' : List (List Int)) (b0 : Nat), zeroPattern ac = zeroPattern ac' →
      (allEvents c ac b0).map (fun e => (e.1, infoPos e.2)) =
        (allEvents c ac' b0).map (fun e => (e.1, infoPos e.2)) := by
  induction ac with
  | nil =>
    intro ac' b0 h
    cases ac' with
    | nil => rfl
    | cons _ _ => simp [zeroPattern] at h
  | cons blk rest ih =>
    intro ac' b0 h
    cases ac' with
    | nil => simp [zeroPattern] at h
    | cons blk' rest' =>
      simp only [zeroPattern, List.map_cons, List.cons.injEq] at h
      unfold allEvents
      rw [List.map_append, List.map_append, blockEvents_pattern c b0 blk blk' 0 0 h.1,
        ih rest' (b0 + 1) h.2]

theorem recordRuns_eq (c : Nat) (ac : List (List Int)) :
    recordRuns c ac = (allEvents c ac 0).foldl pushInfo (List.replicate c []) := by
  unfold recordRuns
  exact recordBlocks_eq c ac 0 _

theorem countRuns_eq (c : Nat) (ac : List (List Int)) :
    countRuns c ac =
      ((allEvents c ac 0).map (fun e => e.1)).foldl bumpCount (List.replicate c 0) := by
  unfold countRuns
  exact countFold_eq c ac 0 _

theorem length_recordRuns (c : Nat) (ac : List (List Int)) : (recordRuns c ac).length = c := by
  rw [recordRuns_eq, length_foldl_pushInfo, List.length_replicate]

theorem length_countRuns (c : Nat) (ac : List (List Int)) : (countRuns c ac).length = c := by
  rw [countRuns_eq, length_foldl_bumpCount, List.length_replicate]

theorem getD_replicate_nil {α : Type} (c r : Nat) :
    (List.replicate c ([] : List α)).getD r [] = [] := by
  rw [List.getD_eq_getElem?_getD, List.getElem?_replicate]
  split <;> rfl

theorem getD_replicate_zero (c r : Nat) : (List.replicate c (0 : Nat)).getD r 0 = 0 := by
  rw [List.getD_eq_getElem?_getD, List.getElem?_replicate]
  split <;> rfl

/-- Class `r` holds, in scan order, the records made under `zero_run_count = r`. -/
theorem recordRuns_getD (c : Nat) (ac : List (List Int)) (r : Nat) :
    (recordRuns c ac).getD r [] =
      ((allEvents c ac 0).filter (fun e => decide (e.1 = r))).map (fun e => e.2) := by
  rw [recordRuns_eq, getD_foldl_pushInfo _ _ _ (by
    intro e he
    rw [List.length_replicate]
    exact (allEvents_spec c ac 0 e he).1), getD_replicate_nil, List.nil_append]

/-- The count of class `r` is the number of its records. -/
theorem countRuns_getD (c : Nat) (ac : List (List Int)) (r : Nat) :
    (countRuns c ac).getD r 0 = ((recordRuns c ac).getD r []).length := by
  rw [countRuns_eq, getD_foldl_bumpCount _ _ _ (by
    intro e he
    obtain ⟨e', he', rfl⟩ := List.mem_map.mp he
    rw [List.length_replicate]
    exact (allEvents_spec c ac 0 e' he').1), getD_replicate_zero, Nat.zero_add,
    recordRuns_getD, List.length_map, List.count, List.countP_map,
    List.countP_eq_length_filter]
  congr 1

theorem recordRuns_mem (c : Nat) (ac : List (List Int)) (r i : Nat)
    (hi : i < ((recordRuns c ac).getD r []).length) :
    (r, ((recordRuns c ac).getD r []).getD i ⟨0, 0, 0⟩) ∈ allEvents c ac 0 := by
  rw [List.getD_eq_getElem _ _ hi]
  have hm0 : ((recordRuns c ac).getD r [])[i] ∈ (recordRuns c ac).getD r [] :=
    List.getElem_mem _
  have hm : ((recordRuns c ac).getD r [])[i] ∈
      ((allEvents c ac 0).filter (fun e => decide (e.1 = r))).map (fun e => e.2) := by
    rw [← recordRuns_getD]; exact hm0
  obtain ⟨ev, hev, he⟩ := List.mem_map.mp hm
  rw [List.mem_filter] at hev
  have h1 : ev.1 = r := by simpa using hev.2
  have : ev = (r, ((recordRuns c ac).getD r [])[i]) := Prod.ext h1 he
  rw [← this]
  exact hev.1

/-- The member of a class sits at a position of the array, holds a nonzero value, and the
recorded value is the value at that position. -/
theorem classPos_spec (c : Nat) (ac : List (List Int)) (r i : Nat)
    (hi : i < ((recordRuns c ac).getD r []).length) :
    r < c ∧ validPos ac (classPos (recordRuns c ac) r i) ∧
    getAc ac (classPos (recordRuns c ac) r i).1 (classPos (recordRuns c ac) r i).2 =
      (((recordRuns c ac).getD r []).getD i ⟨0, 0, 0⟩).value ∧
    (((recordRuns c ac).getD r []).getD i ⟨0, 0, 0⟩).value ≠ 0 := by
  obtain ⟨h1, _, h3, h4, h5, h6⟩ := allEvents_spec c ac 0 _ (recordRuns_mem c ac r i hi)
  simp only [Nat.sub_zero, Nat.zero_add] at h3 h4 h5
  exact ⟨h1, ⟨h3, h4⟩, h5, h6⟩

theorem classPos_nodup (c : Nat) (ac : List (List Int)) (r : Nat) :
    (((recordRuns c ac).getD r []).map infoPos).Nodup := by
  rw [recordRuns_getD, List.map_map]
  exact ((List.filter_sublist _).map _).nodup (allEvents_nodup c ac 0)

/-- Distinct members, of the same class or of different classes, sit at distinct
positions. -/
theorem classPos_inj (c : Nat) (ac : List (List Int)) (r i r' i' : Nat)
    (hi : i < ((recordRuns c ac).getD r []).length)
    (hi' : i' < ((recordRuns c ac).getD r' []).length)
    (h : classPos (recordRuns c ac) r i = classPos (recordRuns c ac) r' i') :
    r = r' ∧ i = i' := by
  have hm := recordRuns_mem c ac r i hi
  have hm' := recordRuns_mem c ac r' i' hi'
  have heq := List.inj_on_of_nodup_map (allEvents_nodup c ac 0) hm hm' h
  have hr : r = r' := congrArg Prod.fst heq
  subst hr
  refine ⟨rfl, ?_⟩
  have hnd := classPos_nodup c ac r
  unfold classPos at h
  rw [List.getD_eq_getElem _ _ hi, List.getD_eq_getElem _ _ hi'] at h
  have hm1 : i < (((recordRuns c ac).getD r []).map infoPos).length := by simpa using hi
  have hm2 : i' < (((recordRuns c ac).getD r []).map infoPos).length := by simpa using hi'
  have h2 : (((recordRuns c ac).getD r []).map infoPos)[i] =
      (((recordRuns c ac).getD r []).map infoPos)[i'] := by
    simpa using h
  exact (List.Nodup.getElem_inj_iff hnd).mp h2

theorem events_filter_key (E : List (Nat × nonZeroAcInfo)) (r : Nat) :
    ((E.filter (fun e => decide (e.1 = r))).map (fun e => e.2)).map infoPos =
      ((E.map (fun e => (e.1, infoPos e.2))).filter (fun k => decide (k.1 = r))).map
        (fun k => k.2) := by
  induction E with
  | nil => rfl
  | cons e E ih =>
    by_cases h : e.1 = r
    · simp [List.filter_cons, h, ih]
    · simp [List.filter_cons, h, ih]

/-- Arrays with the same zero pattern have the same class positions. -/
theorem recordRuns_pattern (c : Nat) (ac ac' : List (List Int))
    (h : zeroPattern ac = zeroPattern ac') (r : Nat) :
    ((recordRuns c ac).getD r []).map infoPos = ((recordRuns c ac').getD r []).map infoPos := by
  rw [recordRuns_getD, recordRuns_getD, events_filter_key, events_filter_key,
    allEvents_pattern c ac ac' 0 h]

theorem map_getD {α β : Type} (f : α → β) (d : α) (L : List α) (i : Nat) :
    (L.map f).getD i (f d) = f (L.getD i d) := by
  simp only [List.getD_eq_getElem?_getD, List.getElem?_map]
  cases L[i]? <;> rfl

theorem classPos_pattern (c : Nat) (ac ac' : List (List Int))
    (h : zeroPattern ac = zeroPattern ac') (r i : Nat) :
    classPos (recordRuns c ac) r i = classPos (recordRuns c ac') r i := by
  have hp := recordRuns_pattern c ac ac' h r
  unfold classPos
  rw [← map_getD infoPos, ← map_getD infoPos, hp]

/-- Arrays with the same zero pattern have the same class counts. -/
theorem countRuns_pattern (c : Nat) (ac ac' : List (List Int))
    (h : zeroPattern ac = zeroPattern ac') : countRuns c ac = countRuns c ac' := by
  apply ext_getD 0 _ _ (by rw [length_countRuns, length_countRuns])
  intro r _
  rw [countRuns_getD, countRuns_getD]
  simpa using congrArg List.length (recordRuns_pattern c ac ac' h r)

/-! ## ACRunClassScrambler: the forward and the inverse pass -/

theorem classIdx_getD (rp : List (List randSequence)) (r i : Nat) :
    classIdx rp r i = ((rp.getD r []).map (fun p => p.number)).getD i 0 :=
  number_getD _ _

theorem validPos_of_shape (a a0 : List (List Int))
    (h : a.map List.length = a0.map List.length) (p : Nat × Nat) (hp : validPos a0 p) :
    validPos a p := by
  have hl : a.length = a0.length := by simpa using congrArg List.length h
  exact ⟨by rw [hl]; exact hp.1, by rw [getD_length_of_shape a a0 h]; exact hp.2⟩

/-- The forward pass: the position of member `i` of class `r` receives the recorded value
of member `rp[r][i].number`, and every other position keeps its value. -/
theorem scrambleSameRunAcc_spec (c : Nat) (rp : List (List randSequence))
    (ac : List (List Int))
    (hrp : ∀ r, r < c → ((rp.getD r []).map (fun p => p.number)).Perm
      (List.range ((countRuns c ac).getD r 0))) :
    (scrambleSameRunAcc c rp ac (recordRuns c ac) (countRuns c ac)).map List.length =
      ac.map List.length ∧
    (∀ r, r < c → ∀ i, i < ((recordRuns c ac).getD r []).length →
      getAc (scrambleSameRunAcc c rp ac (recordRuns c ac) (countRuns c ac))
        (classPos (recordRuns c ac) r i).1 (classPos (recordRuns c ac) r i).2 =
        (((recordRuns c ac).getD r []).getD (classIdx rp r i) ⟨0, 0, 0⟩).value) ∧
    (∀ b z, (∀ r, r < c → ∀ i, i < ((recordRuns c ac).getD r []).length →
        classPos (recordRuns c ac) r i ≠ (b, z)) →
      getAc (scrambleSameRunAcc c rp ac (recordRuns c ac) (countRuns c ac)) b z =
        getAc ac b z) := by
  refine classFold c (fun r => ((recordRuns c ac).getD r []).length)
    (classPos (recordRuns c ac))
    (fun r i => (((recordRuns c ac).getD r []).getD (classIdx rp r i) ⟨0, 0, 0⟩).value)
    (fun run a => if (countRuns c ac).getD run 0 = 0 then a
      else scrambleRun (rp.getD run []) ((recordRuns c ac).getD run [])
        ((countRuns c ac).getD run 0) a) ac
    (fun r _ i hi r' _ i' hi' h => classPos_inj c ac r i r' i' hi hi' h) ?_
  intro r hr a hsh _
  beta_reduce
  have hn := countRuns_getD c ac r
  have hstep : (if (countRuns c ac).getD r 0 = 0 then a
      else scrambleRun (rp.getD r []) ((recordRuns c ac).getD r [])
        ((countRuns c ac).getD r 0) a) =
      (List.range ((recordRuns c ac).getD r []).length).foldl (fun a i =>
        setAc a (classPos (recordRuns c ac) r i).1 (classPos (recordRuns c ac) r i).2
          (((List.range ((recordRuns c ac).getD r []).length).map (fun k =>
            (((recordRuns c ac).getD r []).getD k ⟨0, 0, 0⟩).value)).getD
              (classIdx rp r i) 0)) a := by
    rw [hn]
    split
    · rename_i h0; rw [h0]; rfl
    · rfl
  rw [hstep]
  refine ⟨by rw [shape_scatterAc, hsh], ?_, ?_⟩
  · intro i hi
    rw [scatterAc_hit (fun i => classPos (recordRuns c ac) r i) _ _ a
      (fun x hx y hy h => (classPos_inj c ac r x r y hx hy h).2) i hi
      (validPos_of_shape a ac hsh _ (classPos_spec c ac r i hi).2.1)]
    have hlt : classIdx rp r i < ((recordRuns c ac).getD r []).length := by
      rw [classIdx_getD, ← hn]
      exact perm_range_lt _ _ (hrp r hr) i (by rw [hn]; exact hi)
    rw [List.getD_eq_getElem _ _ (by simpa using hlt)]
    simp
  · intro b z hbz
    exact scatterAc_miss (fun i => classPos (recordRuns c ac) r i) _ _ a b z hbz

/-- The inverse pass: the position of member `rp[r][i].number` of class `r` receives the
value found at the position of member `i`, and every other position keeps its value. -/
theorem reScrambleSameRunAcc_spec (c : Nat) (rp : List (List randSequence))
    (ac : List (List Int))
    (hrp : ∀ r, r < c → ((rp.getD r []).map (fun p => p.number)).Perm
      (List.range ((countRuns c ac).getD r 0))) :
    (reScrambleSameRunAcc c rp ac (recordRuns c ac) (countRuns c ac)).map List.length =
      ac.map List.length ∧
    (∀ r, r < c → ∀ i, i < ((recordRuns c ac).getD r []).length →
      getAc (reScrambleSameRunAcc c rp ac (recordRuns c ac) (countRuns c ac))
        (classPos (recordRuns c ac) r (classIdx rp r i)).1
        (classPos (recordRuns c ac) r (classIdx rp r i)).2 =
        getAc ac (classPos (recordRuns c ac) r i).1 (classPos (recordRuns c ac) r i).2) ∧
    (∀ b z, (∀ r, r < c → ∀ i, i < ((recordRuns c ac).getD r []).length →
        classPos (recordRuns c ac) r (classIdx rp r i) ≠ (b, z)) →
      getAc (reScrambleSameRunAcc c rp ac (recordRuns c ac) (countRuns c ac)) b z =
        getAc ac b z) := by
  have hlt : ∀ r, r < c → ∀ i, i < ((recordRuns c ac).getD r []).length →
      classIdx rp r i < ((recordRuns c ac).getD r []).length := by
    intro r hr i hi
    rw [classIdx_getD, ← countRuns_getD]
    exact perm_range_lt _ _ (hrp r hr) i (by rw [countRuns_getD]; exact hi)
  have hidx : ∀ r, r < c → ∀ i, i < ((recordRuns c ac).getD r []).length →
      ∀ j, j < ((recordRuns c ac).getD r []).length →
      classIdx rp r i = classIdx rp r j → i = j := by
    intro r hr i hi j hj h
    rw [classIdx_getD, classIdx_getD] at h
    exact perm_range_inj _ _ (hrp r hr) i (by rw [countRuns_getD]; exact hi) j
      (by rw [countRuns_getD]; exact hj) h
  refine classFold c (fun r => ((recordRuns c ac).getD r []).length)
    (fun r i => classPos (recordRuns c ac) r (classIdx rp r i))
    (fun r i => getAc ac (classPos (recordRuns c ac) r i).1 (classPos (recordRuns c ac) r i).2)
    (fun run a => if (countRuns c ac).getD run 0 = 0 then a
      else reScrambleRun (rp.getD run []) ((recordRuns c ac).getD run [])
        ((countRuns c ac).getD run 0) a) ac ?_ ?_
  · intro r hr i hi r' hr' i' hi' h
    obtain ⟨h1, h2⟩ := classPos_inj c ac r _ r' _ (hlt r hr i hi) (hlt r' hr' i' hi') h
    subst h1
    exact ⟨rfl, hidx r hr i hi i' hi' h2⟩
  intro r hr a hsh hun
  beta_reduce at hun ⊢
  have hn := countRuns_getD c ac r
  have hstep : (if (countRuns c ac).getD r 0 = 0 then a
      else reScrambleRun (rp.getD r []) ((recordRuns c ac).getD r [])
        ((countRuns c ac).getD r 0) a) =
      (List.range ((recordRuns c ac).getD r []).length).foldl (fun a' i =>
        setAc a' (classPos (recordRuns c ac) r (classIdx rp r i)).1
          (classPos (recordRuns c ac) r (classIdx rp r i)).2
          (((List.range ((recordRuns c ac).getD r []).length).map (fun k =>
            getAc a (classPos (recordRuns c ac) r k).1
              (classPos (recordRuns c ac) r k).2)).getD i 0)) a := by
    rw [hn]
    split
    · rename_i h0; rw [h0]; rfl
    · rfl
  rw [hstep]
  refine ⟨by rw [shape_scatterAc, hsh], ?_, ?_⟩
  · intro i hi
    rw [scatterAc_hit (fun i => classPos (recordRuns c ac) r (classIdx rp r i)) _ _ a
      (fun x hx y hy h =>
        hidx r hr x hx y hy (classPos_inj c ac r _ r _ (hlt r hr x hx) (hlt r hr y hy) h).2)
      i hi
      (validPos_of_shape a ac hsh _ (classPos_spec c ac r _ (hlt r hr i hi)).2.1)]
    rw [List.getD_eq_getElem _ _ (by simpa using hi)]
    simp only [List.getElem_map, List.getElem_range]
    obtain ⟨j, hj, hji⟩ := perm_range_surj _ _ (hrp r hr) i (by rw [hn]; exact hi)
    rw [← classIdx_getD] at hji
    rw [hn] at hj
    have := hun j hj
    rw [hji] at this
    exact this
  · intro b z hbz
    exact scatterAc_miss (fun i => classPos (recordRuns c ac) r (classIdx rp r i)) _ _ a b z hbz

theorem getAc_eq_getElem (a : List (List Int)) (b z : Nat) (hb : b < a.length)
    (hz : z < a[b].length) : getAc a b z = a[b][z] := by
  unfold getAc
  have h1 : a.getD b [] = a[b] := List.getD_eq_getElem _ _ hb
  rw [h1, List.getD_eq_getElem _ _ hz]

/-- Arrays of the same shape with zeros at the same positions have the same zero
pattern. -/
theorem zeroPattern_ext (a a0 : List (List Int)) (hs : a.map List.length = a0.map List.length)
    (h : ∀ b z, validPos a0 (b, z) → (getAc a b z = 0 ↔ getAc a0 b z = 0)) :
    zeroPattern a = zeroPattern a0 := by
  have hl : a.length = a0.length := by simpa using congrArg List.length hs
  unfold zeroPattern
  apply List.ext_getElem (by simpa using hl)
  intro b h1 h2
  simp only [List.length_map] at h1 h2
  simp only [List.getElem_map]
  have hlen := getD_length_of_shape a a0 hs b
  rw [List.getD_eq_getElem _ _ h1, List.getD_eq_getElem _ _ h2] at hlen
  apply List.ext_getElem (by simpa using hlen)
  intro z h3 h4
  simp only [List.length_map] at h3 h4
  simp only [List.getElem_map, decide_eq_decide]
  have hv : validPos a0 (b, z) := ⟨h2, by
    show z < (a0.getD b []).length
    rw [List.getD_eq_getElem _ _ h2]; exact h4⟩
  have := h b z hv
  rwa [getAc_eq_getElem a b z h1 h3, getAc_eq_getElem a0 b z h2 h4] at this

/-- The forward pass keeps every zero and every nonzero coefficient where it was. -/
theorem scrambleSameRunAcc_zeroPattern (c : Nat) (rp : List (List randSequence))
    (ac : List (List Int))
    (hrp : ∀ r, r < c → ((rp.getD r []).map (fun p => p.number)).Perm
      (List.range ((countRuns c ac).getD r 0))) :
    zeroPattern (scrambleSameRunAcc c rp ac (recordRuns c ac) (countRuns c ac)) =
      zeroPattern ac := by
  obtain ⟨hs, hhit, hmiss⟩ := scrambleSameRunAcc_spec c rp ac hrp
  apply zeroPattern_ext _ _ hs
  intro b z _
  by_cases hex : ∃ r, r < c ∧ ∃ i, i < ((recordRuns c ac).getD r []).length ∧
      classPos (recordRuns c ac) r i = (b, z)
  · obtain ⟨r, hr, i, hi, hp⟩ := hex
    have h1 := hhit r hr i hi
    rw [hp] at h1
    have hlt : classIdx rp r i < ((recordRuns c ac).getD r []).length := by
      rw [classIdx_getD, ← countRuns_getD]
      exact perm_range_lt _ _ (hrp r hr) i (by rw [countRuns_getD]; exact hi)
    have h2 := (classPos_spec c ac r _ hlt).2.2.2
    have h3 := (classPos_spec c ac r i hi).2.2
    rw [hp] at h3
    simp only at h1 h3
    rw [h1, h3.1]
    exact ⟨fun h => absurd h h2, fun h => absurd h h3.2⟩
  · rw [hmiss b z (fun r hr i hi hp => hex ⟨r, hr, i, hi, hp⟩)]

/-- The inverse pass, run on the class members recomputed from the scrambled array,
restores the array. -/
theorem reScramble_scrambleSameRunAcc (c : Nat) (rp : List (List randSequence))
    (ac : List (List Int))
    (hrp : ∀ r, r < c → ((rp.getD r []).map (fun p => p.number)).Perm
      (List.range ((countRuns c ac).getD r 0))) :
    reScrambleSameRunAcc c rp (scrambleSameRunAcc c rp ac (recordRuns c ac) (countRuns c ac))
      (recordRuns c (scrambleSameRunAcc c rp ac (recordRuns c ac) (countRuns c ac)))
      (countRuns c (scrambleSameRunAcc c rp ac (recordRuns c ac) (countRuns c ac))) = ac := by
  obtain ⟨hs, hhit, hmiss⟩ := scrambleSameRunAcc_spec c rp ac hrp
  have hpat := scrambleSameRunAcc_zeroPattern c rp ac hrp
  generalize hac' : scrambleSameRunAcc c rp ac (recordRuns c ac) (countRuns c ac) = ac' at *
  have hcnt := countRuns_pattern c ac' ac hpat
  have hpos := classPos_pattern c ac' ac hpat
  have hlen : ∀ r, ((recordRuns c ac').getD r []).length =
      ((recordRuns c ac).getD r []).length := by
    intro r
    rw [← countRuns_getD, ← countRuns_getD, hcnt]
  obtain ⟨hs', hhit', hmiss'⟩ := reScrambleSameRunAcc_spec c rp ac' (by rw [hcnt]; exact hrp)
  have hlt : ∀ r, r < c → ∀ i, i < ((recordRuns c ac).getD r []).length →
      classIdx rp r i < ((recordRuns c ac).getD r []).length := by
    intro r hr i hi
    rw [classIdx_getD, ← countRuns_getD]
    exact perm_range_lt _ _ (hrp r hr) i (by rw [countRuns_getD]; exact hi)
  apply ext_getAc _ _ (by rw [hs', hs])
  intro b z _ _
  by_cases hex : ∃ r, r < c ∧ ∃ j, j < ((recordRuns c ac).getD r []).length ∧
      classPos (recordRuns c ac) r j = (b, z)
  · obtain ⟨r, hr, j, hj, hp⟩ := hex
    obtain ⟨i, hi, hij⟩ := perm_range_surj _ _ (hrp r hr) j (by rw [countRuns_getD]; exact hj)
    rw [← classIdx_getD] at hij
    rw [countRuns_getD] at hi
    have h1 := hhit' r hr i (by rw [hlen]; exact hi)
    rw [hpos, hpos, hij, hp] at h1
    simp only at h1
    rw [h1]
    have h2 := hhit r hr i hi
    rw [hij] at h2
    have h3 := (classPos_spec c ac r j hj).2.2.1
    rw [hp] at h3
    simp only at h3
    rw [h2, h3]
  · have hno : ∀ r, r < c → ∀ i, i < ((recordRuns c ac).getD r []).length →
        classPos (recordRuns c ac) r i ≠ (b, z) :=
      fun r hr i hi hp => hex ⟨r, hr, i, hi, hp⟩
    rw [hmiss' b z (by
      intro r hr i hi
      rw [hpos]
      rw [hlen] at hi
      exact hno r hr _ (hlt r hr i hi))]
    exact hmiss b z hno

/-! ## The AC half of the pipeline -/

/-- Reading a list through a rearrangement of its indices rearranges the list. -/
theorem gather_perm {α : Type} (d : α) (l : List α) (idx : List Nat)
    (h : idx.Perm (List.range l.length)) :
    ((List.range l.length).map (fun i => l.getD (idx.getD i 0) d)).Perm l := by
  have hl : idx.length = l.length := by simpa using h.length_eq
  have e1 : (List.range l.length).map (fun i => l.getD (idx.getD i 0) d) =
      idx.map (fun k => l.getD k d) := by
    apply List.ext_getElem (by simp [hl])
    intro i h1 h2
    simp only [List.getElem_map, List.getElem_range]
    rw [List.getD_eq_getElem idx _ (by simpa [hl] using h1)]
  rw [e1]
  refine (h.map _).trans ?_
  have e2 : (List.range l.length).map (fun k => l.getD k d) = l := by
    apply List.ext_getElem (by simp)
    intro i h1 h2
    simp only [List.getElem_map, List.getElem_range]
    exact List.getD_eq_getElem _ _ h2
  rw [e2]

/-- The block scramble rearranges whole blocks. -/
theorem scrambleMcuNoDcc_perm (rp : List randSequence) (ac : List (List Int))
    (hrp : (rp.map (fun r => r.number)).Perm (List.range ac.length)) :
    (scrambleMcuNoDcc rp ac).Perm ac := by
  rw [scrambleMcuNoDcc_eq]
  have := gather_perm [] ac _ hrp
  simpa only [← number_getD] using this

theorem blockEvents_runs (c : Nat) (blk : List Int) :
    ∀ (b b' z z' run : Nat), (blockEvents c b blk z run).map (fun e => e.1) =
      (blockEvents c b' blk z' run).map (fun e => e.1) := by
  induction blk with
  | nil => intro b b' z z' run; rfl
  | cons v vs ih =>
    intro b b' z z' run
    unfold blockEvents
    by_cases hv : v ≠ 0
    · rw [if_pos hv, if_pos hv, List.map_append, List.map_append,
        ih b b' (z + 1) (z' + 1) 0]
      congr 1
      by_cases hr : run < c
      · rw [if_pos hr, if_pos hr]; rfl
      · rw [if_neg hr, if_neg hr]
    · rw [if_neg hv, if_neg hv, ih b b' (z + 1) (z' + 1)]

theorem allEvents_runs (c : Nat) (ac : List (List Int)) :
    ∀ (b : Nat), (allEvents c ac b).map (fun e => e.1) =
      ac.flatMap (fun blk => (blockEvents c 0 blk 0 0).map (fun e => e.1)) := by
  induction ac with
  | nil => intro b; rfl
  | cons blk rest ih =>
    intro b
    unfold allEvents
    rw [List.map_append, ih (b + 1), blockEvents_runs c blk b 0 0 0 0, List.flatMap_cons]

/-- The class counts do not depend on the order of the blocks. -/
theorem countRuns_perm (c : Nat) (ac ac' : List (List Int)) (h : ac.Perm ac') :
    countRuns c ac = countRuns c ac' := by
  have hmem : ∀ (a : List (List Int)), ∀ e ∈ (allEvents c a 0).map (fun e => e.1),
      e < (List.replicate c 0).length := by
    intro a e he
    obtain ⟨e', he', rfl⟩ := List.mem_map.mp he
    rw [List.length_replicate]
    exact (allEvents_spec c a 0 e' he').1
  apply ext_getD 0 _ _ (by rw [length_countRuns, length_countRuns])
  intro r _
  rw [countRuns_eq, countRuns_eq, getD_foldl_bumpCount _ _ _ (hmem ac),
    getD_foldl_bumpCount _ _ _ (hmem ac'), allEvents_runs, allEvents_runs]
  congr 1
  exact (h.flatMap_right _).count_eq r

theorem drawLoop_number (M : Mpf) (u : ℚ) (count : Nat) :
    ∀ (i : Nat) (x : ℚ), (drawLoop M u count i x).1.map (fun r => r.number) =
      List.range' i count := by
  induction count with
  | zero => intro i x; rfl
  | succ k ih => intro i x; simp [drawLoop, ih, List.range'_succ]

/-- The indices of a sorted draw vector are a rearrangement of `0, ..., count - 1`. -/
theorem drawSorted_perm (M : Mpf) (u : ℚ) (count : Nat) (x : ℚ) :
    ((drawSorted M u count x).1.map (fun r => r.number)).Perm (List.range count) := by
  unfold drawSorted sortRand
  refine ((List.perm_insertionSort _ _).map _).trans ?_
  rw [drawLoop_number, List.range_eq_range']

theorem drawMany_perm (M : Mpf) (u : ℚ) (counts : List Nat) :
    ∀ (x : ℚ) (r : Nat), (((drawMany M u counts x).1.getD r []).map (fun p => p.number)).Perm
      (List.range (counts.getD r 0)) := by
  induction counts with
  | nil => intro x r; simp [drawMany]
  | cons n ns ih =>
    intro x r
    cases r with
    | zero => simpa [drawMany] using drawSorted_perm M u n x
    | succ k => simpa [drawMany] using ih (drawSorted M u n x).2 k

theorem length_of_shape (a a0 : List (List Int))
    (h : a.map List.length = a0.map List.length) : a.length = a0.length := by
  simpa using congrArg List.length h

/-- The AC half of `decrypt` undoes the AC half of `encrypt`, for every generator value on
entry. -/
theorem decryptAc_encryptAc (M : Mpf) (c : Nat) (u x : ℚ) (ac : List (List Int)) :
    decryptAc M c u x (encryptAc M c u x ac) = ac := by
  have hrp3 : ∀ r, r < c →
      (((drawMany M u (countRuns c ac) x).1.getD r []).map (fun p => p.number)).Perm
        (List.range ((countRuns c ac).getD r 0)) := fun r _ => drawMany_perm M u _ x r
  have hspec := scrambleSameRunAcc_spec c (drawMany M u (countRuns c ac) x).1 ac hrp3
  have hpat := scrambleSameRunAcc_zeroPattern c (drawMany M u (countRuns c ac) x).1 ac hrp3
  have hrt := reScramble_scrambleSameRunAcc c (drawMany M u (countRuns c ac) x).1 ac hrp3
  unfold decryptAc encryptAc
  simp only []
  generalize hac1 : scrambleSameRunAcc c (drawMany M u (countRuns c ac) x).1 ac
    (recordRuns c ac) (countRuns c ac) = ac1 at *
  have hl1 : ac1.length = ac.length := length_of_shape _ _ hspec.1
  have hrp4 : ((drawSorted M u ac.length (drawMany M u (countRuns c ac) x).2).1.map
      (fun r => r.number)).Perm (List.range ac1.length) := by
    rw [hl1]; exact drawSorted_perm M u _ _
  have hcnt : countRuns c (scrambleMcuNoDcc
      (drawSorted M u ac.length (drawMany M u (countRuns c ac) x).2).1 ac1) =
      countRuns c ac := by
    rw [countRuns_perm c _ _ (scrambleMcuNoDcc_perm _ _ hrp4)]
    exact countRuns_pattern c ac1 ac hpat
  rw [hcnt, length_scrambleMcuNoDcc, hl1, reScramble_scrambleMcuNoDcc _ _ hrp4]
  rw [countRuns_pattern c ac1 ac hpat] at hrt
  exact hrt

/-! ## FeatureFingerprint -/

theorem histFold_eq (blocks : List (List Int)) :
    ∀ vec : List Nat,
      blocks.foldl (fun vec blk =>
        if nonZeroAcCount blk < 64 then
          vec.set (nonZeroAcCount blk) (vec.getD (nonZeroAcCount blk) 0 + 1)
        else vec) vec =
      ((blocks.map nonZeroAcCount).filter (fun k => decide (k < 64))).foldl bumpCount vec := by
  induction blocks with
  | nil => intro vec; rfl
  | cons blk rest ih =>
    intro vec
    rw [List.foldl_cons, ih, List.map_cons, List.filter_cons]
    by_cases h : nonZeroAcCount blk < 64
    · simp only [h, if_true, decide_True, List.foldl_cons]; rfl
    · simp only [h, if_false, decide_False]
      rfl

theorem length_featureHistogram (blocks : List (List Int)) :
    (featureHistogram blocks).length = 64 := by
  unfold featureHistogram
  rw [histFold_eq, length_foldl_bumpCount, List.length_replicate]

/-- Bin `k` counts the blocks with `k` nonzero AC coefficients. -/
theorem featureHistogram_getD (blocks : List (List Int)) (k : Nat) :
    (featureHistogram blocks).getD k 0 =
      ((blocks.map nonZeroAcCount).filter (fun k => decide (k < 64))).count k := by
  unfold featureHistogram
  rw [histFold_eq, getD_foldl_bumpCount _ _ _ (by
    intro e he
    rw [List.length_replicate]
    simpa using (List.mem_filter.mp he).2), getD_replicate_zero, Nat.zero_add]

/-- The histogram does not depend on the order of the blocks. -/
theorem featureHistogram_perm (blocks blocks' : List (List Int)) (h : blocks.Perm blocks') :
    featureHistogram blocks = featureHistogram blocks' := by
  apply ext_getD 0 _ _ (by rw [length_featureHistogram, length_featureHistogram])
  intro k _
  rw [featureHistogram_getD, featureHistogram_getD]
  exact ((h.map _).filter _).count_eq k

theorem nonZeroAcCount_pattern (blk : List Int) :
    ∀ (blk' : List Int) (n : Nat),
      blk.map (fun v => decide (v = 0)) = blk'.map (fun v => decide (v = 0)) →
      blk.foldl (fun count v => if v ≠ 0 then count + 1 else count) n =
        blk'.foldl (fun count v => if v ≠ 0 then count + 1 else count) n := by
  induction blk with
  | nil =>
    intro blk' n h
    cases blk' with
    | nil => rfl
    | cons _ _ => simp at h
  | cons v vs ih =>
    intro blk' n h
    cases blk' with
    | nil => simp at h
    | cons v' vs' =>
      simp only [List.map_cons, List.cons.injEq, decide_eq_decide] at h
      simp only [List.foldl_cons]
      have hc : (if v ≠ 0 then n + 1 else n) = (if v' ≠ 0 then n + 1 else n) := by
        by_cases hv : v = 0
        · simp [hv, h.1.mp hv]
        · have hv' : v' ≠ 0 := fun h0 => hv (h.1.mpr h0)
          simp [hv, hv']
      rw [hc]
      exact ih vs' _ h.2

/-- The histogram depends on the zero pattern of the blocks only. -/
theorem featureHistogram_pattern (ac : List (List Int)) :
    ∀ ac' : List (List Int), zeroPattern ac = zeroPattern ac' →
      ac.map nonZeroAcCount = ac'.map nonZeroAcCount := by
  induction ac with
  | nil =>
    intro ac' h
    cases ac' with
    | nil => rfl
    | cons _ _ => simp [zeroPattern] at h
  | cons blk rest ih =>
    intro ac' h
    cases ac' with
    | nil => simp [zeroPattern] at h
    | cons blk' rest' =>
      simp only [zeroPattern, List.map_cons, List.cons.injEq] at h
      rw [List.map_cons, List.map_cons, ih rest' h.2]
      congr 1
      exact nonZeroAcCount_pattern blk blk' 0 h.1

/-- The AC half of `encrypt` leaves the feature histogram as it was. -/
theorem featureHistogram_encryptAc (M : Mpf) (c : Nat) (u x : ℚ) (ac : List (List Int)) :
    featureHistogram (encryptAc M c u x ac) = featureHistogram ac := by
  have hrp3 : ∀ r, r < c →
      (((drawMany M u (countRuns c ac) x).1.getD r []).map (fun p => p.number)).Perm
        (List.range ((countRuns c ac).getD r 0)) := fun r _ => drawMany_perm M u _ x r
  have hspec := scrambleSameRunAcc_spec c (drawMany M u (countRuns c ac) x).1 ac hrp3
  have hpat := scrambleSameRunAcc_zeroPattern c (drawMany M u (countRuns c ac) x).1 ac hrp3
  unfold encryptAc
  simp only []
  generalize hac1 : scrambleSameRunAcc c (drawMany M u (countRuns c ac) x).1 ac
    (recordRuns c ac) (countRuns c ac) = ac1 at *
  have hl1 : ac1.length = ac.length := length_of_shape _ _ hspec.1
  have hrp4 : ((drawSorted M u ac.length (drawMany M u (countRuns c ac) x).2).1.map
      (fun r => r.number)).Perm (List.range ac1.length) := by
    rw [hl1]; exact drawSorted_perm M u _ _
  rw [featureHistogram_perm _ _ (scrambleMcuNoDcc_perm _ _ hrp4)]
  apply ext_getD 0 _ _ (by rw [length_featureHistogram, length_featureHistogram])
  intro k _
  rw [featureHistogram_getD, featureHistogram_getD, featureHistogram_pattern ac1 ac hpat]

/-! ## The DC half of the pipeline: lengths and the assertion -/

theorem length_memcpyAt {α : Type} (a : List α) (start : Nat) (src : List α)
    (h : start + src.length ≤ a.length) : (memcpyAt a start src).length = a.length := by
  unfold memcpyAt
  simp only [List.length_append, List.length_take, List.length_drop]
  omega

theorem length_slice {α : Type} (a : List α) (start stop : Nat) (h : stop ≤ a.length) :
    (slice a start stop).length = stop - start := by
  unfold slice
  simp only [List.length_take, List.length_drop]
  omega

theorem length_swapHalves (diff : List Int) (t g : Nat) (h : 2 * t * (g + 1) ≤ diff.length) :
    (swapHalves diff t g).length = diff.length := by
  have e : 2 * t * (g + 1) = 2 * t * g + t + t := by ring
  unfold swapHalves
  simp only []
  have h1 : (slice diff (2 * t * g + t) (2 * t * g + t + t)).length = t := by
    rw [length_slice _ _ _ (by omega)]; omega
  have h2 : (slice diff (2 * t * g) (2 * t * g + t)).length = t := by
    rw [length_slice _ _ _ (by omega)]; omega
  have h3 : (memcpyAt diff (2 * t * g)
      (slice diff (2 * t * g + t) (2 * t * g + t + t))).length = diff.length :=
    length_memcpyAt _ _ _ (by omega)
  rw [length_memcpyAt _ _ _ (by omega), h3]

theorem length_swapGroup (c f : Int) (t : Nat) (rp : List randSequence) (diff : List Int)
    (g : Nat) (h : 2 * t * (g + 1) ≤ diff.length) :
    (swapGroup c f t rp diff g).length = diff.length := by
  unfold swapGroup
  simp only []
  split
  · split
    · exact length_swapHalves diff t g h
    · rfl
  · rfl

theorem length_swapWindows (c f : Int) (t : Nat) (rp : List randSequence) (G : Nat) :
    ∀ diff : List Int, 2 * t * G ≤ diff.length →
      ((List.range G).foldl (swapGroup c f t rp) diff).length = diff.length := by
  induction G with
  | zero => intro diff _; rfl
  | succ k ih =>
    intro diff h
    have hk : 2 * t * k ≤ diff.length := by
      have : 2 * t * k ≤ 2 * t * (k + 1) := Nat.mul_le_mul_left _ (by omega)
      omega
    rw [List.range_succ, List.foldl_append]
    simp only [List.foldl_cons, List.foldl_nil]
    rw [length_swapGroup _ _ _ _ _ _ (by rw [ih diff hk]; exact h), ih diff hk]

theorem itersGroupNum_getD (iter_times block_sum t : Nat) (h1 : 1 ≤ t) (h2 : t ≤ iter_times) :
    (itersGroupNum iter_times block_sum).getD (t - 1) 0 = block_sum / (t * 2) := by
  unfold itersGroupNum
  rw [List.getD_eq_getElem _ _ (by simp; omega)]
  simp only [List.getElem_map, List.getElem_range']
  congr 2
  omega

theorem length_swapIteration (c f : Int) (rp : List (List randSequence)) (iter_times : Nat)
    (diff : List Int) (n t : Nat) (h1 : 1 ≤ t) (h2 : t ≤ iter_times) (hn : diff.length = n) :
    (swapIteration c f rp (itersGroupNum iter_times n) diff t).length = n := by
  unfold swapIteration
  rw [itersGroupNum_getD _ _ _ h1 h2, length_swapWindows _ _ _ _ _ _ (by
    rw [hn]
    have := Nat.div_mul_le_self n (t * 2)
    calc 2 * t * (n / (t * 2)) = n / (t * 2) * (t * 2) := by ring
      _ ≤ n := this), hn]

theorem length_foldl_swapIteration (c f : Int) (rp : List (List randSequence))
    (iter_times n : Nat) (ts : List Nat) (hts : ∀ t ∈ ts, 1 ≤ t ∧ t ≤ iter_times) :
    ∀ diff : List Int, diff.length = n →
      (ts.foldl (swapIteration c f rp (itersGroupNum iter_times n)) diff).length = n := by
  induction ts with
  | nil => intro diff h; exact h
  | cons t ts ih =>
    intro diff h
    rw [List.foldl_cons]
    exact ih (fun t' ht' => hts t' (List.mem_cons_of_mem _ ht')) _
      (length_swapIteration c f rp iter_times diff n t (hts t (List.mem_cons_self _ _)).1
        (hts t (List.mem_cons_self _ _)).2 h)

theorem mem_range'_one (iter_times t : Nat) (h : t ∈ List.range' 1 iter_times) :
    1 ≤ t ∧ t ≤ iter_times := by
  rw [List.mem_range'_1] at h
  omega

/-- The forward iterative swap keeps the number of differences. -/
theorem length_dccIterSwap (iter_times : Nat) (c f : Int) (rp : List (List randSequence))
    (diff : List Int) :
    (dccIterSwap iter_times c f rp diff (itersGroupNum iter_times diff.length)).length =
      diff.length := by
  unfold dccIterSwap
  exact length_foldl_swapIteration c f rp iter_times diff.length _
    (mem_range'_one iter_times) diff rfl

/-- The inverse iterative swap keeps the number of differences. -/
theorem length_reDccIterSwap (iter_times : Nat) (c f : Int) (rp : List (List randSequence))
    (diff : List Int) :
    (reDccIterSwap iter_times c f rp diff (itersGroupNum iter_times diff.length)).length =
      diff.length := by
  unfold reDccIterSwap
  exact length_foldl_swapIteration c f rp iter_times diff.length _
    (fun t ht => mem_range'_one iter_times t (List.mem_reverse.mp ht)) diff rfl

theorem length_signGroupStage (temp_rp1 : List randSequence) (diff : List Int) :
    (signGroupStage temp_rp1 diff).length = diff.length := by
  rw [signGroupStage_eq, length_stageGroups_scramble _ _ _ (by rw [groupsDiffNum_sum]),
    groupsDiffNum_sum]

theorem length_encryptDc (M : Mpf) (iter_times : Nat) (c f : Int) (u x : ℚ)
    (diff : List Int) : (encryptDc M iter_times c f u x diff).length = diff.length := by
  unfold encryptDc
  simp only []
  have h := length_dccIterSwap iter_times c f
    (dcSchedule M iter_times u x diff.length).2.1
    (signGroupStage (dcSchedule M iter_times u x diff.length).1 diff)
  rw [length_signGroupStage] at h
  exact h

theorem length_decryptUnswap (M : Mpf) (iter_times : Nat) (c f : Int) (u x : ℚ)
    (diff : List Int) : (decryptUnswap M iter_times c f u x diff).length = diff.length := by
  unfold decryptUnswap
  exact length_reDccIterSwap iter_times c f _ diff

theorem signGroupLoop_pos (ds : List Int) :
    ∀ (s : Bool) (cur : Nat), 1 ≤ cur → ∀ n ∈ signGroupLoop ds s cur, 1 ≤ n := by
  induction ds with
  | nil => intro s cur h n hn; simp [signGroupLoop] at hn; omega
  | cons d ds ih =>
    intro s cur h n hn
    unfold signGroupLoop at hn
    split at hn
    · exact ih s (cur + 1) (by omega) n hn
    · rcases List.mem_cons.mp hn with h1 | h1
      · omega
      · exact ih (!s) 1 (le_refl _) n h1

/-- With at least one block, `assert(num_in_group >= 1)` holds for every group. -/
theorem groupsAsserted_of_pos (diff : List Int) (h : 1 ≤ diff.length) :
    groupsAsserted (groupsDiffNum diff) = true := by
  cases diff with
  | nil => simp at h
  | cons d ds =>
    unfold groupsAsserted groupsDiffNum
    rw [List.all_eq_true]
    intro n hn
    simpa using signGroupLoop_pos ds _ 1 (le_refl _) n hn

/-- With at least one block `encrypt` returns: the DC half and the AC half side by
side. -/
theorem encrypt_eq_some (M : Mpf) (iter_times ceiling_run : Nat) (c f : Int) (x u : ℚ)
    (diff : List Int) (ac : List (List Int)) (h : 1 ≤ diff.length) :
    encrypt M iter_times ceiling_run c f x u diff ac =
      some (encryptDc M iter_times c f u x diff,
        encryptAc M ceiling_run u (dcSchedule M iter_times u x diff.length).2.2 ac) := by
  unfold encrypt
  rw [if_pos (groupsAsserted_of_pos diff h)]

/-- With at least one block `decrypt` returns: the DC half and the AC half side by
side. -/
theorem decrypt_eq_some (M : Mpf) (iter_times ceiling_run : Nat) (c f : Int) (x u : ℚ)
    (diff : List Int) (ac : List (List Int)) (h : 1 ≤ diff.length) :
    decrypt M iter_times ceiling_run c f x u diff ac =
      some (decryptDc M iter_times c f u x diff,
        decryptAc M ceiling_run u (dcSchedule M iter_times u x diff.length).2.2 ac) := by
  unfold decrypt
  rw [if_pos (groupsAsserted_of_pos _ (by rw [length_decryptUnswap]; exact h))]

/-! ## DCIterativeSwapper: the guard and the swap of one window -/

theorem overflowCheck_append (c f : Int) (l1 l2 : List Int) :
    ∀ st : Int × Bool, overflowCheck c f (l1 ++ l2) st =
      overflowCheck c f l2 (overflowCheck c f l1 st) := by
  induction l1 with
  | nil => intro st; rfl
  | cons d ds ih =>
    intro st
    obtain ⟨p, b⟩ := st
    simp only [List.cons_append, overflowCheck]
    split
    · split <;> exact ih _
    · exact ih _

theorem overflowCheck_false (c f : Int) (l : List Int) :
    ∀ p : Int, (overflowCheck c f l (p, false)).2 = false := by
  induction l with
  | nil => intro p; rfl
  | cons d ds ih => intro p; simp only [overflowCheck]; exact ih _

/-- The flag left by an overflow-check loop that starts with `can_swap = 1`: it is still
set exactly when every accumulated value lies in `[floor_dc, ceiling_dc]`. -/
theorem overflowCheck_true_iff (c f : Int) (l : List Int) :
    ∀ p : Int, (overflowCheck c f l (p, true)).2 = true ↔
      ∀ s ∈ runningSums l p, f ≤ s ∧ s ≤ c := by
  induction l with
  | nil => intro p; simp [overflowCheck, runningSums]
  | cons d ds ih =>
    intro p
    simp only [overflowCheck, runningSums, List.mem_cons, forall_eq_or_imp, if_true]
    have e : d + p = p + d := Int.add_comm d p
    by_cases h : p + d ≤ c ∧ p + d ≥ f
    · rw [if_neg (not_not.mpr h), ih, e]
      constructor
      · intro h2; exact ⟨⟨h.2, h.1⟩, h2⟩
      · intro h2; exact h2.2
    · rw [if_pos h, overflowCheck_false]
      constructor
      · intro h2; exact absurd h2 (by simp)
      · intro h2
        rw [e] at h2
        exact absurd ⟨h2.1.2, h2.1.1⟩ h

theorem slice_append_mid {α : Type} (A X Y : List α) :
    slice (A ++ (X ++ Y)) A.length (A.length + X.length) = X := by
  unfold slice
  rw [List.drop_left' rfl, Nat.add_sub_cancel_left, List.take_left' rfl]

theorem slice_of_eq {α : Type} (a : List α) (s s' e e' : Nat) (hs : s = s') (he : e = e') :
    slice a s e = slice a s' e' := by
  rw [hs, he]

/-- A window that lies inside the array splits the array into the part before it, its
left half, its right half and the part after it. -/
theorem window_split (diff : List Int) (t g : Nat) (h : 2 * t * (g + 1) ≤ diff.length) :
    diff = diff.take (2 * t * g) ++ (slice diff (2 * t * g) (2 * t * g + t) ++
      (slice diff (2 * t * g + t) (2 * (g + 1) * t) ++ diff.drop (2 * t * (g + 1)))) ∧
    (diff.take (2 * t * g)).length = 2 * t * g ∧
    (slice diff (2 * t * g) (2 * t * g + t)).length = t ∧
    (slice diff (2 * t * g + t) (2 * (g + 1) * t)).length = t := by
  have e : 2 * t * (g + 1) = 2 * t * g + t + t := by ring
  have e2 : 2 * (g + 1) * t = 2 * t * g + t + t := by ring
  refine ⟨?_, ?_, ?_, ?_⟩
  · unfold slice
    rw [e2, e]
    have h1 : 2 * t * g + t - 2 * t * g = t := by omega
    have h2 : 2 * t * g + t + t - (2 * t * g + t) = t := by omega
    rw [h1, h2]
    have d1 : diff.drop (2 * t * g + t) = (diff.drop (2 * t * g)).drop t := by
      rw [List.drop_drop, Nat.add_comm]
    have d2 : diff.drop (2 * t * g + t + t) = (diff.drop (2 * t * g + t)).drop t := by
      rw [List.drop_drop, Nat.add_comm]
    rw [d2, List.take_append_drop, d1, List.take_append_drop, List.take_append_drop]
  · rw [List.length_take]; omega
  · rw [length_slice _ _ _ (by omega)]; omega
  · rw [length_slice _ _ _ (by omega)]; omega

/-- On an array split at a window, the guard reads the right half and then the left
half. -/
theorem canSwap_append (c f : Int) (A L R B : List Int) (t g : Nat)
    (hA : A.length = 2 * t * g) (hL : L.length = t) (hR : R.length = t) :
    canSwap c f (A ++ (L ++ (R ++ B))) t g = (overflowCheck c f (R ++ L) (0, true)).2 := by
  unfold canSwap
  simp only []
  have e2 : 2 * (g + 1) * t = 2 * t * g + t + t := by ring
  have s1 : slice (A ++ (L ++ (R ++ B))) (2 * t * g + t) (2 * (g + 1) * t) = R := by
    have := slice_append_mid (A ++ L) R B
    rw [List.length_append, hA, hL, hR, List.append_assoc] at this
    rw [e2]; exact this
  have s2 : slice (A ++ (L ++ (R ++ B))) (2 * t * g) (2 * t * g + t) = L := by
    have := slice_append_mid A L (R ++ B)
    rw [hA, hL] at this
    exact this
  rw [s1, s2, overflowCheck_append]

/-- On an array split at a window, the three copies leave the right half in front of the
left half. -/
theorem swapHalves_append (A L R B : List Int) (t g : Nat)
    (hA : A.length = 2 * t * g) (hL : L.length = t) (hR : R.length = t) :
    swapHalves (A ++ (L ++ (R ++ B))) t g = A ++ (R ++ (L ++ B)) := by
  unfold swapHalves
  simp only []
  have s1 : slice (A ++ (L ++ (R ++ B))) (2 * t * g + t) (2 * t * g + t + t) = R := by
    have := slice_append_mid (A ++ L) R B
    rw [List.length_append, hA, hL, hR, List.append_assoc] at this
    exact this
  have s2 : slice (A ++ (L ++ (R ++ B))) (2 * t * g) (2 * t * g + t) = L := by
    have := slice_append_mid A L (R ++ B)
    rw [hA, hL] at this
    exact this
  rw [s1, s2]
  have m1 : memcpyAt (A ++ (L ++ (R ++ B))) (2 * t * g) R = A ++ (R ++ (R ++ B)) := by
    rw [← hA, memcpyAt_append, hR, ← hL, List.drop_left' rfl, List.append_assoc]
  rw [m1]
  have m2 : memcpyAt (A ++ (R ++ (R ++ B))) (2 * t * g + t) L = A ++ (R ++ (L ++ B)) := by
    have h := memcpyAt_append (A ++ R) (R ++ B) L
    rw [List.length_append, hA, hR, hL, ← hR, List.drop_left' rfl] at h
    rw [hR] at h
    simpa only [List.append_assoc] using h
  exact m2

/-- The guard of a window passes exactly when every partial sum, accumulated from 0, of
the right half followed by the left half lies in `[floor_dc, ceiling_dc]`. -/
theorem canSwap_iff (c f : Int) (diff : List Int) (t g : Nat) :
    canSwap c f diff t g = true ↔
      ∀ s ∈ runningSums (slice diff (2 * t * g + t) (2 * (g + 1) * t) ++
        slice diff (2 * t * g) (2 * t * g + t)) 0, f ≤ s ∧ s ≤ c := by
  unfold canSwap
  simp only []
  rw [← overflowCheck_append, overflowCheck_true_iff]

/-- A window that passes the guard and has an odd decision is replaced by its right half
followed by its left half; the rest of the array is untouched. -/
theorem swapGroup_swapped (c f : Int) (t : Nat) (rp : List randSequence) (diff : List Int)
    (g : Nat) (h : 2 * t * (g + 1) ≤ diff.length) (hc : canSwap c f diff t g = true)
    (hodd : (rp.getD g ⟨0, 0⟩).number % 2 = 1) :
    swapGroup c f t rp diff g =
      diff.take (2 * t * g) ++ (slice diff (2 * t * g + t) (2 * (g + 1) * t) ++
        (slice diff (2 * t * g) (2 * t * g + t) ++ diff.drop (2 * t * (g + 1)))) := by
  obtain ⟨hs, hA, hL, hR⟩ := window_split diff t g h
  unfold swapGroup
  simp only []
  rw [if_pos hc, if_pos hodd]
  conv => lhs; rw [hs]
  exact swapHalves_append _ _ _ _ t g hA hL hR

/-- A window that fails the guard, or whose decision is even, is left as it is. -/
theorem swapGroup_unswapped (c f : Int) (t : Nat) (rp : List randSequence) (diff : List Int)
    (g : Nat) (hno : ¬ (canSwap c f diff t g = true ∧ (rp.getD g ⟨0, 0⟩).number % 2 = 1)) :
    swapGroup c f t rp diff g = diff := by
  unfold swapGroup
  simp only []
  by_cases hc : canSwap c f diff t g = true
  · rw [if_pos hc, if_neg (fun ho => hno ⟨hc, ho⟩)]
  · rw [if_neg hc]

/-- The contents of a window after it has been swapped. -/
theorem slice_swapGroup_swapped (c f : Int) (t : Nat) (rp : List randSequence)
    (diff : List Int) (g : Nat) (h : 2 * t * (g + 1) ≤ diff.length)
    (hc : canSwap c f diff t g = true) (hodd : (rp.getD g ⟨0, 0⟩).number % 2 = 1) :
    slice (swapGroup c f t rp diff g) (2 * t * g) (2 * (g + 1) * t) =
      slice diff (2 * t * g + t) (2 * (g + 1) * t) ++ slice diff (2 * t * g) (2 * t * g + t) := by
  obtain ⟨_, hA, hL, hR⟩ := window_split diff t g h
  rw [swapGroup_swapped c f t rp diff g h hc hodd]
  have := slice_append_mid (diff.take (2 * t * g))
    (slice diff (2 * t * g + t) (2 * (g + 1) * t) ++ slice diff (2 * t * g) (2 * t * g + t))
    (diff.drop (2 * t * (g + 1)))
  rw [List.length_append, hA, hL, hR, List.append_assoc] at this
  have e2 : 2 * (g + 1) * t = 2 * t * g + (t + t) := by ring
  rw [e2]
  rw [e2] at this
  exact this

/-- One window step rearranges the array. -/
theorem swapGroup_perm (c f : Int) (t : Nat) (rp : List randSequence) (diff : List Int)
    (g : Nat) (h : 2 * t * (g + 1) ≤ diff.length) :
    (swapGroup c f t rp diff g).Perm diff := by
  by_cases hsw : canSwap c f diff t g = true ∧ (rp.getD g ⟨0, 0⟩).number % 2 = 1
  · rw [swapGroup_swapped c f t rp diff g h hsw.1 hsw.2]
    obtain ⟨hs, _, _, _⟩ := window_split diff t g h
    conv => rhs; rw [hs]
    apply List.Perm.append_left
    rw [← List.append_assoc, ← List.append_assoc]
    exact List.Perm.append_right _ List.perm_append_comm
  · rw [swapGroup_unswapped c f t rp diff g hsw]

theorem swapWindows_perm (c f : Int) (t : Nat) (rp : List randSequence) (G : Nat) :
    ∀ diff : List Int, 2 * t * G ≤ diff.length →
      ((List.range G).foldl (swapGroup c f t rp) diff).Perm diff := by
  induction G with
  | zero => intro diff _; exact List.Perm.refl _
  | succ k ih =>
    intro diff h
    have hk : 2 * t * k ≤ diff.length := by
      have : 2 * t * k ≤ 2 * t * (k + 1) := Nat.mul_le_mul_left _ (by omega)
      omega
    rw [List.range_succ, List.foldl_append]
    simp only [List.foldl_cons, List.foldl_nil]
    exact (swapGroup_perm _ _ _ _ _ _ (by rw [(ih diff hk).length_eq]; exact h)).trans
      (ih diff hk)

theorem swapIteration_perm (c f : Int) (rp : List (List randSequence)) (iter_times : Nat)
    (diff : List Int) (n t : Nat) (h1 : 1 ≤ t) (h2 : t ≤ iter_times) (hn : diff.length = n) :
    (swapIteration c f rp (itersGroupNum iter_times n) diff t).Perm diff := by
  unfold swapIteration
  rw [itersGroupNum_getD _ _ _ h1 h2]
  apply swapWindows_perm
  rw [hn]
  have := Nat.div_mul_le_self n (t * 2)
  calc 2 * t * (n / (t * 2)) = n / (t * 2) * (t * 2) := by ring
    _ ≤ n := this

theorem foldl_swapIteration_perm (c f : Int) (rp : List (List randSequence))
    (iter_times n : Nat) (ts : List Nat) (hts : ∀ t ∈ ts, 1 ≤ t ∧ t ≤ iter_times) :
    ∀ diff : List Int, diff.length = n →
      (ts.foldl (swapIteration c f rp (itersGroupNum iter_times n)) diff).Perm diff := by
  induction ts with
  | nil => intro diff _; exact List.Perm.refl _
  | cons t ts ih =>
    intro diff h
    rw [List.foldl_cons]
    have hp := swapIteration_perm c f rp iter_times diff n t (hts t (List.mem_cons_self _ _)).1
      (hts t (List.mem_cons_self _ _)).2 h
    exact (ih (fun t' ht' => hts t' (List.mem_cons_of_mem _ ht')) _
      (by rw [hp.length_eq]; exact h)).trans hp

/-- The forward iterative swap rearranges the differences. -/
theorem dccIterSwap_perm (iter_times : Nat) (c f : Int) (rp : List (List randSequence))
    (diff : List Int) :
    (dccIterSwap iter_times c f rp diff (itersGroupNum iter_times diff.length)).Perm diff := by
  unfold dccIterSwap
  exact foldl_swapIteration_perm c f rp iter_times diff.length _
    (mem_range'_one iter_times) diff rfl

/-- The encrypt-side sign-group stage rearranges the differences. -/
theorem stageGroups_scramble_perm (nums : List Nat) :
    ∀ (temp_rp1 : List randSequence) (diff : List Int), nums.sum ≤ diff.length →
      nums.sum ≤ temp_rp1.length →
      (stageGroups scrambleGroup nums temp_rp1 diff).Perm (diff.take nums.sum) := by
  induction nums with
  | nil => intro _ _ _ _; simp [stageGroups]
  | cons n ns ih =>
    intro temp_rp1 diff hd ht
    rw [List.sum_cons] at hd ht
    have htk : (diff.take n).length = n := by simp; omega
    have htt : (temp_rp1.take n).length = n := by simp; omega
    have hperm := scrambleGroup_perm (sortIntPair (groupPairs (temp_rp1.take n)))
      (diff.take n) n htk.symm (by
        have := sortIntPair_groupPairs_perm (temp_rp1.take n)
        rwa [htt] at this)
    simp only [stageGroups, List.sum_cons]
    rw [List.take_add]
    exact hperm.append (ih _ _ (by simp; omega) (by simp; omega))

theorem signGroupStage_perm (temp_rp1 : List randSequence) (diff : List Int)
    (ht : diff.length ≤ temp_rp1.length) : (signGroupStage temp_rp1 diff).Perm diff := by
  have hsum := groupsDiffNum_sum diff
  have := stageGroups_scramble_perm (groupsDiffNum diff) temp_rp1 diff (by omega) (by omega)
  rw [hsum, List.take_length] at this
  rw [signGroupStage_eq]
  exact this

theorem length_drawSorted (M : Mpf) (u : ℚ) (count : Nat) (x : ℚ) :
    (drawSorted M u count x).1.length = count := by
  simpa using (drawSorted_perm M u count x).length_eq

/-- The DC half of `encrypt` rearranges the differences. -/
theorem encryptDc_perm (M : Mpf) (iter_times : Nat) (c f : Int) (u x : ℚ) (diff : List Int) :
    (encryptDc M iter_times c f u x diff).Perm diff := by
  unfold encryptDc
  simp only []
  have hs : (signGroupStage (dcSchedule M iter_times u x diff.length).1 diff).Perm diff :=
    signGroupStage_perm _ _ (by
      unfold dcSchedule
      simp only []
      rw [length_drawSorted])
  have h := dccIterSwap_perm iter_times c f (dcSchedule M iter_times u x diff.length).2.1
    (signGroupStage (dcSchedule M iter_times u x diff.length).1 diff)
  rw [length_signGroupStage] at h
  exact h.trans hs

/-! ## Class counts and nonzero coefficients -/

theorem encryptAc_facts (M : Mpf) (c : Nat) (u x : ℚ) (ac : List (List Int)) :
    ∃ ac1 : List (List Int), ac1.map List.length = ac.map List.length ∧
      zeroPattern ac1 = zeroPattern ac ∧ (encryptAc M c u x ac).Perm ac1 := by
  have hrp3 : ∀ r, r < c →
      (((drawMany M u (countRuns c ac) x).1.getD r []).map (fun p => p.number)).Perm
        (List.range ((countRuns c ac).getD r 0)) := fun r _ => drawMany_perm M u _ x r
  have hspec := scrambleSameRunAcc_spec c (drawMany M u (countRuns c ac) x).1 ac hrp3
  have hpat := scrambleSameRunAcc_zeroPattern c (drawMany M u (countRuns c ac) x).1 ac hrp3
  refine ⟨_, hspec.1, hpat, ?_⟩
  unfold encryptAc
  simp only []
  apply scrambleMcuNoDcc_perm
  rw [length_of_shape _ _ hspec.1]
  exact drawSorted_perm M u _ _

/-- The AC half of `encrypt` keeps the number of blocks. -/
theorem length_encryptAc (M : Mpf) (c : Nat) (u x : ℚ) (ac : List (List Int)) :
    (encryptAc M c u x ac).length = ac.length := by
  obtain ⟨ac1, hs, _, hp⟩ := encryptAc_facts M c u x ac
  rw [hp.length_eq, length_of_shape _ _ hs]

/-- The AC half of `encrypt` keeps the class counts. -/
theorem countRuns_encryptAc (M : Mpf) (c : Nat) (u x : ℚ) (ac : List (List Int)) :
    countRuns c (encryptAc M c u x ac) = countRuns c ac := by
  obtain ⟨ac1, _, hpat, hp⟩ := encryptAc_facts M c u x ac
  rw [countRuns_perm c _ _ hp, countRuns_pattern c ac1 ac hpat]

theorem sum_bumpCount (cnt : List Nat) :
    ∀ r : Nat, r < cnt.length → (bumpCount cnt r).sum = cnt.sum + 1 := by
  induction cnt with
  | nil => intro r h; simp at h
  | cons a as ih =>
    intro r h
    cases r with
    | zero => simp [bumpCount]; omega
    | succ k =>
      have hk : k < as.length := by simpa using h
      have := ih k hk
      unfold bumpCount at this ⊢
      simp only [List.set_cons_succ, List.getD_cons_succ, List.sum_cons]
      omega

theorem sum_foldl_bumpCount (R : List Nat) :
    ∀ cnt : List Nat, (∀ e ∈ R, e < cnt.length) →
      (R.foldl bumpCount cnt).sum = cnt.sum + R.length := by
  induction R with
  | nil => intro cnt _; simp
  | cons e E ih =>
    intro cnt h
    have he : e < cnt.length := h e (List.mem_cons_self _ _)
    rw [List.foldl_cons, ih _ (by
      intro e' he'
      simp only [bumpCount, List.length_set]
      exact h e' (List.mem_cons_of_mem _ he')), sum_bumpCount cnt e he]
    simp only [List.length_cons]
    omega

/-- The class counts add up to the number of records made by the scan. -/
theorem countRuns_sum (c : Nat) (ac : List (List Int)) :
    (countRuns c ac).sum = (allEvents c ac 0).length := by
  rw [countRuns_eq, sum_foldl_bumpCount _ _ (by
    intro e he
    obtain ⟨e', he', rfl⟩ := List.mem_map.mp he
    rw [List.length_replicate]
    exact (allEvents_spec c ac 0 e' he').1)]
  simp

theorem nonZeroAcCount_foldl (blk : List Int) :
    ∀ n : Nat, blk.foldl (fun count v => if v ≠ 0 then count + 1 else count) n =
      n + blk.countP (fun v => decide (v ≠ 0)) := by
  induction blk with
  | nil => intro n; simp
  | cons v vs ih =>
    intro n
    rw [List.foldl_cons, ih, List.countP_cons]
    by_cases hv : v = 0
    · simp [hv]
    · simp [hv]; omega

theorem nonZeroAcCount_eq (blk : List Int) :
    nonZeroAcCount blk = blk.countP (fun v => decide (v ≠ 0)) := by
  unfold nonZeroAcCount
  rw [nonZeroAcCount_foldl, Nat.zero_add]

/-- When the rest of a block is too short for the run counter to reach `ceiling_run`,
every nonzero coefficient is recorded. -/
theorem length_blockEvents (c b : Nat) (blk : List Int) :
    ∀ (z run : Nat), run + blk.length ≤ c →
      (blockEvents c b blk z run).length = blk.countP (fun v => decide (v ≠ 0)) := by
  induction blk with
  | nil => intro z run _; rfl
  | cons v vs ih =>
    intro z run h
    simp only [List.length_cons] at h
    unfold blockEvents
    rw [List.countP_cons]
    by_cases hv : v ≠ 0
    · have hr : run < c := by omega
      rw [if_pos hv, if_pos hr, List.length_append, ih (z + 1) 0 (by omega)]
      have hd : decide (v ≠ 0) = true := decide_eq_true hv
      rw [hd]
      simp only [List.length_singleton, if_true]
      omega
    · rw [if_neg hv, ih (z + 1) (run + 1) (by omega)]
      simp [hv]

theorem length_allEvents (c : Nat) (ac : List (List Int)) :
    ∀ b0 : Nat, (∀ blk ∈ ac, blk.length ≤ c) →
      (allEvents c ac b0).length = totalNonZero ac := by
  induction ac with
  | nil => intro b0 _; rfl
  | cons blk rest ih =>
    intro b0 h
    unfold allEvents totalNonZero
    rw [List.length_append, ih (b0 + 1) (fun b hb => h b (List.mem_cons_of_mem _ hb)),
      length_blockEvents c b0 blk 0 0 (by
        have := h blk (List.mem_cons_self _ _)
        omega), List.map_cons, List.sum_cons, nonZeroAcCount_eq]
    rfl

/-- With blocks of at most `ceiling_run` coefficients the class counts add up to the
number of nonzero coefficients. -/
theorem countRuns_sum_eq (c : Nat) (ac : List (List Int)) (h : ∀ blk ∈ ac, blk.length ≤ c) :
    (countRuns c ac).sum = totalNonZero ac := by
  rw [countRuns_sum, length_allEvents c ac 0 h]

/-- The AC half of `encrypt` keeps the lengths of the blocks. -/
theorem encryptAc_block_length (M : Mpf) (c : Nat) (u x : ℚ) (ac : List (List Int)) (n : Nat)
    (h : ∀ blk ∈ ac, blk.length = n) : ∀ blk ∈ encryptAc M c u x ac, blk.length = n := by
  obtain ⟨ac1, hs, _, hp⟩ := encryptAc_facts M c u x ac
  intro blk hb
  have h1 : blk ∈ ac1 := hp.subset hb
  have h2 : blk.length ∈ ac1.map List.length := List.mem_map_of_mem _ h1
  rw [hs] at h2
  obtain ⟨blk', hb', he⟩ := List.mem_map.mp h2
  rw [← he]
  exact h blk' hb'

/-- The AC half of `encrypt` keeps the number of nonzero coefficients. -/
theorem totalNonZero_encryptAc (M : Mpf) (c : Nat) (u x : ℚ) (ac : List (List Int)) :
    totalNonZero (encryptAc M c u x ac) = totalNonZero ac := by
  obtain ⟨ac1, _, hpat, hp⟩ := encryptAc_facts M c u x ac
  unfold totalNonZero
  rw [(hp.map nonZeroAcCount).sum_eq, featureHistogram_pattern ac1 ac hpat]

/-! ## Key parameters -/

theorem countOnes_le (hashBool : List Bool) (start len : Nat) :
    countOnes hashBool start len ≤ len := by
  unfold countOnes
  induction len with
  | zero => simp
  | succ k ih =>
    rw [List.range_succ, List.foldl_append]
    simp only [List.foldl_cons, List.foldl_nil]
    split <;> omega

theorem length_keyDigits (hashBool : List Bool) (offset : Nat) :
    (keyDigits hashBool offset).length = 29 := by
  simp [keyDigits]

/-- Every digit that `initializeKey` appends is a single decimal digit. -/
theorem keyDigits_le (hashBool : List Bool) (offset : Nat) :
    ∀ d ∈ keyDigits hashBool offset, d ≤ 9 := by
  intro d hd
  unfold keyDigits at hd
  rcases List.mem_append.mp hd with h | h
  · obtain ⟨i, _, rfl⟩ := List.mem_map.mp h
    exact countOnes_le _ _ 9
  · simp only [List.mem_singleton] at h
    rw [h]
    have := countOnes_le hashBool (offset + 9 * (256 / 9)) (256 % 9)
    omega

/-- The number written by a string of decimal digits after the number `n0`. -/
theorem foldl_digits (ds : List Nat) (hd : ∀ d ∈ ds, d ≤ 9) :
    ∀ n0 : Nat, ∃ D : Nat, D < 10 ^ ds.length ∧
      ds.foldl (fun n d => 10 * n + d) n0 = n0 * 10 ^ ds.length + D := by
  induction ds with
  | nil => intro n0; exact ⟨0, by simp, by simp⟩
  | cons d ds ih =>
    intro n0
    obtain ⟨D, hD, hf⟩ := ih (fun a ha => hd a (List.mem_cons_of_mem _ ha)) (10 * n0 + d)
    have hd9 : d ≤ 9 := hd d (List.mem_cons_self _ _)
    refine ⟨d * 10 ^ ds.length + D, ?_, ?_⟩
    · simp only [List.length_cons, pow_succ]
      nlinarith
    · rw [List.foldl_cons, hf]
      simp only [List.length_cons, pow_succ]
      ring

/-- A numeral whose fraction starts with the two digits `a`, `b` and goes on with 29
decimal digits lies between `int_part.ab` and `int_part.ab + 0.01`. -/
theorem decimalValue_bounds (int_part a b : Nat) (ds : List Nat) (hlen : ds.length = 29)
    (hd : ∀ d ∈ ds, d ≤ 9) :
    (int_part : ℚ) + ((10 * a + b : Nat) : ℚ) / 100 ≤ decimalValue int_part ([a, b] ++ ds) ∧
    decimalValue int_part ([a, b] ++ ds) <
      (int_part : ℚ) + ((10 * a + b : Nat) : ℚ) / 100 + 1 / 100 := by
  obtain ⟨D, hD, hf⟩ := foldl_digits ds hd (10 * (10 * 0 + a) + b)
  rw [hlen] at hD hf
  unfold decimalValue
  simp only [List.cons_append, List.nil_append, List.foldl_cons, List.length_cons, hlen]
  rw [hf]
  have hD' : (D : ℚ) < 10 ^ 29 := by exact_mod_cast hD
  have hD0 : (0 : ℚ) ≤ D := by exact_mod_cast Nat.zero_le D
  push_cast
  constructor
  · rw [add_le_add_iff_left, div_le_div_iff₀ (by norm_num) (by norm_num)]
    nlinarith
  · rw [add_assoc, add_lt_add_iff_left, ← add_div, div_lt_div_iff₀ (by norm_num) (by norm_num)]
    nlinarith

/-! ## Permutation descriptors -/

theorem descriptors_number (values : List ℚ) :
    (descriptors values).map (fun r => r.number) = List.range values.length := by
  unfold descriptors
  rw [List.map_map]
  exact List.map_id'' (fun _ => rfl) _

/-- The indices of a sorted descriptor sequence are a rearrangement of `0, ..., n - 1`. -/
theorem sortRand_descriptors_perm (values : List ℚ) :
    ((sortRand (descriptors values)).map (fun r => r.number)).Perm
      (List.range values.length) := by
  rw [← descriptors_number]
  exact (List.perm_insertionSort _ _).map _

theorem sortRand_sorted (l : List randSequence) :
    (sortRand l).Sorted (fun a b => a.value ≤ b.value) := by
  unfold sortRand
  have : IsTotal randSequence (fun a b => a.value ≤ b.value) :=
    ⟨fun a b => le_total a.value b.value⟩
  have : IsTrans randSequence (fun a b => a.value ≤ b.value) :=
    ⟨fun a b c hab hbc => le_trans hab hbc⟩
  exact List.sorted_insertionSort _ _

theorem drawLoop_descriptors (M : Mpf) (u : ℚ) (count : Nat) :
    ∀ (i : Nat) (x : ℚ), (drawLoop M u count i x).1 =
      (List.range count).map (fun k =>
        (⟨i + k, ((drawLoop M u count i x).1.map (fun r => r.value)).getD k 0⟩ :
          randSequence)) := by
  induction count with
  | zero => intro i x; rfl
  | succ k ih =>
    intro i x
    rw [List.range_succ_eq_map]
    simp only [drawLoop, List.map_cons, List.map_map, List.getD_cons_zero, Nat.add_zero,
      List.cons.injEq, true_and]
    have h := ih (i + 1) (logisticNext M u x)
    conv => lhs; rw [h]
    apply List.map_congr_left
    intro a _
    simp only [Function.comp, List.getD_cons_succ]
    congr 1
    omega

/-! ## Sign groups as maximal runs -/

theorem copyGroups_flatten (nums : List Nat) :
    ∀ diff : List Int, (copyGroups nums diff).flatten = diff.take nums.sum := by
  induction nums with
  | nil => intro diff; simp [copyGroups]
  | cons n ns ih =>
    intro diff
    simp only [copyGroups, List.flatten_cons, ih, List.sum_cons, List.take_add]

theorem copyGroups_length (nums : List Nat) :
    ∀ diff : List Int, nums.sum ≤ diff.length →
      (copyGroups nums diff).map List.length = nums := by
  induction nums with
  | nil => intro diff _; rfl
  | cons n ns ih =>
    intro diff h
    rw [List.sum_cons] at h
    simp only [copyGroups, List.map_cons, List.length_take]
    rw [ih _ (by simp; omega)]
    congr 1
    omega

/-- Neighbouring groups cut out by the grouping loop hold values of different sign
classes, and the first group holds the values of the class the loop started with. -/
theorem signGroupLoop_chain (ds : List Int) :
    ∀ (s : Bool) (cur : Nat) (pre : List Int), pre.length = cur →
      (∀ a ∈ pre, signClass a = s) →
      (copyGroups (signGroupLoop ds s cur) (pre ++ ds)).Chain'
        (fun g h => ∀ a ∈ g, ∀ b ∈ h, signClass a ≠ signClass b) ∧
      (∀ g ∈ (copyGroups (signGroupLoop ds s cur) (pre ++ ds)).head?,
        ∀ a ∈ g, signClass a = s) := by
  induction ds with
  | nil =>
    intro s cur pre hlen hpre
    simp only [signGroupLoop, copyGroups, List.append_nil, List.chain'_singleton,
      List.head?_cons, Option.mem_def, Option.some.injEq, true_and]
    intro g hg a ha
    rw [← hg] at ha
    exact hpre a (List.mem_of_mem_take ha)
  | cons d ds ih =>
    intro s cur pre hlen hpre
    unfold signGroupLoop
    by_cases hc : signClass d = s
    · rw [if_pos ((signGroupLoop_cond d s).mpr hc)]
      have hsplit : pre ++ d :: ds = (pre ++ [d]) ++ ds := by simp
      rw [hsplit]
      refine ih s (cur + 1) (pre ++ [d]) (by simp [hlen]) ?_
      intro a ha
      rcases List.mem_append.mp ha with h | h
      · exact hpre a h
      · simp only [List.mem_singleton] at h
        rw [h]; exact hc
    · rw [if_neg (fun h => hc ((signGroupLoop_cond d s).mp h))]
      have hd : signClass d = !s := by
        cases hs : signClass d <;> cases s <;> simp_all
      simp only [copyGroups]
      rw [← hlen, List.take_left' rfl, List.drop_left' rfl]
      have hsplit : d :: ds = [d] ++ ds := rfl
      rw [hsplit]
      obtain ⟨ih1, ih2⟩ := ih (!s) 1 [d] rfl (by
        intro a ha
        simp only [List.mem_singleton] at ha
        rw [ha]; exact hd)
      refine ⟨?_, ?_⟩
      · rw [List.chain'_cons']
        refine ⟨?_, ih1⟩
        intro h hh a ha b hb
        rw [hpre a ha, ih2 h hh b hb]
        cases s <;> simp
      · intro g hg a ha
        simp only [List.head?_cons, Option.mem_def, Option.some.injEq] at hg
        rw [← hg] at ha
        exact hpre a ha

theorem groupsDiffNum_chain (diff : List Int) :
    (copyGroups (groupsDiffNum diff) diff).Chain'
      (fun g h => ∀ a ∈ g, ∀ b ∈ h, signClass a ≠ signClass b) := by
  cases diff with
  | nil => simp [groupsDiffNum, copyGroups]
  | cons d ds =>
    unfold groupsDiffNum
    have hsplit : d :: ds = [d] ++ ds := rfl
    rw [hsplit]
    exact (signGroupLoop_chain ds (decide (d ≥ 0)) 1 [d] rfl (by
      intro a ha
      simp only [List.mem_singleton] at ha
      rw [ha]; rfl)).1

theorem groupsDiffNum_pos (diff : List Int) (h : 1 ≤ diff.length) :
    ∀ n ∈ groupsDiffNum diff, 1 ≤ n := by
  cases diff with
  | nil => simp at h
  | cons d ds => exact signGroupLoop_pos ds _ 1 (le_refl _)

/-! ## The permutation applied to one sign group -/

theorem groupOffset_add_le (nums : List Nat) :
    ∀ k : Nat, k < nums.length → groupOffset nums k + nums.getD k 0 ≤ nums.sum := by
  induction nums with
  | nil => intro k h; simp at h
  | cons n ns ih =>
    intro k h
    cases k with
    | zero => simp [groupOffset]
    | succ j =>
      have hj : j < ns.length := by simpa using h
      have := ih j hj
      unfold groupOffset at this ⊢
      simp only [List.take_succ_cons, List.sum_cons, List.getD_cons_succ]
      omega

theorem slice_drop {α : Type} (a : List α) (n s e : Nat) :
    slice (a.drop n) s (s + e) = slice a (n + s) (n + s + e) := by
  unfold slice
  rw [List.drop_drop, Nat.add_sub_cancel_left, Nat.add_sub_cancel_left]

/-- Group `k` of the stage result is the body `F` applied to group `k` of the input, with
the index vector built from the entries of `temp_rp1` at the positions of the group. -/
theorem slice_stageGroups (F : List intPair → List Int → Nat → List Int)
    (hF : ∀ rp g n, (F rp g n).length = g.length) (nums : List Nat) :
    ∀ (k : Nat) (temp_rp1 : List randSequence) (diff : List Int), nums.sum ≤ diff.length →
      k < nums.length →
      slice (stageGroups F nums temp_rp1 diff) (groupOffset nums k)
          (groupOffset nums k + nums.getD k 0) =
        F (sortIntPair (groupPairs (slice temp_rp1 (groupOffset nums k)
            (groupOffset nums k + nums.getD k 0))))
          (slice diff (groupOffset nums k) (groupOffset nums k + nums.getD k 0))
          (nums.getD k 0) := by
  induction nums with
  | nil => intro k _ _ _ h; simp at h
  | cons n ns ih =>
    intro k temp_rp1 diff hd hk
    rw [List.sum_cons] at hd
    have htk : (diff.take n).length = n := by simp; omega
    have hgl : (F (sortIntPair (groupPairs (temp_rp1.take n))) (diff.take n) n).length = n := by
      rw [hF, htk]
    cases k with
    | zero =>
      simp only [groupOffset, List.take_zero, List.sum_nil, List.getD_cons_zero, Nat.zero_add,
        stageGroups]
      unfold slice
      simp only [List.drop_zero, Nat.sub_zero]
      rw [List.take_left' hgl]
    | succ j =>
      have hj : j < ns.length := by simpa using hk
      have hoff : groupOffset (n :: ns) (j + 1) = n + groupOffset ns j := by
        simp [groupOffset]
      rw [hoff, List.getD_cons_succ]
      simp only [stageGroups]
      have h1 : slice (F (sortIntPair (groupPairs (temp_rp1.take n))) (diff.take n) n ++
          stageGroups F ns (temp_rp1.drop n) (diff.drop n)) (n + groupOffset ns j)
          (n + groupOffset ns j + ns.getD j 0) =
          slice (stageGroups F ns (temp_rp1.drop n) (diff.drop n)) (groupOffset ns j)
            (groupOffset ns j + ns.getD j 0) := by
        unfold slice
        rw [Nat.add_sub_cancel_left, Nat.add_sub_cancel_left, ← List.drop_drop,
          List.drop_left' hgl]
      rw [h1, ih j _ _ (by simp; omega) hj, slice_drop, slice_drop]

/-! ## Further facts used by the claims -/

theorem drawLoop_values_length (M : Mpf) (u : ℚ) (count : Nat) :
    ∀ (i : Nat) (x : ℚ), ((drawLoop M u count i x).1.map (fun r => r.value)).length = count := by
  induction count with
  | zero => intro i x; rfl
  | succ k ih => intro i x; simp only [drawLoop, List.map_cons, List.length_cons]; rw [ih]

/-- A generation loop from index `0` builds the descriptors of the values it draws. -/
theorem drawLoop_eq_descriptors (M : Mpf) (u : ℚ) (count : Nat) (x : ℚ) :
    (drawLoop M u count 0 x).1 =
      descriptors ((drawLoop M u count 0 x).1.map (fun r => r.value)) := by
  unfold descriptors
  rw [drawLoop_values_length]
  conv => lhs; rw [drawLoop_descriptors M u count 0 x]
  simp only [Nat.zero_add]

/-- A rearrangement of a list whose values are all equal is that list. -/
theorem perm_eq_of_all_eq {α : Type} (l l' : List α) (hp : l.Perm l')
    (h : ∀ a ∈ l', ∀ b ∈ l', a = b) : l = l' := by
  cases l' with
  | nil => exact hp.eq_nil
  | cons v vs =>
    have h1 : l = List.replicate (vs.length + 1) v := by
      rw [List.eq_replicate_iff]
      refine ⟨by simpa using hp.length_eq, ?_⟩
      intro b hb
      exact h b (hp.subset hb) v (List.mem_cons_self _ _)
    have h2 : v :: vs = List.replicate (vs.length + 1) v := by
      rw [List.eq_replicate_iff]
      refine ⟨by simp, ?_⟩
      intro b hb
      exact h b hb v (List.mem_cons_self _ _)
    rw [h1, h2]

theorem map_range_getD {α β : Type} (f : α → β) (d : α) (l : List α) :
    (List.range l.length).map (fun i => f (l.getD i d)) = l.map f := by
  apply List.ext_getElem (by simp)
  intro i h1 h2
  simp only [List.getElem_map, List.getElem_range]
  rw [List.getD_eq_getElem l d (by simpa using h2)]

theorem slice_getD {α : Type} (a : List α) (s e j : Nat) (d : α) (hj : j < e - s) :
    (slice a s e).getD j d = a.getD (s + j) d := by
  unfold slice
  simp only [List.getD_eq_getElem?_getD, List.getElem?_take, List.getElem?_drop, hj, if_true]

theorem length_sortIntPair (l : List intPair) : (sortIntPair l).length = l.length := by
  unfold sortIntPair
  exact List.length_insertionSort _ _

theorem length_groupPairs (ranks : List randSequence) :
    (groupPairs ranks).length = ranks.length := by
  simp [groupPairs]

theorem sortIntPair_sorted (l : List intPair) :
    (sortIntPair l).Sorted (fun a b => a.value ≤ b.value) := by
  unfold sortIntPair
  have : IsTotal intPair (fun a b => a.value ≤ b.value) :=
    ⟨fun a b => le_total a.value b.value⟩
  have : IsTrans intPair (fun a b => a.value ≤ b.value) :=
    ⟨fun a b c hab hbc => le_trans hab hbc⟩
  exact List.sorted_insertionSort _ _

/-- The sign-group stage on one group: the entries of `rp1[k]` are read in order and
position `i` of the group receives the value at the local index found there. -/
theorem groupSlice_signGroupStage (temp_rp1 : List randSequence) (diff : List Int) (k : Nat)
    (hk : k < (groupsDiffNum diff).length) (hL : 1 < (groupsDiffNum diff).getD k 0)
    (ht : diff.length ≤ temp_rp1.length) :
    groupSlice (signGroupStage temp_rp1 diff) (groupsDiffNum diff) k =
      (codeRunPermutation temp_rp1 (groupsDiffNum diff) k).map
        (fun j => (groupSlice diff (groupsDiffNum diff) k).getD j 0) := by
  have hle := groupOffset_add_le (groupsDiffNum diff) k hk
  rw [groupsDiffNum_sum] at hle
  unfold groupSlice codeRunPermutation groupSlice
  rw [signGroupStage_eq, slice_stageGroups scrambleGroup
    (fun rp g n => length_scrambleGroup rp g n) (groupsDiffNum diff) k temp_rp1 diff
    (by rw [groupsDiffNum_sum]) hk]
  rw [scrambleGroup_eq _ _ _ (by rw [length_slice _ _ _ hle]; omega) (by omega)]
  have hlen : (sortIntPair (groupPairs (slice temp_rp1 (groupOffset (groupsDiffNum diff) k)
      (groupOffset (groupsDiffNum diff) k + (groupsDiffNum diff).getD k 0)))).length =
      (groupsDiffNum diff).getD k 0 := by
    rw [length_sortIntPair, length_groupPairs, length_slice _ _ _ (by omega)]
    omega
  have key : ∀ (rp : List intPair) (g : List Int) (n : Nat), rp.length = n →
      (List.range n).map (fun i => g.getD (rp.getD i ⟨0, 0⟩).number 0) =
        (rp.map (fun p => p.number)).map (fun j => g.getD j 0) := by
    intro rp g n h
    subst h
    rw [List.map_map]
    exact map_range_getD (fun (p : intPair) => g.getD p.number 0) (⟨0, 0⟩ : intPair) rp
  exact key _ _ _ hlen

/-! ## Draws and rank slots of the sign-group stage -/

theorem foldl_count_up (n : Nat) :
    ∀ c0 : Nat, (List.range n).foldl (fun counter _ => counter + 1) c0 = c0 + n := by
  induction n with
  | zero => intro c0; rfl
  | succ k ih =>
    intro c0
    rw [List.range_succ, List.foldl_append, ih]
    rfl

theorem randIndexCounter_foldl (nums : List Nat) :
    ∀ c0 : Nat, nums.foldl (fun rand_index_counter num_in_group =>
      (List.range num_in_group).foldl (fun counter _ => counter + 1) rand_index_counter) c0 =
      c0 + nums.sum := by
  induction nums with
  | nil => intro c0; rfl
  | cons n ns ih =>
    intro c0
    rw [List.foldl_cons, ih, foldl_count_up, List.sum_cons]
    omega

/-- The counter `rand_index_counter` ends at the sum of all group sizes. -/
theorem randIndexCounter_eq (nums : List Nat) : randIndexCounter nums = nums.sum := by
  unfold randIndexCounter
  rw [randIndexCounter_foldl, Nat.zero_add]

/-- A list of sizes adds up to the sizes above one plus the number of sizes equal to
one. -/
theorem sum_filter_gt_one (l : List Nat) :
    (l.filter (fun L => decide (1 < L))).sum + (l.filter (fun L => decide (L = 1))).length =
      l.sum := by
  induction l with
  | nil => rfl
  | cons a as ih =>
    rw [List.sum_cons, ← ih]
    rcases Nat.lt_trichotomy a 1 with h | h | h
    · have h0 : a = 0 := by omega
      subst h0
      simp
    · subst h
      simp
      omega
    · have h1 : ¬ a = 1 := by omega
      simp [h, h1]
      omega

/-- The generator value after a generation loop is the value after `count` steps of the
logistic map. -/
theorem drawLoop_state (M : Mpf) (u : ℚ) (count : Nat) :
    ∀ (i : Nat) (x : ℚ), (drawLoop M u count i x).2 = (logisticNext M u)^[count] x := by
  induction count with
  | zero => intro i x; rfl
  | succ k ih =>
    intro i x
    simp only [drawLoop, Function.iterate_succ, Function.comp_apply]
    exact ih (i + 1) _

/-- A group of one value is left as it is by the sign-group stage. -/
theorem groupSlice_signGroupStage_one (temp_rp1 : List randSequence) (diff : List Int) (k : Nat)
    (hk : k < (groupsDiffNum diff).length) (h1 : (groupsDiffNum diff).getD k 0 = 1) :
    groupSlice (signGroupStage temp_rp1 diff) (groupsDiffNum diff) k =
      groupSlice diff (groupsDiffNum diff) k := by
  unfold groupSlice
  rw [signGroupStage_eq, slice_stageGroups scrambleGroup
    (fun rp g n => length_scrambleGroup rp g n) (groupsDiffNum diff) k temp_rp1 diff
    (by rw [groupsDiffNum_sum]) hk]
  unfold scrambleGroup
  rw [if_pos h1]

/-! ## Sign classes after the sign-group stage -/

theorem signGroupStage_sign (temp_rp1 : List randSequence) (diff : List Int)
    (ht : diff.length ≤ temp_rp1.length) :
    (signGroupStage temp_rp1 diff).map signClass = diff.map signClass := by
  have hsum := groupsDiffNum_sum diff
  rw [signGroupStage_eq, stageGroups_scramble_sign _ _ _ (by omega) (by omega)
    (groupsDiffNum_const diff), hsum, List.take_length]

/-! ## Zero pattern, position by position -/

theorem zeroPattern_getAc (a : List (List Int)) (b z : Nat) :
    ((zeroPattern a).getD b []).getD z true = decide (getAc a b z = 0) := by
  unfold zeroPattern getAc
  have h1 := map_getD (fun blk : List Int => blk.map (fun v => decide (v = 0))) [] a b
  simp only [List.map_nil] at h1
  rw [h1]
  have h2 := map_getD (fun v : Int => decide (v = 0)) 0 (a.getD b []) z
  simp only [decide_True] at h2
  exact h2

/-! ## Windows of the iterative swap -/

theorem getD_append_tail (A X Y B : List Int) (p : Nat)
    (h : A.length + X.length + Y.length ≤ p) :
    (A ++ (X ++ (Y ++ B))).getD p 0 = B.getD (p - (A.length + X.length + Y.length)) 0 := by
  rw [← List.append_assoc, ← List.append_assoc]
  simp only [List.getD_eq_getElem?_getD]
  rw [List.getElem?_append_right (by simp only [List.length_append]; omega)]
  simp only [List.length_append]

theorem getD_append_head (A B C : List Int) (p : Nat) (h : p < A.length) :
    (A ++ B).getD p 0 = (A ++ C).getD p 0 := by
  simp only [List.getD_eq_getElem?_getD]
  rw [List.getElem?_append_left h, List.getElem?_append_left h]

/-- A window step leaves the positions outside the window as they are. -/
theorem swapGroup_getD_outside (c f : Int) (t : Nat) (rp : List randSequence) (diff : List Int)
    (g : Nat) (h : 2 * t * (g + 1) ≤ diff.length) (p : Nat)
    (hp : p < 2 * t * g ∨ 2 * t * (g + 1) ≤ p) :
    (swapGroup c f t rp diff g).getD p 0 = diff.getD p 0 := by
  by_cases hsw : canSwap c f diff t g = true ∧ (rp.getD g ⟨0, 0⟩).number % 2 = 1
  · obtain ⟨hs, hA, hL, hR⟩ := window_split diff t g h
    rw [swapGroup_swapped c f t rp diff g h hsw.1 hsw.2]
    conv => rhs; rw [hs]
    have e1 : 2 * t * (g + 1) = 2 * t * g + t + t := by ring
    rcases hp with hp | hp
    · exact getD_append_head _ _ _ p (by rw [hA]; exact hp)
    · rw [getD_append_tail _ _ _ _ p (by rw [hA, hL, hR]; omega),
        getD_append_tail _ _ _ _ p (by rw [hA, hL, hR]; omega), hA, hL, hR]
  · rw [swapGroup_unswapped c f t rp diff g hsw]

/-- The windows `0, ..., G - 1` of one iteration leave the positions from `2 t G` on as
they are. -/
theorem swapWindows_getD_tail (c f : Int) (t : Nat) (rp : List randSequence) (G : Nat) :
    ∀ diff : List Int, 2 * t * G ≤ diff.length → ∀ p : Nat, 2 * t * G ≤ p →
      ((List.range G).foldl (swapGroup c f t rp) diff).getD p 0 = diff.getD p 0 := by
  induction G with
  | zero => intro diff _ p _; rfl
  | succ k ih =>
    intro diff h p hp
    have hk : 2 * t * k ≤ 2 * t * (k + 1) := Nat.mul_le_mul_left _ (by omega)
    rw [List.range_succ, List.foldl_append]
    simp only [List.foldl_cons, List.foldl_nil]
    rw [swapGroup_getD_outside _ _ _ _ _ _ (by
      rw [length_swapWindows c f t rp k diff (by omega)]; exact h) p (Or.inr hp)]
    exact ih diff (by omega) p (by omega)

theorem window_count_le (n t : Nat) : 2 * t * (n / (t * 2)) ≤ n := by
  have := Nat.div_mul_le_self n (t * 2)
  calc 2 * t * (n / (t * 2)) = n / (t * 2) * (t * 2) := by ring
    _ ≤ n := this

/-- Iteration `t` leaves the positions behind its last window as they are. -/
theorem swapIteration_getD_tail (c f : Int) (rp : List (List randSequence)) (iter_times : Nat)
    (diff : List Int) (t : Nat) (h1 : 1 ≤ t) (h2 : t ≤ iter_times) (p : Nat)
    (hp : 2 * t * (diff.length / (t * 2)) ≤ p) :
    (swapIteration c f rp (itersGroupNum iter_times diff.length) diff t).getD p 0 =
      diff.getD p 0 := by
  unfold swapIteration
  rw [itersGroupNum_getD _ _ _ h1 h2]
  exact swapWindows_getD_tail c f t _ _ diff (window_count_le _ _) p hp

/-- The vector `rp2[t - 1]` has one entry per window of iteration `t`. -/
theorem length_drawMany_getD (M : Mpf) (u : ℚ) (counts : List Nat) (x : ℚ) (r : Nat) :
    ((drawMany M u counts x).1.getD r []).length = counts.getD r 0 := by
  have := (drawMany_perm M u counts x r).length_eq
  simpa using this

/-! ## Key digits as population counts -/

theorem slice_succ {α : Type} (a : List α) (s n : Nat) (d : α) (h : s + n < a.length) :
    slice a s (s + (n + 1)) = slice a s (s + n) ++ [a.getD (s + n) d] := by
  unfold slice
  have e1 : s + (n + 1) - s = n + 1 := by omega
  have e2 : s + n - s = n := by omega
  rw [e1, e2, List.take_succ]
  congr 1
  rw [List.getElem?_drop, List.getD_eq_getElem _ _ h, List.getElem?_eq_getElem h]
  rfl

/-- The counting loop of `initializeKey` yields the population count of the bits it
reads. -/
theorem countOnes_eq_popCount (hashBool : List Bool) (start : Nat) :
    ∀ len : Nat, start + len ≤ hashBool.length →
      countOnes hashBool start len = popCount (slice hashBool start (start + len)) := by
  intro len
  induction len with
  | zero =>
    intro _
    simp [countOnes, popCount, slice]
  | succ k ih =>
    intro h
    have hk := ih (by omega)
    unfold countOnes at hk ⊢
    rw [List.range_succ, List.foldl_append, hk, slice_succ hashBool start k false (by omega)]
    unfold popCount
    rw [List.count_append]
    simp only [List.foldl_cons, List.foldl_nil]
    cases hb : hashBool.getD (start + k) false <;> simp

/-- The value of a decimal numeral, digit by digit. -/
theorem decimalValue_expand (int_part : Nat) (ds : List Nat) :
    decimalValue int_part ds =
      (int_part : ℚ) +
        ((List.range ds.length).map (fun i => (ds.getD i 0 : ℚ) / (10 : ℚ) ^ (i + 1))).sum := by
  unfold decimalValue
  congr 1
  induction ds using List.reverseRecOn with
  | nil => simp
  | append_singleton ds d ih =>
    rw [List.foldl_append, List.length_append, List.length_singleton, List.range_succ,
      List.map_append, List.sum_append]
    simp only [List.foldl_cons, List.foldl_nil, List.map_cons, List.map_nil, List.sum_cons,
      List.sum_nil, add_zero]
    have hmap : (List.range ds.length).map
        (fun i => (((ds ++ [d]).getD i 0 : Nat) : ℚ) / (10 : ℚ) ^ (i + 1)) =
        (List.range ds.length).map (fun i => ((ds.getD i 0 : Nat) : ℚ) / (10 : ℚ) ^ (i + 1)) := by
      apply List.map_congr_left
      intro i hi
      have hi' : i < ds.length := List.mem_range.mp hi
      simp only [List.getD_eq_getElem?_getD]
      rw [List.getElem?_append_left hi']
    have hlast : (ds ++ [d]).getD ds.length 0 = d := by
      simp [List.getD_eq_getElem?_getD]
    rw [hmap, hlast, ← ih]
    push_cast
    field_simp
    ring

/-! ## The scan table and the feature histogram on coefficient blocks -/

/-- The scan table holds every index `1, ..., 63` once. -/
theorem zigzag_perm : zigzag.Perm (List.range' 1 63) := by
  have h : zigzag.insertionSort (fun a b => a ≤ b) = List.range' 1 63 := by decide
  rw [← h]
  exact (List.perm_insertionSort _ _).symm

theorem extractAc_eq (block_ptr : List Int) :
    extractAc block_ptr = zigzag.map (fun k => block_ptr.getD k 0) := by
  unfold extractAc
  have hl : zigzag.length = 63 := by decide
  rw [← hl]
  exact map_range_getD (fun k => block_ptr.getD k 0) 0 zigzag

theorem blockAcCount_eq (coef : List Int) : blockAcCount coef = nonZeroAmongAc coef := by
  unfold blockAcCount nonZeroAmongAc
  have h := nonZeroAcCount_foldl ((List.range' 1 63).map (fun k => coef.getD k 0)) 0
  rw [List.foldl_map, Nat.zero_add, List.countP_map, List.countP_eq_length_filter] at h
  exact h

/-- The count of `getImageFeature` is the number of nonzero values among the AC values
that `encrypt` works on. -/
theorem nonZeroAcCount_extractAc (coef : List Int) :
    nonZeroAcCount (extractAc coef) = blockAcCount coef := by
  rw [blockAcCount_eq, nonZeroAcCount_eq, extractAc_eq, List.countP_map]
  unfold nonZeroAmongAc
  rw [← List.countP_eq_length_filter]
  exact zigzag_perm.countP_eq _

theorem nonZeroAmongAc_le (coef : List Int) : nonZeroAmongAc coef ≤ 63 := by
  unfold nonZeroAmongAc
  have := List.length_filter_le (fun k => decide (coef.getD k 0 ≠ 0)) (List.range' 1 63)
  simpa using this

/-- The histogram of `getImageFeature` is the histogram of the AC lists. -/
theorem imageFeatureVec_eq (blocks : List (List Int)) :
    imageFeatureVec blocks = featureHistogram (blocks.map extractAc) := by
  unfold imageFeatureVec featureHistogram
  rw [List.foldl_map]
  simp only [nonZeroAcCount_extractAc]

theorem imageFeatureVec_getD (blocks : List (List Int)) (k : Nat) :
    (imageFeatureVec blocks).getD k 0 =
      blocks.countP (fun coef => decide (nonZeroAmongAc coef = k)) := by
  rw [imageFeatureVec_eq, featureHistogram_getD, List.map_map]
  have hf : (blocks.map (nonZeroAcCount ∘ extractAc)).filter (fun k => decide (k < 64)) =
      blocks.map nonZeroAmongAc := by
    rw [List.filter_eq_self.mpr]
    · apply List.map_congr_left
      intro b _
      simp only [Function.comp_apply]
      rw [nonZeroAcCount_extractAc, blockAcCount_eq]
    · intro a ha
      obtain ⟨b, _, rfl⟩ := List.mem_map.mp ha
      have := nonZeroAmongAc_le b
      simp only [Function.comp_apply, decide_eq_true_eq, nonZeroAcCount_extractAc,
        blockAcCount_eq]
      omega
  rw [hf, List.count, List.countP_map]
  apply List.countP_congr
  intro b _
  simp only [Function.comp_apply, beq_iff_eq, decide_eq_true_eq]

theorem imageFeatureVec_sum (blocks : List (List Int)) :
    (imageFeatureVec blocks).sum = blocks.length := by
  rw [imageFeatureVec_eq]
  unfold featureHistogram
  rw [histFold_eq, sum_foldl_bumpCount _ _ (by
    intro e he
    rw [List.length_replicate]
    simpa using (List.mem_filter.mp he).2)]
  rw [List.filter_eq_self.mpr]
  · simp
  · intro a ha
    obtain ⟨b, _, rfl⟩ := List.mem_map.mp ha
    obtain ⟨coef, _, rfl⟩ := List.mem_map.mp ‹b ∈ blocks.map extractAc›
    have := nonZeroAmongAc_le coef
    simp only [decide_eq_true_eq, nonZeroAcCount_extractAc, blockAcCount_eq]
    omega

theorem nonZeroAmongAc_set_zero (coef : List Int) (v : Int) :
    nonZeroAmongAc (coef.set 0 v) = nonZeroAmongAc coef := by
  unfold nonZeroAmongAc
  congr 1
  apply List.filter_congr
  intro k hk
  have hk1 : 1 ≤ k := (List.mem_range'_1.mp hk).1
  rw [getD_set_other coef 0 k v 0 (by omega)]

/-! ## Run-length classes as the specification describes them -/

theorem zeroRunBefore_append (pre vs : List Int) :
    zeroRunBefore (pre ++ vs) pre.length =
      (pre.reverse.takeWhile (fun v => decide (v = 0))).length := by
  unfold zeroRunBefore
  rw [List.take_left]

theorem zeroRunBefore_step (pre vs : List Int) (v : Int) :
    zeroRunBefore (pre ++ v :: vs) (pre.length + 1) =
      if v ≠ 0 then 0 else zeroRunBefore (pre ++ v :: vs) pre.length + 1 := by
  have e : pre ++ v :: vs = (pre ++ [v]) ++ vs := by simp
  have hl : (pre ++ [v]).length = pre.length + 1 := by simp
  rw [zeroRunBefore_append pre (v :: vs)]
  conv => lhs; rw [e, ← hl, zeroRunBefore_append (pre ++ [v]) vs]
  rw [List.reverse_append, List.reverse_singleton, List.singleton_append, List.takeWhile_cons]
  by_cases hv : v = 0
  · simp [hv]
  · simp [hv]

theorem getD_append_length (pre vs : List Int) (v : Int) :
    (pre ++ v :: vs).getD pre.length 0 = v := by
  rw [List.getD_eq_getElem?_getD, List.getElem?_append_right (le_refl _), Nat.sub_self]
  simp

/-- The records of the scan of a block from position `z` on, when the scan arrives there
with the run counter at the number of zeros that precede `z`. -/
theorem blockEvents_closed (c b : Nat) (vs : List Int) :
    ∀ (pre : List Int) (z run : Nat), z = pre.length → run = zeroRunBefore (pre ++ vs) z →
      blockEvents c b vs z run =
        ((List.range' z vs.length).filter (fun k =>
          decide ((pre ++ vs).getD k 0 ≠ 0) && decide (zeroRunBefore (pre ++ vs) k < c))).map
          (fun k => (zeroRunBefore (pre ++ vs) k,
            (⟨b, k, (pre ++ vs).getD k 0⟩ : nonZeroAcInfo))) := by
  induction vs with
  | nil => intro pre z run _ _; rfl
  | cons v vs ih =>
    intro pre z run hz hrun
    subst hz
    have e : pre ++ v :: vs = (pre ++ [v]) ++ vs := by simp
    have hl : (pre ++ [v]).length = pre.length + 1 := by simp
    have hstep := zeroRunBefore_step pre vs v
    have hget := getD_append_length pre vs v
    have hrec : ∀ run', run' = zeroRunBefore (pre ++ v :: vs) (pre.length + 1) →
        blockEvents c b vs (pre.length + 1) run' =
          ((List.range' (pre.length + 1) vs.length).filter (fun k =>
            decide ((pre ++ v :: vs).getD k 0 ≠ 0) &&
              decide (zeroRunBefore (pre ++ v :: vs) k < c))).map
            (fun k => (zeroRunBefore (pre ++ v :: vs) k,
              (⟨b, k, (pre ++ v :: vs).getD k 0⟩ : nonZeroAcInfo))) := by
      intro run' hr
      have := ih (pre ++ [v]) (pre.length + 1) run' hl.symm (by rw [← e]; exact hr)
      rw [← e] at this
      exact this
    simp only [List.length_cons, List.range'_succ, List.filter_cons, hget, ← hrun]
    unfold blockEvents
    by_cases hv : v ≠ 0
    · have hd : decide (v ≠ 0) = true := decide_eq_true hv
      rw [if_pos hv, hrec 0 (by rw [hstep, if_pos hv]), hd]
      by_cases hr : run < c
      · have hd2 : decide (run < c) = true := decide_eq_true hr
        rw [if_pos hr, hd2]
        simp only [Bool.and_self, if_true, List.map_cons, hget, ← hrun, List.singleton_append]
      · have hd2 : decide (run < c) = false := decide_eq_false hr
        rw [if_neg hr, hd2]
        simp only [Bool.and_false, Bool.false_eq_true, if_false, List.nil_append]
    · have hd : decide (v ≠ 0) = false := decide_eq_false hv
      rw [if_neg hv, hrec (run + 1) (by rw [hstep, if_neg hv, ← hrun]), hd]
      simp only [Bool.false_and, Bool.false_eq_true, if_false]

/-- The records of one block that fall into class `r`. -/
theorem blockEvents_class (c b r : Nat) (hr : r < c) (blk : List Int) :
    ((blockEvents c b blk 0 0).filter (fun e => decide (e.1 = r))).map (fun e => e.2) =
      ((List.range blk.length).filter (fun z =>
        decide (blk.getD z 0 ≠ 0) && decide (zeroRunBefore blk z = r))).map
        (fun z => (⟨b, z, blk.getD z 0⟩ : nonZeroAcInfo)) := by
  have h := blockEvents_closed c b blk [] 0 0 rfl (by simp [zeroRunBefore])
  simp only [List.nil_append] at h
  rw [h, List.filter_map, List.map_map, List.filter_filter, List.range_eq_range']
  congr 1
  apply List.filter_congr
  intro z _
  simp only [Function.comp_apply]
  by_cases hz : zeroRunBefore blk z = r
  · simp [hz, hr]
  · simp [hz]

theorem allEvents_closed (c : Nat) (ac : List (List Int)) :
    ∀ b0 : Nat, allEvents c ac b0 =
      (List.range ac.length).flatMap (fun i => blockEvents c (b0 + i) (ac.getD i []) 0 0) := by
  induction ac with
  | nil => intro b0; rfl
  | cons blk rest ih =>
    intro b0
    unfold allEvents
    rw [ih (b0 + 1), List.length_cons, List.range_succ_eq_map, List.flatMap_cons,
      List.flatMap_map]
    simp only [List.getD_cons_zero, Nat.add_zero]
    congr 1
    apply List.flatMap_congr
    intro i _
    simp only [Function.comp_apply, Nat.succ_eq_add_one, List.getD_cons_succ]
    congr 1
    omega

/-- Class `r` holds, in block-then-zigzag order, the nonzero coefficients preceded by
exactly `r` zeros. -/
theorem recordRuns_specClass (c : Nat) (ac : List (List Int)) (r : Nat) (hr : r < c) :
    (recordRuns c ac).getD r [] = specClass ac r := by
  rw [recordRuns_getD, allEvents_closed]
  unfold specClass
  rw [List.filter_flatMap, List.map_flatMap]
  apply List.flatMap_congr
  intro b _
  rw [Nat.zero_add]
  exact blockEvents_class c b r hr (ac.getD b [])

/-- A member of class `r` as the specification describes it: a position of the array
that holds the recorded nonzero value and is preceded by exactly `r` zeros. -/
theorem specClass_mem (ac : List (List Int)) (r : Nat) (e : nonZeroAcInfo) :
    e ∈ specClass ac r ↔
      e.blockPosition < ac.length ∧
      e.zigzagPosition < (ac.getD e.blockPosition []).length ∧
      e.value = getAc ac e.blockPosition e.zigzagPosition ∧ e.value ≠ 0 ∧
      zeroRunBefore (ac.getD e.blockPosition []) e.zigzagPosition = r := by
  unfold specClass
  simp only [List.mem_flatMap, List.mem_map, List.mem_filter, List.mem_range,
    Bool.and_eq_true, decide_eq_true_eq]
  constructor
  · rintro ⟨b, hb, z, ⟨hz, hv, hrun⟩, rfl⟩
    exact ⟨hb, hz, rfl, hv, hrun⟩
  · rintro ⟨hb, hz, hval, hv, hrun⟩
    refine ⟨e.blockPosition, hb, e.zigzagPosition, ⟨hz, by rw [← hval]; exact hv, hrun⟩, ?_⟩
    rw [← hval]

/-- The run counter is back at zero behind a nonzero coefficient. -/
theorem zeroRunBefore_after_nonzero (blk : List Int) (z : Nat) (hz : z < blk.length)
    (hv : blk.getD z 0 ≠ 0) : zeroRunBefore blk (z + 1) = 0 := by
  unfold zeroRunBefore
  rw [List.take_succ, List.getElem?_eq_getElem hz]
  rw [List.getD_eq_getElem _ _ hz] at hv
  have hd : decide (blk[z] = 0) = false := decide_eq_false hv
  simp only [Option.toList, List.reverse_append, List.reverse_cons, List.reverse_nil,
    List.nil_append, List.singleton_append, List.takeWhile_cons, hd, List.length_nil,
    Bool.false_eq_true, if_false]

/-- A class beyond `ceiling_run` does not exist. -/
theorem recordRuns_getD_ge (c : Nat) (ac : List (List Int)) (r : Nat) (hr : c ≤ r) :
    (recordRuns c ac).getD r [] = [] := by
  rw [List.getD_eq_getElem?_getD, List.getElem?_eq_none (by rw [length_recordRuns]; exact hr)]
  rfl

/-- A nonzero coefficient whose preceding run is not below `ceiling_run` is a member of no
class. -/
theorem unrecorded_not_member (c : Nat) (ac : List (List Int)) (b z : Nat)
    (hrun : c ≤ zeroRunBefore (ac.getD b []) z) (r : Nat) :
    ∀ e ∈ (recordRuns c ac).getD r [], infoPos e ≠ (b, z) := by
  intro e he hpos
  by_cases hr : r < c
  · rw [recordRuns_specClass c ac r hr] at he
    obtain ⟨_, _, _, _, h5⟩ := (specClass_mem ac r e).mp he
    have hb : e.blockPosition = b := congrArg Prod.fst hpos
    have hzz : e.zigzagPosition = z := congrArg Prod.snd hpos
    rw [hb, hzz] at h5
    omega
  · rw [recordRuns_getD_ge c ac r (by omega)] at he
    simp at he

theorem keyDigits_getD (hashBool : List Bool) (offset i : Nat) (hi : i < 28) :
    (keyDigits hashBool offset).getD i 0 = countOnes hashBool (offset + 9 * i) 9 := by
  unfold keyDigits
  have h28 : 256 / 9 = 28 := by decide
  rw [h28, List.getD_eq_getElem?_getD, List.getElem?_append_left (by simpa using hi)]
  simp [hi]

theorem keyDigits_getD_last (hashBool : List Bool) (offset : Nat) :
    (keyDigits hashBool offset).getD 28 0 = countOnes hashBool (offset + 252) 4 := by
  unfold keyDigits
  have h28 : 256 / 9 = 28 := by decide
  have h4 : 256 % 9 = 4 := by decide
  rw [h28, h4, List.getD_eq_getElem?_getD, List.getElem?_append_right (by simp)]
  simp

/-- The digits of one 256-bit field of a 512-bit vector. -/
theorem keyDigits_field (hashBool : List Bool) (h512 : hashBool.length = 512) (offset : Nat)
    (ho : offset = 0 ∨ offset = 256) :
    (keyDigits hashBool offset).length = 29 ∧
    (∀ i : Nat, i < 28 →
      (keyDigits hashBool offset).getD i 0 =
        popCount (slice hashBool (offset + 9 * i) (offset + 9 * i + 9)) ∧
      (keyDigits hashBool offset).getD i 0 ≤ 9) ∧
    (keyDigits hashBool offset).getD 28 0 =
      popCount (slice hashBool (offset + 252) (offset + 252 + 4)) ∧
    (keyDigits hashBool offset).getD 28 0 ≤ 4 := by
  refine ⟨length_keyDigits hashBool offset, ?_, ?_, ?_⟩
  · intro i hi
    rw [keyDigits_getD hashBool offset i hi]
    exact ⟨countOnes_eq_popCount hashBool _ 9 (by rcases ho with h | h <;> omega),
      countOnes_le _ _ 9⟩
  · rw [keyDigits_getD_last]
    exact countOnes_eq_popCount hashBool _ 4 (by rcases ho with h | h <;> omega)
  · rw [keyDigits_getD_last]
    exact countOnes_le _ _ 4

/-! ## Extraction and write-back -/

theorem toJcoef_restore (dc prev_dc : Int) (h1 : -32768 ≤ dc) (h2 : dc ≤ 32767) :
    toJcoef (toJcoef (dc - prev_dc) + prev_dc) = dc := by
  unfold toJcoef
  omega

theorem set_getD_self {α : Type} (l : List α) (k : Nat) (d : α) : l.set k (l.getD k d) = l := by
  apply List.ext_getElem? 
  intro i
  rw [List.getElem?_set]
  by_cases hki : k = i
  · subst hki
    by_cases h : k < l.length
    · rw [if_pos rfl, if_pos h, List.getD_eq_getElem _ _ h, List.getElem?_eq_getElem h]
    · rw [if_pos rfl, if_neg h, List.getElem?_eq_none (by omega)]
  · rw [if_neg hki]

theorem foldl_fixed {α β : Type} (f : α → β → α) (b : α) (l : List β)
    (h : ∀ i ∈ l, f b i = b) : l.foldl f b = b := by
  induction l with
  | nil => rfl
  | cons i is ih =>
    rw [List.foldl_cons, h i (List.mem_cons_self _ _)]
    exact ih (fun j hj => h j (List.mem_cons_of_mem _ hj))

/-- Writing the extracted AC values of a block back through the scan table leaves the
block as it is. -/
theorem writeAc_extractAc (block_ptr : List Int) :
    writeAc block_ptr (extractAc block_ptr) = block_ptr := by
  unfold writeAc
  apply foldl_fixed
  intro i hi
  have hi' : i < 63 := List.mem_range.mp hi
  have hv : (extractAc block_ptr).getD i 0 = block_ptr.getD (zigzag.getD i 0) 0 := by
    unfold extractAc
    rw [List.getD_eq_getElem _ _ (by simpa using hi')]
    simp
  rw [hv]
  exact set_getD_self _ _ _

theorem setBlock_getBlock (block_array : List (List (List Int))) (h w : Nat) :
    setBlock block_array h w (getBlock block_array h w) = block_array := by
  unfold setBlock getBlock
  rw [set_getD_self, set_getD_self]

theorem getD_append_length_add {α : Type} (pre l : List α) (d : α) :
    (pre ++ l).getD pre.length d = l.getD 0 d := by
  simp only [List.getD_eq_getElem?_getD]
  rw [List.getElem?_append_right (le_refl _), Nat.sub_self]

/-- The write-back loop, run on what the extraction loop produced, restores the array. -/
theorem writeBackLoop_extractLoop (block_array : List (List (List Int))) :
    ∀ (order : List (Nat × Nat)) (pre_d : List Int) (pre_a : List (List Int)) (prev_dc : Int),
      pre_d.length = pre_a.length →
      (∀ p ∈ order, -32768 ≤ (getBlock block_array p.1 p.2).getD 0 0 ∧
        (getBlock block_array p.1 p.2).getD 0 0 ≤ 32767) →
      writeBackLoop (pre_d ++ (extractLoop block_array order prev_dc).1)
        (pre_a ++ (extractLoop block_array order prev_dc).2) order pre_d.length prev_dc
        block_array = block_array := by
  intro order
  induction order with
  | nil => intro _ _ _ _ _; rfl
  | cons p rest ih =>
    intro pre_d pre_a prev_dc hlen hr
    obtain ⟨h, w⟩ := p
    have hdc := hr (h, w) (List.mem_cons_self _ _)
    simp only at hdc
    simp only [extractLoop, writeBackLoop]
    rw [getD_append_length_add, List.getD_cons_zero, hlen, getD_append_length_add,
      List.getD_cons_zero, toJcoef_restore _ _ hdc.1 hdc.2, set_getD_self, writeAc_extractAc,
      setBlock_getBlock]
    have e1 : pre_d ++ toJcoef ((getBlock block_array h w).getD 0 0 - prev_dc) ::
        (extractLoop block_array rest ((getBlock block_array h w).getD 0 0)).1 =
        (pre_d ++ [toJcoef ((getBlock block_array h w).getD 0 0 - prev_dc)]) ++
          (extractLoop block_array rest ((getBlock block_array h w).getD 0 0)).1 := by simp
    have e2 : pre_a ++ extractAc (getBlock block_array h w) ::
        (extractLoop block_array rest ((getBlock block_array h w).getD 0 0)).2 =
        (pre_a ++ [extractAc (getBlock block_array h w)]) ++
          (extractLoop block_array rest ((getBlock block_array h w).getD 0 0)).2 := by simp
    have e3 : pre_a.length + 1 = (pre_d ++ [toJcoef ((getBlock block_array h w).getD 0 0 -
        prev_dc)]).length := by simp [hlen]
    rw [e1, e2, e3]
    exact ih _ _ _ (by simp [hlen]) (fun q hq => hr q (List.mem_cons_of_mem _ hq))

theorem length_extractLoop (block_array : List (List (List Int))) :
    ∀ (order : List (Nat × Nat)) (prev_dc : Int),
      (extractLoop block_array order prev_dc).1.length = order.length ∧
      (extractLoop block_array order prev_dc).2.length = order.length := by
  intro order
  induction order with
  | nil => intro _; exact ⟨rfl, rfl⟩
  | cons p rest ih =>
    intro prev_dc
    obtain ⟨h, w⟩ := p
    simp only [extractLoop, List.length_cons]
    exact ⟨by rw [(ih _).1], by rw [(ih _).2]⟩

/-! ## Block traversals -/

theorem evenDim_even (n : Nat) : evenDim n % 2 = 0 ∧ evenDim n ≤ n := by
  unfold evenDim
  split <;> omega

theorem mem_rasterOrder (H W h w : Nat) : (h, w) ∈ rasterOrder H W ↔ h < H ∧ w < W := by
  unfold rasterOrder
  simp only [List.mem_flatMap, List.mem_map, List.mem_range, Prod.mk.injEq]
  constructor
  · rintro ⟨a, ha, b, hb, rfl, rfl⟩
    exact ⟨ha, hb⟩
  · rintro ⟨hh, hw⟩
    exact ⟨h, hh, w, hw, rfl, rfl⟩

theorem sum_map_const {α : Type} (l : List α) (f : α → Nat) (c : Nat)
    (h : ∀ a ∈ l, f a = c) : (l.map f).sum = l.length * c := by
  induction l with
  | nil => simp
  | cons a as ih =>
    rw [List.map_cons, List.sum_cons, h a (List.mem_cons_self _ _),
      ih (fun b hb => h b (List.mem_cons_of_mem _ hb)), List.length_cons]
    ring

theorem length_rasterOrder (H W : Nat) : (rasterOrder H W).length = H * W := by
  unfold rasterOrder
  rw [List.length_flatMap, sum_map_const _ _ W (by intro a _; simp), List.length_range]

theorem nodup_rasterOrder (H W : Nat) : (rasterOrder H W).Nodup := by
  unfold rasterOrder
  rw [List.nodup_flatMap]
  constructor
  · intro h _
    exact (List.nodup_range W).map (fun a b hab => (Prod.mk.inj hab).2)
  · apply (List.nodup_range H).pairwise_of_forall_ne
    intro a _ b _ hab
    simp only [Function.onFun, List.disjoint_left, List.mem_map, List.mem_range]
    rintro p ⟨w, _, rfl⟩ ⟨w', _, hp⟩
    exact hab (Prod.mk.inj hp).1.symm

theorem mem_lumaOrder (H W h w : Nat) (hH : H % 2 = 0) (hW : W % 2 = 0) :
    (h, w) ∈ lumaOrder H W ↔ h < H ∧ w < W := by
  unfold lumaOrder
  simp only [List.mem_flatMap, List.mem_range, List.mem_cons, Prod.mk.injEq,
    List.mem_singleton, List.not_mem_nil, or_false]
  constructor
  · rintro ⟨i, hi, j, hj, h1 | h1 | h1 | h1⟩ <;> omega
  · rintro ⟨hh, hw⟩
    refine ⟨h / 2, by omega, w / 2, by omega, ?_⟩
    omega

theorem length_lumaOrder (H W : Nat) (hH : H % 2 = 0) (hW : W % 2 = 0) :
    (lumaOrder H W).length = H * W := by
  unfold lumaOrder
  rw [List.length_flatMap, sum_map_const _ _ (((W + 1) / 2) * 4) (by
    intro a _
    simp only [Function.comp_apply]
    rw [List.length_flatMap, sum_map_const _ _ 4 (by intro b _; rfl), List.length_range]),
    List.length_range]
  have h1 : (H + 1) / 2 * 2 = H := by omega
  have h2 : (W + 1) / 2 * 2 = W := by omega
  calc (H + 1) / 2 * ((W + 1) / 2 * 4)
      = ((H + 1) / 2 * 2) * ((W + 1) / 2 * 2) := by ring
    _ = H * W := by rw [h1, h2]

theorem nodup_lumaOrder (H W : Nat) : (lumaOrder H W).Nodup := by
  unfold lumaOrder
  rw [List.nodup_flatMap]
  constructor
  · intro i _
    rw [List.nodup_flatMap]
    constructor
    · intro j _
      simp
    · apply (List.nodup_range _).pairwise_of_forall_ne
      intro a _ b _ hab
      simp only [Function.onFun, List.disjoint_left, List.mem_cons, Prod.mk.injEq,
        List.mem_singleton, List.not_mem_nil, or_false]
      intro p hp hq
      rcases hp with h1 | h1 | h1 | h1 <;> rcases hq with h2 | h2 | h2 | h2 <;>
        (rw [h1] at h2; simp only [Prod.mk.injEq] at h2; omega)
  · apply (List.nodup_range _).pairwise_of_forall_ne
    intro a _ b _ hab
    simp only [Function.onFun, List.disjoint_left, List.mem_flatMap, List.mem_range,
      List.mem_cons, Prod.mk.injEq, List.mem_singleton, List.not_mem_nil, or_false]
    rintro p ⟨j, _, hp⟩ ⟨j', _, hq⟩
    rcases hp with h1 | h1 | h1 | h1 <;> rcases hq with h2 | h2 | h2 | h2 <;>
      (rw [h1] at h2; simp only [Prod.mk.injEq] at h2; omega)

/-- A list without repetition that holds exactly the positions of the grid gives every
position one index. -/
theorem index_unique (order : List (Nat × Nat)) (hn : order.Nodup) (p : Nat × Nat)
    (hp : p ∈ order) :
    ∃ i : Nat, i < order.length ∧ order.getD i (0, 0) = p ∧
      ∀ j : Nat, j < order.length → order.getD j (0, 0) = p → j = i := by
  obtain ⟨i, hi, hget⟩ := List.getElem_of_mem hp
  refine ⟨i, hi, by rw [List.getD_eq_getElem _ _ hi]; exact hget, ?_⟩
  intro j hj hjp
  rw [List.getD_eq_getElem _ _ hj, ← hget] at hjp
  exact (List.Nodup.getElem_inj_iff hn).mp hjp

/-! ## Swap decisions, sums and the keystream -/

theorem countP_odd_range (G : Nat) :
    (List.range G).countP (fun k => decide (k % 2 = 1)) = G / 2 := by
  induction G with
  | zero => rfl
  | succ k ih =>
    rw [List.range_succ, List.countP_append, ih]
    simp only [List.countP_cons, List.countP_nil, Nat.zero_add]
    by_cases hk : k % 2 = 1
    · simp only [hk, decide_True, if_true]
      omega
    · simp only [hk, decide_False, Bool.false_eq_true, if_false]
      omega

theorem countP_number_odd (l : List randSequence) (G : Nat)
    (h : (l.map (fun r => r.number)).Perm (List.range G)) :
    l.countP (fun r => decide (r.number % 2 = 1)) = G / 2 := by
  have := h.countP_eq (fun k => decide (k % 2 = 1))
  rw [List.countP_map, countP_odd_range] at this
  exact this

/-- The only window of an iteration with one window has the decision 0. -/
theorem single_window_number (l : List randSequence)
    (h : (l.map (fun r => r.number)).Perm (List.range 1)) :
    (l.getD 0 ⟨0, 0⟩).number = 0 := by
  rw [number_getD]
  have h' : (l.map (fun r => r.number)).Perm [0] := h
  have h1 : l.map (fun r => r.number) = [0] := List.perm_singleton.mp h'
  rw [h1]
  rfl

theorem runningSums_getLast (l : List Int) :
    ∀ s0 : Int, l ≠ [] → (runningSums l s0).getLast? = some (s0 + l.sum) := by
  induction l with
  | nil => intro s0 h; exact absurd rfl h
  | cons d ds ih =>
    intro s0 _
    cases ds with
    | nil => simp [runningSums, add_comm]
    | cons e es =>
      have h := ih (d + s0) (by simp)
      have e1 : runningSums (d :: e :: es) s0 =
          (d + s0) :: (e + (d + s0)) :: runningSums es (e + (d + s0)) := rfl
      have e2 : runningSums (e :: es) (d + s0) =
          (e + (d + s0)) :: runningSums es (e + (d + s0)) := rfl
      rw [e1, List.getLast?_cons_cons, ← e2, h]
      simp only [List.sum_cons]
      congr 1
      ring

theorem logistic_step (u x : ℚ) (hu0 : 0 < u) (hu4 : u < 4) (hx0 : 0 < x) (hx1 : x < 1) :
    0 < logisticNext exactMpf u x ∧ logisticNext exactMpf u x ≤ u / 4 ∧
      logisticNext exactMpf u x < 1 := by
  have e : logisticNext exactMpf u x = u * x * (1 - x) := rfl
  rw [e]
  have h1 : 0 < x * (1 - x) := mul_pos hx0 (by linarith)
  have h2 : x * (1 - x) ≤ 1 / 4 := by nlinarith [sq_nonneg (x - 1 / 2)]
  have h3 : u * x * (1 - x) = u * (x * (1 - x)) := by ring
  rw [h3]
  refine ⟨mul_pos hu0 h1, ?_, ?_⟩
  · nlinarith
  · nlinarith

theorem logistic_iterate (u x : ℚ) (hu0 : 0 < u) (hu4 : u < 4) (hx0 : 0 < x) (hx1 : x < 1) :
    ∀ n : Nat, 1 ≤ n → 0 < (logisticNext exactMpf u)^[n] x ∧
      (logisticNext exactMpf u)^[n] x ≤ u / 4 ∧ (logisticNext exactMpf u)^[n] x < 1 := by
  intro n
  induction n with
  | zero => intro h; omega
  | succ k ih =>
    intro _
    rw [Function.iterate_succ_apply']
    by_cases hk : k = 0
    · subst hk
      exact logistic_step u x hu0 hu4 hx0 hx1
    · obtain ⟨h1, _, h3⟩ := ih (by omega)
      exact logistic_step u _ hu0 hu4 h1 h3

theorem drawLoop_unit (u : ℚ) (hu0 : 0 < u) (hu4 : u < 4) (count : Nat) :
    ∀ (i : Nat) (x : ℚ), 0 < x → x < 1 → ∀ r ∈ (drawLoop exactMpf u count i x).1,
      0 < r.value ∧ r.value ≤ u / 4 ∧ r.value < 1 := by
  induction count with
  | zero => intro i x _ _ r hr; simp [drawLoop] at hr
  | succ k ih =>
    intro i x hx0 hx1 r hr
    have hs := logistic_step u x hu0 hu4 hx0 hx1
    simp only [drawLoop, List.mem_cons] at hr
    rcases hr with h | h
    · rw [h]; exact hs
    · exact ih (i + 1) _ hs.1 hs.2.2 r h

/-! ## Ranks inside a sign group -/

theorem groupPairs_value (ranks : List randSequence) :
    (groupPairs ranks).map (fun p => p.value) = ranks.map (fun r => r.number) := by
  unfold groupPairs
  rw [List.map_map]
  exact map_range_getD (fun r : randSequence => r.number) ⟨0, 0⟩ ranks

theorem slice_sublist {α : Type} (a : List α) (s e : Nat) : (slice a s e).Sublist a :=
  (List.take_sublist _ _).trans (List.drop_sublist _ _)

/-- The entry `rp1[k]` is built from the entries of the global sequence at the positions
of group `k`. -/
theorem assignRanks_getD (nums : List Nat) :
    ∀ (k : Nat) (temp_rp1 : List randSequence), k < nums.length →
      (assignRanks nums temp_rp1).getD k [] =
        sortIntPair (groupPairs (groupSlice temp_rp1 nums k)) := by
  induction nums with
  | nil => intro k _ h; simp at h
  | cons n ns ih =>
    intro k temp_rp1 hk
    cases k with
    | zero =>
      simp only [assignRanks, List.getD_cons_zero, groupSlice, groupOffset, List.take_zero,
        List.sum_nil, Nat.zero_add, slice, List.drop_zero, Nat.sub_zero]
    | succ j =>
      have hj : j < ns.length := by simpa using hk
      simp only [assignRanks, List.getD_cons_succ]
      rw [ih j _ hj]
      unfold groupSlice groupOffset
      simp only [List.take_succ_cons, List.sum_cons, List.getD_cons_succ]
      rw [slice_drop]

/-- With pairwise distinct keys there is one sorted rearrangement only. -/
theorem sorted_unique (pairs l1 l2 : List intPair)
    (hnd : (pairs.map (fun p => p.value)).Nodup)
    (hp1 : l1.Perm pairs) (hs1 : l1.Sorted (fun a b => a.value ≤ b.value))
    (hp2 : l2.Perm pairs) (hs2 : l2.Sorted (fun a b => a.value ≤ b.value)) : l1 = l2 := by
  have strict : ∀ l : List intPair, l.Perm pairs → l.Sorted (fun a b => a.value ≤ b.value) →
      l.Sorted (fun a b => a.value < b.value) := by
    intro l hp hs
    have hn : (l.map (fun p => p.value)).Nodup := (hp.map _).nodup_iff.mpr hnd
    have hne : l.Pairwise (fun a b => a.value ≠ b.value) := by
      rw [List.Nodup, List.pairwise_map] at hn
      exact hn
    exact (List.Pairwise.and hs hne).imp (fun h => lt_of_le_of_ne h.1 h.2)
  have : IsAntisymm intPair (fun a b => a.value < b.value) :=
    ⟨fun a b hab hba => absurd hab (not_lt.mpr (le_of_lt hba))⟩
  exact List.eq_of_perm_of_sorted (hp1.trans hp2.symm) (strict l1 hp1 hs1) (strict l2 hp2 hs2)

theorem drawSorted_nodup (M : Mpf) (u : ℚ) (count : Nat) (x : ℚ) :
    ((drawSorted M u count x).1.map (fun r => r.number)).Nodup :=
  (drawSorted_perm M u count x).nodup_iff.mpr (List.nodup_range count)

/-! ## Running sums after the sign-group stage -/

theorem runningSums_append (a b : List Int) :
    ∀ s0 : Int, runningSums (a ++ b) s0 = runningSums a s0 ++ runningSums b (s0 + a.sum) := by
  induction a with
  | nil => intro s0; simp [runningSums]
  | cons d ds ih =>
    intro s0
    have e : s0 + (d :: ds).sum = d + s0 + ds.sum := by rw [List.sum_cons]; ring
    rw [e]
    show (d + s0) :: runningSums (ds ++ b) (d + s0) =
      (d + s0) :: runningSums ds (d + s0) ++ runningSums b (d + s0 + ds.sum)
    rw [ih (d + s0)]
    rfl

theorem sum_mem_runningSums (l : List Int) :
    ∀ s0 : Int, s0 + l.sum ∈ s0 :: runningSums l s0 := by
  induction l with
  | nil => intro s0; simp
  | cons d ds ih =>
    intro s0
    have h := ih (d + s0)
    have e : s0 + (d :: ds).sum = d + s0 + ds.sum := by rw [List.sum_cons]; ring
    rw [e]
    simp only [runningSums]
    exact List.mem_cons_of_mem _ h

theorem runningSums_nonneg (l : List Int) :
    ∀ s0 : Int, (∀ a ∈ l, 0 ≤ a) → ∀ s ∈ runningSums l s0, s0 ≤ s ∧ s ≤ s0 + l.sum := by
  induction l with
  | nil => intro s0 _ s hs; simp [runningSums] at hs
  | cons d ds ih =>
    intro s0 hpos s hs
    have hd : 0 ≤ d := hpos d (List.mem_cons_self _ _)
    have hds : 0 ≤ ds.sum := List.sum_nonneg (fun a ha => hpos a (List.mem_cons_of_mem _ ha))
    simp only [runningSums, List.mem_cons] at hs
    rw [List.sum_cons]
    rcases hs with h | h
    · rw [h]; constructor <;> linarith
    · have := ih (d + s0) (fun a ha => hpos a (List.mem_cons_of_mem _ ha)) s h
      constructor <;> linarith [this.1, this.2]

theorem sum_nonpos_int (l : List Int) (h : ∀ a ∈ l, a ≤ 0) : l.sum ≤ 0 := by
  induction l with
  | nil => simp
  | cons d ds ih =>
    rw [List.sum_cons]
    have := h d (List.mem_cons_self _ _)
    have := ih (fun a ha => h a (List.mem_cons_of_mem _ ha))
    omega

theorem runningSums_neg (l : List Int) :
    ∀ s0 : Int, (∀ a ∈ l, a ≤ 0) → ∀ s ∈ runningSums l s0, s0 + l.sum ≤ s ∧ s ≤ s0 := by
  induction l with
  | nil => intro s0 _ s hs; simp [runningSums] at hs
  | cons d ds ih =>
    intro s0 hneg s hs
    have hd : d ≤ 0 := hneg d (List.mem_cons_self _ _)
    have hds : ds.sum ≤ 0 := sum_nonpos_int ds (fun a ha => hneg a (List.mem_cons_of_mem _ ha))
    simp only [runningSums, List.mem_cons] at hs
    rw [List.sum_cons]
    rcases hs with h | h
    · rw [h]; constructor <;> linarith
    · have := ih (d + s0) (fun a ha => hneg a (List.mem_cons_of_mem _ ha)) s h
      constructor <;> linarith [this.1, this.2]

/-- The running sums inside a group of one sign class lie between the sum before the
group and the sum behind it. -/
theorem runningSums_group (g : List Int) (s0 : Int) (hc : ∃ s', ∀ a ∈ g, signClass a = s') :
    ∀ s ∈ runningSums g s0,
      (s0 ≤ s ∧ s ≤ s0 + g.sum) ∨ (s0 + g.sum ≤ s ∧ s ≤ s0) := by
  obtain ⟨s', hs'⟩ := hc
  intro s hs
  cases s' with
  | true =>
    left
    exact runningSums_nonneg g s0 (fun a ha => by
      have := hs' a ha
      simpa [signClass] using this) s hs
  | false =>
    right
    exact runningSums_neg g s0 (fun a ha => by
      have := hs' a ha
      simp only [signClass, decide_eq_false_iff_not, ge_iff_le, not_le] at this
      omega) s hs

/-- Every running sum after the encrypt-side stage lies between two running sums of the
original sequence, the starting value included. -/
theorem stageGroups_sums (nums : List Nat) :
    ∀ (temp_rp1 : List randSequence) (diff : List Int) (s0 : Int), nums.sum ≤ diff.length →
      nums.sum ≤ temp_rp1.length →
      (∀ g ∈ copyGroups nums diff, ∃ s', ∀ a ∈ g, signClass a = s') →
      ∀ s ∈ runningSums (stageGroups scrambleGroup nums temp_rp1 diff) s0,
        (∃ lo ∈ s0 :: runningSums (diff.take nums.sum) s0, lo ≤ s) ∧
        (∃ hi ∈ s0 :: runningSums (diff.take nums.sum) s0, s ≤ hi) := by
  induction nums with
  | nil => intro _ _ s0 _ _ _ s hs; simp [stageGroups, runningSums] at hs
  | cons n ns ih =>
    intro temp_rp1 diff s0 hd ht hconst s hs
    rw [List.sum_cons] at hd ht
    simp only [copyGroups, List.mem_cons, forall_eq_or_imp] at hconst
    obtain ⟨hg, hrest⟩ := hconst
    have htk : (diff.take n).length = n := by simp; omega
    have htt : (temp_rp1.take n).length = n := by simp; omega
    have hperm := scrambleGroup_perm (sortIntPair (groupPairs (temp_rp1.take n)))
      (diff.take n) n htk.symm (by
        have := sortIntPair_groupPairs_perm (temp_rp1.take n)
        rwa [htt] at this)
    have hsum := hperm.sum_eq
    have hsplit : diff.take (n + ns.sum) = diff.take n ++ (diff.drop n).take ns.sum :=
      List.take_add _ _ _
    have hend := sum_mem_runningSums (diff.take n) s0
    have hsub : ∀ r ∈ (s0 + (diff.take n).sum) ::
        runningSums ((diff.drop n).take ns.sum) (s0 + (diff.take n).sum),
        r ∈ s0 :: runningSums (diff.take (n + ns.sum)) s0 := by
      intro r hr
      rw [hsplit, runningSums_append]
      rcases List.mem_cons.mp hr with h | h
      · rw [h]
        rcases List.mem_cons.mp hend with h' | h'
        · rw [h']; exact List.mem_cons_self _ _
        · exact List.mem_cons_of_mem _ (List.mem_append_left _ h')
      · exact List.mem_cons_of_mem _ (List.mem_append_right _ h)
    simp only [stageGroups, List.sum_cons] at hs ⊢
    rw [runningSums_append, hsum] at hs
    rcases List.mem_append.mp hs with h | h
    · have hconst' : ∃ s', ∀ a ∈ scrambleGroup (sortIntPair (groupPairs (temp_rp1.take n)))
          (diff.take n) n, signClass a = s' := by
        obtain ⟨s', hs'⟩ := hg
        exact ⟨s', fun a ha => hs' a (hperm.subset ha)⟩
      have hb := runningSums_group _ s0 hconst' s h
      rw [hsum] at hb
      have h0 : s0 ∈ s0 :: runningSums (diff.take (n + ns.sum)) s0 := List.mem_cons_self _ _
      have h1 : s0 + (diff.take n).sum ∈ s0 :: runningSums (diff.take (n + ns.sum)) s0 :=
        hsub _ (List.mem_cons_self _ _)
      rcases hb with hb | hb
      · exact ⟨⟨s0, h0, hb.1⟩, ⟨_, h1, hb.2⟩⟩
      · exact ⟨⟨_, h1, hb.1⟩, ⟨s0, h0, hb.2⟩⟩
    · obtain ⟨⟨lo, hlo, hlo'⟩, ⟨hi, hhi, hhi'⟩⟩ :=
        ih (temp_rp1.drop n) (diff.drop n) (s0 + (diff.take n).sum) (by simp; omega)
          (by simp; omega) hrest s h
      exact ⟨⟨lo, hsub lo hlo, hlo'⟩, ⟨hi, hsub hi hhi, hhi'⟩⟩

theorem signGroupStage_sums (temp_rp1 : List randSequence) (diff : List Int)
    (ht : diff.length ≤ temp_rp1.length) :
    ∀ s ∈ runningSums (signGroupStage temp_rp1 diff) 0,
      (∃ lo ∈ 0 :: runningSums diff 0, lo ≤ s) ∧ (∃ hi ∈ 0 :: runningSums diff 0, s ≤ hi) := by
  have hsum := groupsDiffNum_sum diff
  intro s hs
  rw [signGroupStage_eq] at hs
  have := stageGroups_sums (groupsDiffNum diff) temp_rp1 diff 0 (by omega) (by omega)
    (groupsDiffNum_const diff) s hs
  rw [hsum, List.take_length] at this
  exact this

/-! ## The iterative swap when no guard fires -/

theorem absSum_nonneg (l : List Int) : 0 ≤ absSum l := by
  unfold absSum
  apply List.sum_nonneg
  intro a ha
  obtain ⟨b, _, rfl⟩ := List.mem_map.mp ha
  exact abs_nonneg b

theorem absSum_append (a b : List Int) : absSum (a ++ b) = absSum a + absSum b := by
  unfold absSum
  rw [List.map_append, List.sum_append]

theorem absSum_perm (l l' : List Int) (h : l.Perm l') : absSum l = absSum l' := by
  unfold absSum
  exact (h.map _).sum_eq

theorem runningSums_abs (l : List Int) :
    ∀ s0 : Int, ∀ s ∈ runningSums l s0, s0 - absSum l ≤ s ∧ s ≤ s0 + absSum l := by
  induction l with
  | nil => intro s0 s hs; simp [runningSums] at hs
  | cons d ds ih =>
    intro s0 s hs
    have hn := absSum_nonneg ds
    have e : absSum (d :: ds) = abs d + absSum ds := by simp [absSum]
    have h1 := abs_nonneg d
    have h2 := le_abs_self d
    have h3 := neg_abs_le d
    simp only [runningSums, List.mem_cons] at hs
    rw [e]
    rcases hs with h | h
    · rw [h]; constructor <;> linarith
    · have := ih (d + s0) s h
      constructor <;> linarith [this.1, this.2]

/-- A window of a sequence whose absolute values add up to at most the two bounds passes
the guard. -/
theorem canSwap_of_small (c f : Int) (diff : List Int) (t g : Nat)
    (h : 2 * t * (g + 1) ≤ diff.length) (hc : absSum diff ≤ c) (hf : absSum diff ≤ -f) :
    canSwap c f diff t g = true := by
  rw [canSwap_iff]
  obtain ⟨hs, _, _, _⟩ := window_split diff t g h
  intro s hsm
  have hb := runningSums_abs _ 0 s hsm
  have hle : absSum (slice diff (2 * t * g + t) (2 * (g + 1) * t) ++
      slice diff (2 * t * g) (2 * t * g + t)) ≤ absSum diff := by
    conv => rhs; rw [hs]
    simp only [absSum_append]
    have := absSum_nonneg (diff.take (2 * t * g))
    have := absSum_nonneg (diff.drop (2 * t * (g + 1)))
    linarith
  constructor <;> linarith [hb.1, hb.2]

theorem length_swapChunk (t : Nat) (b : Bool) (l : List Int) (h : 2 * t ≤ l.length) :
    (swapChunk t b l).length = 2 * t := by
  unfold swapChunk
  cases b <;> simp <;> omega

theorem swapChunks_append (t : Nat) (bs cs : List Bool) :
    ∀ l : List Int, 2 * t * bs.length ≤ l.length →
      swapChunks t (bs ++ cs) l =
        (swapChunks t bs l).take (2 * t * bs.length) ++
          swapChunks t cs (l.drop (2 * t * bs.length)) := by
  induction bs with
  | nil => intro l _; simp [swapChunks]
  | cons b bs ih =>
    intro l h
    have e : 2 * t * (b :: bs).length = 2 * t + 2 * t * bs.length := by
      simp only [List.length_cons]; ring
    rw [e] at h ⊢
    have hl := length_swapChunk t b l (by omega)
    simp only [List.cons_append, swapChunks]
    show swapChunk t b l ++ swapChunks t (bs ++ cs) (l.drop (2 * t)) = _
    have ih' := ih (l.drop (2 * t)) (by simp; omega)
    have hd : (l.drop (2 * t)).drop (2 * t * bs.length) =
        l.drop (2 * t + 2 * t * bs.length) := by
      rw [List.drop_drop]
    have htake : (swapChunk t b l ++ swapChunks t bs (l.drop (2 * t))).take
        (2 * t + 2 * t * bs.length) =
        swapChunk t b l ++ (swapChunks t bs (l.drop (2 * t))).take (2 * t * bs.length) := by
      rw [List.take_append_eq_append_take, hl, List.take_of_length_le (by rw [hl]; omega),
        Nat.add_sub_cancel_left]
    rw [ih', hd, htake, List.append_assoc]

theorem swapChunk_append (t : Nat) (b : Bool) (L R B : List Int) (hL : L.length = t)
    (hR : R.length = t) :
    swapChunk t b (L ++ (R ++ B)) = if b then R ++ L else L ++ R := by
  unfold swapChunk
  have h1 : (L ++ (R ++ B)).take t = L := by rw [← hL]; exact List.take_left _ _
  have h2 : (L ++ (R ++ B)).drop t = R ++ B := by rw [← hL]; exact List.drop_left _ _
  have h3 : (R ++ B).take t = R := by rw [← hR]; exact List.take_left _ _
  have h4 : (L ++ (R ++ B)).take (2 * t) = L ++ R := by
    have : 2 * t = (L ++ R).length := by simp [hL, hR]; omega
    rw [this, ← List.append_assoc]
    exact List.take_left _ _
  rw [h1, h2, h3, h4]

theorem swapChunk_twice (t : Nat) (b : Bool) (l S : List Int) (h : 2 * t ≤ l.length) :
    swapChunk t b (swapChunk t b l ++ S) = l.take (2 * t) := by
  have hs : l = l.take t ++ ((l.drop t).take t ++ l.drop (2 * t)) := by
    have : l.drop (2 * t) = (l.drop t).drop t := by rw [List.drop_drop]; congr 1; omega
    rw [this, List.take_append_drop, List.take_append_drop]
  have hL : (l.take t).length = t := by simp; omega
  have hR : ((l.drop t).take t).length = t := by simp; omega
  have h2 : l.take (2 * t) = l.take t ++ (l.drop t).take t := by
    have : 2 * t = t + t := by omega
    rw [this, List.take_add]
  have e1 : swapChunk t b l = if b then (l.drop t).take t ++ l.take t
      else l.take t ++ (l.drop t).take t := by
    conv => lhs; rw [hs]
    exact swapChunk_append t b _ _ _ hL hR
  rw [e1, h2]
  cases b
  · simp only [Bool.false_eq_true, if_false, List.append_assoc]
    rw [swapChunk_append t false _ _ _ hL hR]
    simp
  · simp only [if_true, List.append_assoc]
    rw [swapChunk_append t true _ _ _ hR hL]
    simp

/-- Exchanging the halves of the same windows twice restores the sequence. -/
theorem swapChunks_twice (t : Nat) (bs : List Bool) :
    ∀ l : List Int, 2 * t * bs.length ≤ l.length →
      swapChunks t bs (swapChunks t bs l) = l := by
  induction bs with
  | nil => intro l _; rfl
  | cons b bs ih =>
    intro l h
    have e : 2 * t * (b :: bs).length = 2 * t + 2 * t * bs.length := by
      simp only [List.length_cons]; ring
    rw [e] at h
    have hl := length_swapChunk t b l (by omega)
    simp only [swapChunks]
    rw [swapChunk_twice t b l _ (by omega), List.drop_left' hl,
      ih (l.drop (2 * t)) (by simp; omega), List.take_append_drop]

/-- When the absolute values add up to at most the two bounds, the windows
`0, ..., G - 1` of one iteration are exchanged according to the parity of their decision
alone. -/
theorem swapWindows_eq (c f : Int) (t : Nat) (rp : List randSequence) (G : Nat) :
    ∀ diff : List Int, 2 * t * G ≤ diff.length → absSum diff ≤ c → absSum diff ≤ -f →
      (List.range G).foldl (swapGroup c f t rp) diff =
        swapChunks t ((List.range G).map
          (fun g => decide ((rp.getD g ⟨0, 0⟩).number % 2 = 1))) diff := by
  induction G with
  | zero => intro diff _ _ _; rfl
  | succ k ih =>
    intro diff h hc hf
    have hk : 2 * t * k ≤ diff.length := by
      have : 2 * t * k ≤ 2 * t * (k + 1) := Nat.mul_le_mul_left _ (by omega)
      omega
    have e1 : 2 * t * (k + 1) = 2 * t * k + 2 * t := by ring
    have hlenX := length_swapWindows c f t rp k diff hk
    have hpermX := swapWindows_perm c f t rp k diff hk
    have hX := ih diff hk hc hf
    have hdl : ((List.range k).map
        (fun g => decide ((rp.getD g ⟨0, 0⟩).number % 2 = 1))).length = k := by simp
    -- the sequence before window `k` is handled
    have hsplitX := swapChunks_append t ((List.range k).map
      (fun g => decide ((rp.getD g ⟨0, 0⟩).number % 2 = 1))) [] diff (by rw [hdl]; exact hk)
    rw [List.append_nil, hdl] at hsplitX
    simp only [swapChunks] at hsplitX
    have hsplitY := swapChunks_append t ((List.range k).map
      (fun g => decide ((rp.getD g ⟨0, 0⟩).number % 2 = 1)))
      [decide ((rp.getD k ⟨0, 0⟩).number % 2 = 1)] diff (by rw [hdl]; exact hk)
    rw [hdl] at hsplitY
    simp only [swapChunks] at hsplitY
    rw [List.range_succ, List.foldl_append, List.map_append]
    simp only [List.foldl_cons, List.foldl_nil, List.map_cons, List.map_nil]
    rw [hsplitY]
    -- the parts of the sequence around window `k`
    have hl' : 2 * t ≤ (diff.drop (2 * t * k)).length := by simp; omega
    have hs : diff.drop (2 * t * k) = (diff.drop (2 * t * k)).take t ++
        (((diff.drop (2 * t * k)).drop t).take t ++ (diff.drop (2 * t * k)).drop (2 * t)) := by
      have : (diff.drop (2 * t * k)).drop (2 * t) = ((diff.drop (2 * t * k)).drop t).drop t := by
        rw [List.drop_drop (l := diff.drop (2 * t * k))]; congr 1; omega
      rw [this, List.take_append_drop, List.take_append_drop]
    have hL : ((diff.drop (2 * t * k)).take t).length = t := by simp; omega
    have hR : (((diff.drop (2 * t * k)).drop t).take t).length = t := by simp; omega
    have hP : ((swapChunks t ((List.range k).map
        (fun g => decide ((rp.getD g ⟨0, 0⟩).number % 2 = 1))) diff).take (2 * t * k)).length =
        2 * t * k := by
      rw [List.length_take, ← hX, hlenX]
      omega
    have hcan : canSwap c f ((List.range k).foldl (swapGroup c f t rp) diff) t k = true :=
      canSwap_of_small c f _ t k (by rw [hlenX]; exact h)
        (by rw [absSum_perm _ _ hpermX]; exact hc) (by rw [absSum_perm _ _ hpermX]; exact hf)
    have hchunk := swapChunk_append t (decide ((rp.getD k ⟨0, 0⟩).number % 2 = 1))
      ((diff.drop (2 * t * k)).take t) (((diff.drop (2 * t * k)).drop t).take t)
      ((diff.drop (2 * t * k)).drop (2 * t)) hL hR
    rw [← hs] at hchunk
    rw [hchunk]
    rw [hX] at hcan ⊢
    unfold swapGroup
    simp only []
    rw [if_pos hcan]
    by_cases hodd : (rp.getD k ⟨0, 0⟩).number % 2 = 1
    · rw [if_pos hodd]
      have hd : decide ((rp.getD k ⟨0, 0⟩).number % 2 = 1) = true := decide_eq_true hodd
      rw [hd, if_pos rfl]
      conv => lhs; rw [hsplitX, hs]
      rw [swapHalves_append _ _ _ _ t k hP hL hR]
      simp only [List.append_assoc]
    · rw [if_neg hodd]
      have hd : decide ((rp.getD k ⟨0, 0⟩).number % 2 = 1) = false := decide_eq_false hodd
      rw [hd]
      simp only [Bool.false_eq_true, if_false]
      conv => lhs; rw [hsplitX, hs]
      simp only [List.append_assoc]

theorem swapIteration_eq (c f : Int) (rp : List (List randSequence)) (iter_times : Nat)
    (diff : List Int) (n t : Nat) (h1 : 1 ≤ t) (h2 : t ≤ iter_times) (hn : diff.length = n)
    (hc : absSum diff ≤ c) (hf : absSum diff ≤ -f) :
    swapIteration c f rp (itersGroupNum iter_times n) diff t =
      swapChunks t ((List.range (n / (t * 2))).map
        (fun g => decide (((rp.getD (t - 1) []).getD g ⟨0, 0⟩).number % 2 = 1))) diff := by
  unfold swapIteration
  rw [itersGroupNum_getD _ _ _ h1 h2]
  exact swapWindows_eq c f t _ _ diff (by rw [hn]; exact window_count_le n t) hc hf

/-- One iteration, applied twice, restores a sequence whose absolute values add up to at
most the two bounds. -/
theorem swapIteration_twice (c f : Int) (rp : List (List randSequence)) (iter_times : Nat)
    (diff : List Int) (n t : Nat) (h1 : 1 ≤ t) (h2 : t ≤ iter_times) (hn : diff.length = n)
    (hc : absSum diff ≤ c) (hf : absSum diff ≤ -f) :
    swapIteration c f rp (itersGroupNum iter_times n)
      (swapIteration c f rp (itersGroupNum iter_times n) diff t) t = diff := by
  have hlen := length_swapIteration c f rp iter_times diff n t h1 h2 hn
  have hperm := swapIteration_perm c f rp iter_times diff n t h1 h2 hn
  have hw := window_count_le n t
  rw [swapIteration_eq c f rp iter_times _ n t h1 h2 hlen
    (by rw [absSum_perm _ _ hperm]; exact hc) (by rw [absSum_perm _ _ hperm]; exact hf),
    swapIteration_eq c f rp iter_times diff n t h1 h2 hn hc hf]
  exact swapChunks_twice t _ diff (by simp; rw [hn]; exact hw)

theorem foldl_swapIteration_reverse (c f : Int) (rp : List (List randSequence))
    (iter_times n : Nat) (ts : List Nat) (hts : ∀ t ∈ ts, 1 ≤ t ∧ t ≤ iter_times) :
    ∀ diff : List Int, diff.length = n → absSum diff ≤ c → absSum diff ≤ -f →
      ts.reverse.foldl (swapIteration c f rp (itersGroupNum iter_times n))
        (ts.foldl (swapIteration c f rp (itersGroupNum iter_times n)) diff) = diff := by
  induction ts with
  | nil => intro diff _ _ _; rfl
  | cons t ts ih =>
    intro diff hn hc hf
    have ht := hts t (List.mem_cons_self _ _)
    have hlen := length_swapIteration c f rp iter_times diff n t ht.1 ht.2 hn
    have hperm := swapIteration_perm c f rp iter_times diff n t ht.1 ht.2 hn
    rw [List.foldl_cons, List.reverse_cons, List.foldl_append,
      ih (fun t' ht' => hts t' (List.mem_cons_of_mem _ ht')) _ hlen
        (by rw [absSum_perm _ _ hperm]; exact hc) (by rw [absSum_perm _ _ hperm]; exact hf)]
    simp only [List.foldl_cons, List.foldl_nil]
    exact swapIteration_twice c f rp iter_times diff n t ht.1 ht.2 hn hc hf

/-- The inverse iterative swap undoes the forward iterative swap on a sequence whose
absolute values add up to at most the two bounds. -/
theorem reDccIterSwap_dccIterSwap (iter_times : Nat) (c f : Int) (rp : List (List randSequence))
    (diff : List Int) (n : Nat) (hn : diff.length = n) (hc : absSum diff ≤ c)
    (hf : absSum diff ≤ -f) :
    reDccIterSwap iter_times c f rp
      (dccIterSwap iter_times c f rp diff (itersGroupNum iter_times n))
      (itersGroupNum iter_times n) = diff := by
  unfold reDccIterSwap dccIterSwap
  exact foldl_swapIteration_reverse c f rp iter_times n _ (mem_range'_one iter_times) diff hn
    hc hf

/-- The DC half of `decrypt` undoes the DC half of `encrypt` when no guard can fire. -/
theorem decryptDc_encryptDc (M : Mpf) (iter_times : Nat) (c f : Int) (u x : ℚ) (diff : List Int)
    (hc : absSum diff ≤ c) (hf : absSum diff ≤ -f) :
    decryptDc M iter_times c f u x (encryptDc M iter_times c f u x diff) = diff := by
  have hl := length_encryptDc M iter_times c f u x diff
  unfold decryptDc decryptUnswap
  simp only []
  rw [hl]
  unfold encryptDc
  simp only []
  have hlt : diff.length ≤ (dcSchedule M iter_times u x diff.length).1.length := by
    unfold dcSchedule
    simp only []
    rw [length_drawSorted]
  have hp := signGroupStage_perm (dcSchedule M iter_times u x diff.length).1 diff hlt
  rw [reDccIterSwap_dccIterSwap iter_times c f _ _ diff.length
      (length_signGroupStage _ _) (by rw [absSum_perm _ _ hp]; exact hc)
      (by rw [absSum_perm _ _ hp]; exact hf)]
  exact reSignGroupStage_signGroupStage _ diff hlt

/-! ## The DC bounds as quantised extremes -/

/-- The value of `round` lies within one half of its argument. -/
theorem cRound_near (x : ℚ) : x - 1 / 2 ≤ (cRound x : ℚ) ∧ (cRound x : ℚ) ≤ x + 1 / 2 := by
  unfold cRound
  by_cases h : 0 ≤ x
  · rw [if_pos h]
    have h1 := Int.floor_le (x + 1 / 2)
    have h2 := Int.lt_floor_add_one (x + 1 / 2)
    constructor <;> linarith
  · rw [if_neg h]
    have h1 := Int.le_ceil (x - 1 / 2)
    have h2 := Int.ceil_lt_add_one (x - 1 / 2)
    constructor <;> linarith

theorem ceilingDc_near (dc_step : Nat) (hq : 1 ≤ dc_step) :
    2032 - (dc_step : Int) ≤ 2 * (ceilingDc dc_step * dc_step) ∧
      2 * (ceilingDc dc_step * dc_step) ≤ 2032 + (dc_step : Int) := by
  have hq0 : (0 : ℚ) < (dc_step : ℚ) := by exact_mod_cast hq
  obtain ⟨h1, h2⟩ := cRound_near ((1016 : ℚ) / (dc_step : ℚ))
  have e : (1016 : ℚ) / (dc_step : ℚ) * (dc_step : ℚ) = 1016 := by field_simp
  have a1 : (2032 : ℚ) - (dc_step : ℚ) ≤ 2 * ((ceilingDc dc_step : ℚ) * (dc_step : ℚ)) := by
    have := mul_le_mul_of_nonneg_right h1 hq0.le
    unfold ceilingDc
    nlinarith
  have a2 : 2 * ((ceilingDc dc_step : ℚ) * (dc_step : ℚ)) ≤ (2032 : ℚ) + (dc_step : ℚ) := by
    have := mul_le_mul_of_nonneg_right h2 hq0.le
    unfold ceilingDc
    nlinarith
  constructor
  · exact_mod_cast a1
  · exact_mod_cast a2

theorem floorDc_near (dc_step : Nat) (hq : 1 ≤ dc_step) :
    -2048 - (dc_step : Int) ≤ 2 * (floorDc dc_step * dc_step) ∧
      2 * (floorDc dc_step * dc_step) ≤ -2048 + (dc_step : Int) := by
  have hq0 : (0 : ℚ) < (dc_step : ℚ) := by exact_mod_cast hq
  obtain ⟨h1, h2⟩ := cRound_near ((-1024 : ℚ) / (dc_step : ℚ))
  have e : (-1024 : ℚ) / (dc_step : ℚ) * (dc_step : ℚ) = -1024 := by field_simp
  have a1 : (-2048 : ℚ) - (dc_step : ℚ) ≤ 2 * ((floorDc dc_step : ℚ) * (dc_step : ℚ)) := by
    have := mul_le_mul_of_nonneg_right h1 hq0.le
    unfold floorDc
    nlinarith
  have a2 : 2 * ((floorDc dc_step : ℚ) * (dc_step : ℚ)) ≤ (-2048 : ℚ) + (dc_step : ℚ) := by
    have := mul_le_mul_of_nonneg_right h2 hq0.le
    unfold floorDc
    nlinarith
  constructor
  · exact_mod_cast a1
  · exact_mod_cast a2

/-! ## Write-back into another array -/

theorem length_setBlock (g : List (List (List Int))) (h w : Nat) (b : List Int) :
    (setBlock g h w b).length = g.length := by
  unfold setBlock
  simp

theorem row_length_setBlock (g : List (List (List Int))) (h w : Nat) (b : List Int) (h' : Nat) :
    ((setBlock g h w b).getD h' []).length = (g.getD h' []).length := by
  unfold setBlock
  by_cases hh : h = h'
  · subst hh
    by_cases hl : h < g.length
    · rw [getD_set_same _ _ _ _ hl]
      simp
    · rw [List.set_eq_of_length_le (by omega)]
  · rw [getD_set_other _ _ _ _ _ hh]

theorem getBlock_setBlock_same (g : List (List (List Int))) (h w : Nat) (b : List Int)
    (hh : h < g.length) (hw : w < (g.getD h []).length) :
    getBlock (setBlock g h w b) h w = b := by
  unfold getBlock setBlock
  rw [getD_set_same _ _ _ _ hh, getD_set_same _ _ _ _ hw]

theorem getBlock_setBlock_other (g : List (List (List Int))) (h w h' w' : Nat) (b : List Int)
    (hne : (h', w') ≠ (h, w)) :
    getBlock (setBlock g h w b) h' w' = getBlock g h' w' := by
  unfold getBlock setBlock
  by_cases hh : h = h'
  · subst hh
    have hw : w ≠ w' := fun e => hne (by rw [e])
    by_cases hl : h < g.length
    · rw [getD_set_same _ _ _ _ hl, getD_set_other _ _ _ _ _ hw]
    · rw [List.set_eq_of_length_le (by omega)]
  · rw [getD_set_other _ _ _ _ _ hh]

theorem zigzag_range : ∀ i : Nat, i < 63 → 1 ≤ zigzag.getD i 0 ∧ zigzag.getD i 0 ≤ 63 := by
  decide

theorem zigzag_inj : ∀ i : Nat, i < 63 → ∀ j : Nat, j < 63 →
    zigzag.getD i 0 = zigzag.getD j 0 → i = j := by
  intro i hi j hj h
  have hl : zigzag.length = 63 := by decide
  have hn : zigzag.Nodup := zigzag_perm.nodup_iff.mpr (List.nodup_range' 1 63)
  have hi' : i < zigzag.length := by rw [hl]; exact hi
  have hj' : j < zigzag.length := by rw [hl]; exact hj
  rw [List.getD_eq_getElem _ _ hi', List.getD_eq_getElem _ _ hj'] at h
  exact (List.Nodup.getElem_inj_iff hn).mp h

theorem zigzag_surj : ∀ k : Nat, k < 64 → 1 ≤ k → ∃ i : Nat, i < 63 ∧ zigzag.getD i 0 = k := by
  intro k hk h1
  have hl : zigzag.length = 63 := by decide
  have hm : k ∈ zigzag := by
    rw [zigzag_perm.mem_iff, List.mem_range'_1]
    omega
  obtain ⟨i, hi, hget⟩ := List.getElem_of_mem hm
  exact ⟨i, by rw [← hl]; exact hi, by rw [List.getD_eq_getElem _ _ hi]; exact hget⟩

/-- The write-back of one block overwrites all 64 coefficients of the block it is given:
with the DC value and the extracted AC values of a block `src` the result is `src`. -/
theorem writeAc_full (blk src : List Int) (hb : blk.length = 64) (hs : src.length = 64) :
    writeAc (blk.set 0 (src.getD 0 0)) (extractAc src) = src := by
  unfold writeAc
  have hlen : ((List.range 63).foldl (fun b i_zigzag =>
      b.set (zigzag.getD i_zigzag 0) ((extractAc src).getD i_zigzag 0))
      (blk.set 0 (src.getD 0 0))).length = 64 := by
    rw [length_foldl_set (fun i => zigzag.getD i 0) (fun i => (extractAc src).getD i 0)]
    simp [hb]
  apply ext_getD 0 _ _ (by rw [hlen, hs])
  intro k hk
  rw [hlen] at hk
  by_cases hk0 : k = 0
  · subst hk0
    rw [scatter_miss (fun i => zigzag.getD i 0) (fun i => (extractAc src).getD i 0) 63 _ 0 0
      (fun i hi => by
        show zigzag.getD i 0 ≠ 0
        have := (zigzag_range i hi).1
        omega)]
    exact getD_set_same _ _ _ _ (by omega)
  · obtain ⟨i, hi, hik⟩ := zigzag_surj k hk (by omega)
    have hv : (extractAc src).getD i 0 = src.getD (zigzag.getD i 0) 0 := by
      unfold extractAc
      rw [List.getD_eq_getElem _ _ (by simpa using hi)]
      simp
    have := scatter_hit (fun i => zigzag.getD i 0) (fun i => (extractAc src).getD i 0) 63
      (blk.set 0 (src.getD 0 0)) 0 zigzag_inj i hi (by
        show zigzag.getD i 0 < (blk.set 0 (src.getD 0 0)).length
        rw [List.length_set, hb, hik]
        exact hk)
    simp only [] at this
    rw [hik] at this
    rw [this, hv, hik]

/-- The write-back loop, run on what the extraction loop produced from the array `src`,
turns every target array with blocks of 64 coefficients at the positions of the
traversal into an array that holds the blocks of `src` at those positions and keeps the
blocks of the target everywhere else. -/
theorem writeBackLoop_target (src : List (List (List Int))) :
    ∀ (order : List (Nat × Nat)) (pre_d : List Int) (pre_a : List (List Int)) (prev_dc : Int)
      (target : List (List (List Int))),
      pre_d.length = pre_a.length → order.Nodup →
      (∀ p ∈ order, (getBlock src p.1 p.2).length = 64 ∧
        -32768 ≤ (getBlock src p.1 p.2).getD 0 0 ∧ (getBlock src p.1 p.2).getD 0 0 ≤ 32767) →
      (∀ p ∈ order, p.1 < target.length ∧ p.2 < (target.getD p.1 []).length ∧
        (getBlock target p.1 p.2).length = 64) →
      (∀ p ∈ order,
        getBlock (writeBackLoop (pre_d ++ (extractLoop src order prev_dc).1)
          (pre_a ++ (extractLoop src order prev_dc).2) order pre_d.length prev_dc target)
          p.1 p.2 = getBlock src p.1 p.2) ∧
      (∀ h w : Nat, (h, w) ∉ order →
        getBlock (writeBackLoop (pre_d ++ (extractLoop src order prev_dc).1)
          (pre_a ++ (extractLoop src order prev_dc).2) order pre_d.length prev_dc target)
          h w = getBlock target h w) := by
  intro order
  induction order with
  | nil =>
    intro _ _ _ target _ _ _ _
    exact ⟨fun p hp => by simp at hp, fun h w _ => rfl⟩
  | cons p rest ih =>
    intro pre_d pre_a prev_dc target hlen hnd hsrc htgt
    obtain ⟨h, w⟩ := p
    have hnd' := List.nodup_cons.mp hnd
    have hs0 := hsrc (h, w) (List.mem_cons_self _ _)
    have ht0 := htgt (h, w) (List.mem_cons_self _ _)
    simp only at hs0 ht0
    have hpos : 0 < (getBlock target h w).length := by omega
    have e1 : pre_d ++ toJcoef ((getBlock src h w).getD 0 0 - prev_dc) ::
        (extractLoop src rest ((getBlock src h w).getD 0 0)).1 =
        (pre_d ++ [toJcoef ((getBlock src h w).getD 0 0 - prev_dc)]) ++
          (extractLoop src rest ((getBlock src h w).getD 0 0)).1 := by simp
    have e2 : pre_a ++ extractAc (getBlock src h w) ::
        (extractLoop src rest ((getBlock src h w).getD 0 0)).2 =
        (pre_a ++ [extractAc (getBlock src h w)]) ++
          (extractLoop src rest ((getBlock src h w).getD 0 0)).2 := by simp
    have e3 : pre_a.length + 1 = (pre_d ++ [toJcoef ((getBlock src h w).getD 0 0 -
        prev_dc)]).length := by simp [hlen]
    have hstep : writeBackLoop (pre_d ++ (extractLoop src ((h, w) :: rest) prev_dc).1)
        (pre_a ++ (extractLoop src ((h, w) :: rest) prev_dc).2) ((h, w) :: rest) pre_d.length
        prev_dc target =
        writeBackLoop ((pre_d ++ [toJcoef ((getBlock src h w).getD 0 0 - prev_dc)]) ++
            (extractLoop src rest ((getBlock src h w).getD 0 0)).1)
          ((pre_a ++ [extractAc (getBlock src h w)]) ++
            (extractLoop src rest ((getBlock src h w).getD 0 0)).2) rest
          (pre_d ++ [toJcoef ((getBlock src h w).getD 0 0 - prev_dc)]).length
          ((getBlock src h w).getD 0 0) (setBlock target h w (getBlock src h w)) := by
      simp only [extractLoop, writeBackLoop]
      rw [getD_append_length_add, List.getD_cons_zero, hlen, getD_append_length_add,
        List.getD_cons_zero, toJcoef_restore _ _ hs0.2.1 hs0.2.2,
        getD_set_same _ _ _ _ hpos, writeAc_full _ _ ht0.2.2 hs0.1, e1, e2, e3]
    rw [hstep]
    have hne : ∀ q ∈ rest, q ≠ (h, w) := fun q hq e => hnd'.1 (e ▸ hq)
    obtain ⟨ih1, ih2⟩ := ih (pre_d ++ [toJcoef ((getBlock src h w).getD 0 0 - prev_dc)])
      (pre_a ++ [extractAc (getBlock src h w)]) ((getBlock src h w).getD 0 0)
      (setBlock target h w (getBlock src h w)) (by simp [hlen]) hnd'.2
      (fun q hq => hsrc q (List.mem_cons_of_mem _ hq))
      (fun q hq => by
        have hq' := htgt q (List.mem_cons_of_mem _ hq)
        refine ⟨by rw [length_setBlock]; exact hq'.1,
          by rw [row_length_setBlock]; exact hq'.2.1, ?_⟩
        rw [getBlock_setBlock_other _ _ _ _ _ _ (hne q hq)]
        exact hq'.2.2)
    constructor
    · intro q hq
      rcases List.mem_cons.mp hq with hq | hq
      · rw [hq]
        simp only
        rw [ih2 h w hnd'.1]
        exact getBlock_setBlock_same _ _ _ _ ht0.1 ht0.2.1
      · exact ih1 q hq
    · intro h' w' hn
      have hn1 : (h', w') ≠ (h, w) := fun e => hn (e ▸ List.mem_cons_self _ _)
      have hn2 : (h', w') ∉ rest := fun e => hn (List.mem_cons_of_mem _ e)
      rw [ih2 h' w' hn2]
      exact getBlock_setBlock_other _ _ _ _ _ _ hn1

/-- Entry `i` of the extracted data: the DC value of block `i` of the traversal minus the
DC value of the block before it (minus the starting value for the first block), stored
as `JCOEF`, and the AC values of block `i` in scan order. -/
theorem extractLoop_getD (src : List (List (List Int))) :
    ∀ (order : List (Nat × Nat)) (prev_dc : Int) (i : Nat), i < order.length →
      (extractLoop src order prev_dc).1.getD i 0 =
        toJcoef ((getBlock src (order.getD i (0, 0)).1 (order.getD i (0, 0)).2).getD 0 0 -
          (if i = 0 then prev_dc
           else (getBlock src (order.getD (i - 1) (0, 0)).1
             (order.getD (i - 1) (0, 0)).2).getD 0 0)) ∧
      (extractLoop src order prev_dc).2.getD i [] =
        extractAc (getBlock src (order.getD i (0, 0)).1 (order.getD i (0, 0)).2) := by
  intro order
  induction order with
  | nil => intro _ i hi; simp at hi
  | cons p rest ih =>
    intro prev_dc i hi
    obtain ⟨h, w⟩ := p
    cases i with
    | zero => exact ⟨rfl, rfl⟩
    | succ j =>
      have hj : j < rest.length := by simpa using hi
      obtain ⟨h1, h2⟩ := ih ((getBlock src h w).getD 0 0) j hj
      simp only [extractLoop, List.getD_cons_succ, Nat.add_sub_cancel]
      refine ⟨?_, h2⟩
      rw [h1]
      cases j with
      | zero => simp
      | succ k => simp

/-! ## The key as a function of the histogram -/

/-- The histogram that `getImageFeature` builds is the histogram of the specification. -/
theorem imageFeatureVec_spec (blocks : List (List Int)) :
    imageFeatureVec blocks = specHistogram blocks := by
  apply ext_getD 0
  · rw [imageFeatureVec_eq, length_featureHistogram]
    simp [specHistogram]
  · intro k hk
    rw [imageFeatureVec_eq, length_featureHistogram] at hk
    rw [imageFeatureVec_getD]
    unfold specHistogram
    rw [List.getD_eq_getElem _ _ (by simpa using hk)]
    simp

/-- On a file that can be opened the constructor is `deriveKey` on the AC lists. -/
theorem keyOfFile_some (sha3_512 : String → List Nat) (M : Mpf) (blocks : List (List Int))
    (rand_results : List Nat) :
    keyOfFile sha3_512 M (some blocks) rand_results =
      deriveKey sha3_512 M (blocks.map extractAc) := by
  unfold keyOfFile deriveKey getImageFeature
  simp only []
  rw [imageFeatureVec_eq]

theorem specHistogram_perm (blocks blocks' : List (List Int)) (h : blocks.Perm blocks') :
    specHistogram blocks = specHistogram blocks' := by
  unfold specHistogram
  apply List.map_congr_left
  intro k _
  exact h.countP_eq _

/-! # The claims -/

/-- C1 (code bug): the full pipeline does not round-trip on a decodable image.  Four
blocks, DC quantisation step 100 (`ceiling_dc = 10`, `floor_dc = -10`), DC differences
`[0, -5, 11, -1]` (absolute DC values `0, -5, 6, 5`), all AC coefficients zero, and the key
derived from that image: `encrypt` returns the differences `[0, -5, -1, 11]`, and `decrypt`
applied to this output with the same key returns `[0, -5, -1, 11]` again, not the original
`[0, -5, 11, -1]`. -/
theorem encrypt_decrypt_not_identity :
    encrypt exactMpf 15 63 10 (-10) zeroBlocksX zeroBlocksU [0, -5, 11, -1] zeroBlocks =
      some ([0, -5, -1, 11], zeroBlocks) ∧
    decrypt exactMpf 15 63 10 (-10) zeroBlocksX zeroBlocksU [0, -5, -1, 11] zeroBlocks =
      some ([0, -5, -1, 11], zeroBlocks) := by
  decide!

/-- C2: AC round trip through the pipeline.  For every key `(x, u)`, every bounds, every
DC sequence with at least one block and every list of AC blocks, `encrypt` returns, and
`decrypt` applied to its output with the same key returns the original AC blocks; the AC
half of `decrypt` (`decryptAc`) takes the class counts and all draw counts from the
encrypted blocks, undoes the block scramble first and recomputes the classes from the
partly unscrambled blocks. -/
theorem ac_round_trip (M : Mpf) (iter_times ceiling_run : Nat) (ceiling_dc floor_dc : Int)
    (x u : ℚ) (diff : List Int) (ac : List (List Int)) (hn : 1 ≤ diff.length) :
    ∃ diff' ac', encrypt M iter_times ceiling_run ceiling_dc floor_dc x u diff ac =
        some (diff', ac') ∧
      ∃ diff'', decrypt M iter_times ceiling_run ceiling_dc floor_dc x u diff' ac' =
        some (diff'', ac) := by
  refine ⟨encryptDc M iter_times ceiling_dc floor_dc u x diff,
    encryptAc M ceiling_run u (dcSchedule M iter_times u x diff.length).2.2 ac,
    encrypt_eq_some M iter_times ceiling_run ceiling_dc floor_dc x u diff ac hn,
    decryptDc M iter_times ceiling_dc floor_dc u x
      (encryptDc M iter_times ceiling_dc floor_dc u x diff), ?_⟩
  rw [decrypt_eq_some M iter_times ceiling_run ceiling_dc floor_dc x u _ _
    (by rw [length_encryptDc]; exact hn), length_encryptDc, decryptAc_encryptAc]

/-- The AC round trip at the example scenario with six sample AC blocks. -/
theorem ac_round_trip_witness :
    1 ≤ sampleDiff.length ∧
    ∃ diff' ac', encrypt exactMpf 15 63 10 (-10) zeroBlocksX zeroBlocksU sampleDiff sampleAc =
        some (diff', ac') ∧
      ∃ diff'', decrypt exactMpf 15 63 10 (-10) zeroBlocksX zeroBlocksU diff' ac' =
        some (diff'', sampleAc) :=
  ⟨by decide, ac_round_trip exactMpf 15 63 10 (-10) zeroBlocksX zeroBlocksU sampleDiff
    sampleAc (by decide)⟩

/-- C3 (code bug): `dccIterSwap` does not keep the absolute DC values in range.  With
`ceiling_dc = 10` and `floor_dc = -10`, the differences `[8, 0, -5, 5]` have the absolute
DC values `8, 8, 3, 8`; the second window of iteration 1 (decision 1) is swapped, the
result is `[8, 0, 5, -5]`, and its third absolute DC value is `13`. -/
theorem dccIterSwap_leaves_range :
    runningSums [8, 0, -5, 5] 0 = [8, 8, 3, 8] ∧
    dccIterSwap 15 10 (-10) sampleRp [8, 0, -5, 5] (itersGroupNum 15 4) = [8, 0, 5, -5] ∧
    runningSums [8, 0, 5, -5] 0 = [8, 8, 13, 8] := by
  decide

/-- C4 (code bug): `reDccIterSwap` does not undo `dccIterSwap`.  With `ceiling_dc = 10`
and `floor_dc = -10`, `dccIterSwap` turns `[0, -5, 11, -1]` into `[0, -5, -1, 11]`, and
`reDccIterSwap` with the same decisions leaves `[0, -5, -1, 11]` as it is. -/
theorem reDccIterSwap_not_inverse :
    dccIterSwap 15 10 (-10) sampleRp [0, -5, 11, -1] (itersGroupNum 15 4) =
      [0, -5, -1, 11] ∧
    reDccIterSwap 15 10 (-10) sampleRp [0, -5, -1, 11] (itersGroupNum 15 4) =
      [0, -5, -1, 11] := by
  decide

/-- C5 (code bug): decrypt does not replay the guard decision.  On the window with left
half `[11]` and right half `[-1]` (second window of `[0, -5, 11, -1]`, iteration 1, bounds
`[-10, 10]`) `dccIterSwap` computes `can_swap = 1` and swaps; on the window as it was left,
`[-1, 11]`, `reDccIterSwap` computes `can_swap = 0`. -/
theorem guard_not_replayed :
    canSwap 10 (-10) [0, -5, 11, -1] 1 1 = true ∧
    swapGroup 10 (-10) 1 (sampleRp.getD 0 []) [0, -5, 11, -1] 1 = [0, -5, -1, 11] ∧
    canSwap 10 (-10) [0, -5, -1, 11] 1 1 = false := by
  decide

/-- C6 (code bug): `dccIterSwap` is not injective.  With the same decisions and bounds
`[-10, 10]` the two sequences `[0, -5, 11, -1]` and `[0, -5, -1, 11]` of length 4 are both
mapped to `[0, -5, -1, 11]`. -/
theorem dccIterSwap_not_injective :
    dccIterSwap 15 10 (-10) sampleRp [0, -5, 11, -1] (itersGroupNum 15 4) =
      dccIterSwap 15 10 (-10) sampleRp [0, -5, -1, 11] (itersGroupNum 15 4) ∧
    ([0, -5, 11, -1] : List Int) ≠ [0, -5, -1, 11] := by
  decide

/-- C7: DCSignGroupScrambler round trip.  For every DC-difference sequence of length
`n >= 1` and every sorted global sequence whose indices are a rearrangement of `[0, n)`,
the decrypt-side stage (groups recomputed from the scrambled sequence, ranks handed out
left to right, `reScrambleSameSignDccGroup`) applied to the output of the encrypt-side
stage returns the original sequence. -/
theorem sign_group_round_trip (diff : List Int) (temp_rp1 : List randSequence)
    (_hn : 1 ≤ diff.length)
    (_hsorted : temp_rp1.Sorted (fun a b => a.value ≤ b.value))
    (hperm : (temp_rp1.map (fun r => r.number)).Perm (List.range diff.length)) :
    reSignGroupStage temp_rp1 (signGroupStage temp_rp1 diff) = diff :=
  reSignGroupStage_signGroupStage temp_rp1 diff (by
    have := hperm.length_eq
    simp only [List.length_map, List.length_range] at this
    omega)

/-- The sign-group round trip at the example scenario. -/
theorem sign_group_round_trip_witness :
    1 ≤ sampleDiff.length ∧
    sampleTempRp1.Sorted (fun a b => a.value ≤ b.value) ∧
    (sampleTempRp1.map (fun r => r.number)).Perm (List.range sampleDiff.length) ∧
    reSignGroupStage sampleTempRp1 (signGroupStage sampleTempRp1 sampleDiff) = sampleDiff :=
  ⟨by decide, by decide!, by decide,
    sign_group_round_trip sampleDiff sampleTempRp1 (by decide) (by decide!) (by decide)⟩

/-- C8: ACRunClassScrambler round trip.  For every list of AC blocks and every index
vectors `rp` whose class `r` is a rearrangement of `[0, runs_ac_num[r])`,
`reScrambleSameRunAcc`, run with the same `rp` on the class members and counts recomputed
from the scrambled blocks, returns the original blocks. -/
theorem run_class_round_trip (ceiling_run : Nat) (rp : List (List randSequence))
    (ac : List (List Int))
    (hrp : ∀ r, r < ceiling_run → ((rp.getD r []).map (fun p => p.number)).Perm
      (List.range ((countRuns ceiling_run ac).getD r 0))) :
    reScrambleSameRunAcc ceiling_run rp
      (scrambleSameRunAcc ceiling_run rp ac (recordRuns ceiling_run ac)
        (countRuns ceiling_run ac))
      (recordRuns ceiling_run (scrambleSameRunAcc ceiling_run rp ac
        (recordRuns ceiling_run ac) (countRuns ceiling_run ac)))
      (countRuns ceiling_run (scrambleSameRunAcc ceiling_run rp ac
        (recordRuns ceiling_run ac) (countRuns ceiling_run ac))) = ac :=
  reScramble_scrambleSameRunAcc ceiling_run rp ac hrp

/-- The run-class round trip on six sample blocks, every class being reversed. -/
theorem run_class_round_trip_witness :
    (∀ r, r < 63 → ((sampleRp3.getD r []).map (fun p => p.number)).Perm
      (List.range ((countRuns 63 sampleAc).getD r 0))) ∧
    reScrambleSameRunAcc 63 sampleRp3
      (scrambleSameRunAcc 63 sampleRp3 sampleAc (recordRuns 63 sampleAc)
        (countRuns 63 sampleAc))
      (recordRuns 63 (scrambleSameRunAcc 63 sampleRp3 sampleAc
        (recordRuns 63 sampleAc) (countRuns 63 sampleAc)))
      (countRuns 63 (scrambleSameRunAcc 63 sampleRp3 sampleAc
        (recordRuns 63 sampleAc) (countRuns 63 sampleAc))) = sampleAc :=
  ⟨by decide, run_class_round_trip 63 sampleRp3 sampleAc (by decide)⟩

/-- C9: ACBlockScrambler round trip.  For every list of `block_sum` AC blocks and every
index vector `rp` whose indices are a rearrangement of `[0, block_sum)`,
`reScrambleMcuNoDcc` with `rp` applied to the result of `scrambleMcuNoDcc` with `rp`
returns the original list of blocks. -/
theorem block_round_trip (rp : List randSequence) (ac : List (List Int))
    (hrp : (rp.map (fun r => r.number)).Perm (List.range ac.length)) :
    reScrambleMcuNoDcc rp (scrambleMcuNoDcc rp ac) = ac :=
  reScramble_scrambleMcuNoDcc rp ac hrp

/-- The block round trip on six sample blocks. -/
theorem block_round_trip_witness :
    (sampleRp4.map (fun r => r.number)).Perm (List.range sampleAc.length) ∧
    reScrambleMcuNoDcc sampleRp4 (scrambleMcuNoDcc sampleRp4 sampleAc) = sampleAc :=
  ⟨by decide, block_round_trip sampleRp4 sampleAc (by decide)⟩

/-- C10: key agreement.  For every key `(x, u)`, every DC sequence with at least one block
and every list of AC blocks, `encrypt` returns AC blocks whose 64-bin histogram of
nonzero-AC-per-block counts equals the histogram of the input AC blocks, so the key
derived from the encrypted blocks equals the key derived from the original blocks,
whatever the hash function and the `mpf_class` operations are. -/
theorem key_agreement (M : Mpf) (iter_times ceiling_run : Nat) (ceiling_dc floor_dc : Int)
    (x u : ℚ) (diff : List Int) (ac : List (List Int)) (hn : 1 ≤ diff.length) :
    ∃ diff' ac', encrypt M iter_times ceiling_run ceiling_dc floor_dc x u diff ac =
        some (diff', ac') ∧
      featureHistogram ac' = featureHistogram ac ∧
      ∀ (sha3_512 : String → List Nat) (M' : Mpf),
        deriveKey sha3_512 M' ac' = deriveKey sha3_512 M' ac := by
  refine ⟨_, _, encrypt_eq_some M iter_times ceiling_run ceiling_dc floor_dc x u diff ac hn,
    featureHistogram_encryptAc M ceiling_run u _ ac, ?_⟩
  intro sha3_512 M'
  unfold deriveKey
  rw [featureHistogram_encryptAc]

/-- Key agreement at the example scenario with six sample AC blocks. -/
theorem key_agreement_witness :
    1 ≤ sampleDiff.length ∧
    ∃ diff' ac', encrypt exactMpf 15 63 10 (-10) zeroBlocksX zeroBlocksU sampleDiff sampleAc =
        some (diff', ac') ∧
      featureHistogram ac' = featureHistogram sampleAc ∧
      ∀ (sha3_512 : String → List Nat) (M' : Mpf),
        deriveKey sha3_512 M' ac' = deriveKey sha3_512 M' sampleAc :=
  ⟨by decide, key_agreement exactMpf 15 63 10 (-10) zeroBlocksX zeroBlocksU sampleDiff
    sampleAc (by decide)⟩

/-- C11: range preservation.  For every window that lies inside the array, every bounds
and every decision: if `dccIterSwap` swaps the window (the guard passes and the decision
is odd) then the contents of the window after the swap are the right half followed by the
left half, and every partial sum of these contents, accumulated from 0, lies in
`[floor_dc, ceiling_dc]`; and a window for which some such partial sum leaves the range is
left as it is. -/
theorem window_range_preserved (ceiling_dc floor_dc : Int) (iter_time : Nat)
    (rp_iter : List randSequence) (diff : List Int) (group_index : Nat)
    (h : 2 * iter_time * (group_index + 1) ≤ diff.length) :
    (canSwap ceiling_dc floor_dc diff iter_time group_index = true ∧
        (rp_iter.getD group_index ⟨0, 0⟩).number % 2 = 1 →
      slice (swapGroup ceiling_dc floor_dc iter_time rp_iter diff group_index)
          (2 * iter_time * group_index) (2 * (group_index + 1) * iter_time) =
        slice diff (2 * iter_time * group_index + iter_time) (2 * (group_index + 1) * iter_time)
          ++ slice diff (2 * iter_time * group_index) (2 * iter_time * group_index + iter_time) ∧
      ∀ s ∈ runningSums
          (slice (swapGroup ceiling_dc floor_dc iter_time rp_iter diff group_index)
            (2 * iter_time * group_index) (2 * (group_index + 1) * iter_time)) 0,
        floor_dc ≤ s ∧ s ≤ ceiling_dc) ∧
    ((∃ s ∈ runningSums
          (slice diff (2 * iter_time * group_index + iter_time)
              (2 * (group_index + 1) * iter_time) ++
            slice diff (2 * iter_time * group_index) (2 * iter_time * group_index + iter_time))
          0, ¬ (floor_dc ≤ s ∧ s ≤ ceiling_dc)) →
      swapGroup ceiling_dc floor_dc iter_time rp_iter diff group_index = diff) := by
  constructor
  · intro hsw
    have hs := slice_swapGroup_swapped ceiling_dc floor_dc iter_time rp_iter diff group_index h
      hsw.1 hsw.2
    refine ⟨hs, ?_⟩
    rw [hs]
    exact (canSwap_iff ceiling_dc floor_dc diff iter_time group_index).mp hsw.1
  · intro hout
    apply swapGroup_unswapped
    intro hsw
    obtain ⟨s, hs, hbad⟩ := hout
    exact hbad ((canSwap_iff ceiling_dc floor_dc diff iter_time group_index).mp hsw.1 s hs)

/-- Range preservation at the second window of `[8, 0, -5, 5]` in iteration 1. -/
theorem window_range_preserved_witness :
    2 * 1 * (1 + 1) ≤ ([8, 0, -5, 5] : List Int).length ∧
    (canSwap 10 (-10) [8, 0, -5, 5] 1 1 = true ∧
        ((sampleRp.getD 0 []).getD 1 ⟨0, 0⟩).number % 2 = 1 →
      slice (swapGroup 10 (-10) 1 (sampleRp.getD 0 []) [8, 0, -5, 5] 1)
          (2 * 1 * 1) (2 * (1 + 1) * 1) =
        slice [8, 0, -5, 5] (2 * 1 * 1 + 1) (2 * (1 + 1) * 1)
          ++ slice [8, 0, -5, 5] (2 * 1 * 1) (2 * 1 * 1 + 1) ∧
      ∀ s ∈ runningSums
          (slice (swapGroup 10 (-10) 1 (sampleRp.getD 0 []) [8, 0, -5, 5] 1)
            (2 * 1 * 1) (2 * (1 + 1) * 1)) 0,
        -10 ≤ s ∧ s ≤ 10) ∧
    ((∃ s ∈ runningSums
          (slice [8, 0, -5, 5] (2 * 1 * 1 + 1) (2 * (1 + 1) * 1) ++
            slice [8, 0, -5, 5] (2 * 1 * 1) (2 * 1 * 1 + 1))
          0, ¬ (-10 ≤ s ∧ s ≤ 10)) →
      swapGroup 10 (-10) 1 (sampleRp.getD 0 []) [8, 0, -5, 5] 1 = [8, 0, -5, 5]) :=
  ⟨by decide, window_range_preserved 10 (-10) 1 (sampleRp.getD 0 []) [8, 0, -5, 5] 1
    (by decide)⟩

/-- C12: draw schedule agreement.  For every key, every bounds, every DC sequence with at
least one block and every list of AC blocks, `encrypt` returns, and the draw counts that
`decrypt` computes from the encrypted coefficients (`block_sum`, `block_sum / (2 t)` for
`t = 1, ..., iter_times`, the class counts below `ceiling_run`, `block_sum`) equal the
counts that `encrypt` computed from the original coefficients, so the four sorted
descriptor sequences that `decrypt` generates are those of `encrypt`. -/
theorem draw_schedule_agreement (M : Mpf) (iter_times ceiling_run : Nat)
    (ceiling_dc floor_dc : Int) (x u : ℚ) (diff : List Int) (ac : List (List Int))
    (hn : 1 ≤ diff.length) :
    ∃ diff' ac', encrypt M iter_times ceiling_run ceiling_dc floor_dc x u diff ac =
        some (diff', ac') ∧
      drawCounts iter_times ceiling_run diff' ac' = drawCounts iter_times ceiling_run diff ac ∧
      drawSchedule M iter_times ceiling_run u x diff' ac' =
        drawSchedule M iter_times ceiling_run u x diff ac := by
  refine ⟨encryptDc M iter_times ceiling_dc floor_dc u x diff,
    encryptAc M ceiling_run u (dcSchedule M iter_times u x diff.length).2.2 ac,
    encrypt_eq_some M iter_times ceiling_run ceiling_dc floor_dc x u diff ac hn, ?_, ?_⟩
  · unfold drawCounts
    rw [length_encryptDc, countRuns_encryptAc, length_encryptAc]
  · unfold drawSchedule
    rw [length_encryptDc, countRuns_encryptAc, length_encryptAc]

/-- Draw schedule agreement at the example scenario with six sample AC blocks. -/
theorem draw_schedule_agreement_witness :
    1 ≤ sampleDiff.length ∧
    ∃ diff' ac', encrypt exactMpf 15 63 10 (-10) zeroBlocksX zeroBlocksU sampleDiff sampleAc =
        some (diff', ac') ∧
      drawCounts 15 63 diff' ac' = drawCounts 15 63 sampleDiff sampleAc ∧
      drawSchedule exactMpf 15 63 zeroBlocksU zeroBlocksX diff' ac' =
        drawSchedule exactMpf 15 63 zeroBlocksU zeroBlocksX sampleDiff sampleAc :=
  ⟨by decide, draw_schedule_agreement exactMpf 15 63 10 (-10) zeroBlocksX zeroBlocksU
    sampleDiff sampleAc (by decide)⟩

/-- C13: group invariance of the DC sign partition.  For every DC-difference sequence of
length `block_sum >= 1` the grouping loop yields sizes that are all `>= 1` (the assertion
holds) and add up to `block_sum`; the same is true of the sizes computed from the sequence
after the sign-group stage, after the whole DC half of `encrypt`, and of the sizes that
`decrypt` computes after `reDccIterSwap`. -/
theorem sign_group_sizes (diff : List Int) (hn : 1 ≤ diff.length) :
    (groupsAsserted (groupsDiffNum diff) = true ∧ (∀ n ∈ groupsDiffNum diff, 1 ≤ n) ∧
      (groupsDiffNum diff).sum = diff.length) ∧
    (∀ temp_rp1 : List randSequence,
      groupsAsserted (groupsDiffNum (signGroupStage temp_rp1 diff)) = true ∧
      (∀ n ∈ groupsDiffNum (signGroupStage temp_rp1 diff), 1 ≤ n) ∧
      (groupsDiffNum (signGroupStage temp_rp1 diff)).sum = diff.length) ∧
    (∀ (M : Mpf) (iter_times : Nat) (ceiling_dc floor_dc : Int) (u x : ℚ),
      groupsAsserted (groupsDiffNum (encryptDc M iter_times ceiling_dc floor_dc u x diff)) =
        true ∧
      (∀ n ∈ groupsDiffNum (encryptDc M iter_times ceiling_dc floor_dc u x diff), 1 ≤ n) ∧
      (groupsDiffNum (encryptDc M iter_times ceiling_dc floor_dc u x diff)).sum =
        diff.length ∧
      groupsAsserted (groupsDiffNum (decryptUnswap M iter_times ceiling_dc floor_dc u x
        (encryptDc M iter_times ceiling_dc floor_dc u x diff))) = true ∧
      (groupsDiffNum (decryptUnswap M iter_times ceiling_dc floor_dc u x
        (encryptDc M iter_times ceiling_dc floor_dc u x diff))).sum = diff.length) := by
  refine ⟨⟨groupsAsserted_of_pos diff hn, groupsDiffNum_pos diff hn, groupsDiffNum_sum diff⟩,
    ?_, ?_⟩
  · intro temp_rp1
    have hl := length_signGroupStage temp_rp1 diff
    exact ⟨groupsAsserted_of_pos _ (by omega), groupsDiffNum_pos _ (by omega),
      by rw [groupsDiffNum_sum, hl]⟩
  · intro M iter_times ceiling_dc floor_dc u x
    have hl := length_encryptDc M iter_times ceiling_dc floor_dc u x diff
    have hl2 := length_decryptUnswap M iter_times ceiling_dc floor_dc u x
      (encryptDc M iter_times ceiling_dc floor_dc u x diff)
    exact ⟨groupsAsserted_of_pos _ (by omega), groupsDiffNum_pos _ (by omega),
      by rw [groupsDiffNum_sum, hl], groupsAsserted_of_pos _ (by omega),
      by rw [groupsDiffNum_sum, hl2, hl]⟩

/-- Group invariance of the DC sign partition at the example scenario. -/
theorem sign_group_sizes_witness :
    1 ≤ sampleDiff.length ∧
    ((groupsAsserted (groupsDiffNum sampleDiff) = true ∧
      (∀ n ∈ groupsDiffNum sampleDiff, 1 ≤ n) ∧
      (groupsDiffNum sampleDiff).sum = sampleDiff.length) ∧
    (∀ temp_rp1 : List randSequence,
      groupsAsserted (groupsDiffNum (signGroupStage temp_rp1 sampleDiff)) = true ∧
      (∀ n ∈ groupsDiffNum (signGroupStage temp_rp1 sampleDiff), 1 ≤ n) ∧
      (groupsDiffNum (signGroupStage temp_rp1 sampleDiff)).sum = sampleDiff.length) ∧
    (∀ (M : Mpf) (iter_times : Nat) (ceiling_dc floor_dc : Int) (u x : ℚ),
      groupsAsserted (groupsDiffNum
        (encryptDc M iter_times ceiling_dc floor_dc u x sampleDiff)) = true ∧
      (∀ n ∈ groupsDiffNum (encryptDc M iter_times ceiling_dc floor_dc u x sampleDiff),
        1 ≤ n) ∧
      (groupsDiffNum (encryptDc M iter_times ceiling_dc floor_dc u x sampleDiff)).sum =
        sampleDiff.length ∧
      groupsAsserted (groupsDiffNum (decryptUnswap M iter_times ceiling_dc floor_dc u x
        (encryptDc M iter_times ceiling_dc floor_dc u x sampleDiff))) = true ∧
      (groupsDiffNum (decryptUnswap M iter_times ceiling_dc floor_dc u x
        (encryptDc M iter_times ceiling_dc floor_dc u x sampleDiff))).sum =
        sampleDiff.length)) :=
  ⟨by decide, sign_group_sizes sampleDiff (by decide)⟩

/-- C14: group invariance of the AC run-length partition.  With `ceiling_run = 63`, for
every list of AC blocks of 63 coefficients the class counts add up to the number of nonzero
AC coefficients; this holds for the original blocks and for the blocks after the forward
pass, which have the same number of nonzero coefficients. -/
theorem run_class_sizes (ac : List (List Int)) (h63 : ∀ blk ∈ ac, blk.length = 63) :
    (countRuns 63 ac).sum = totalNonZero ac ∧
    ∀ (M : Mpf) (u x : ℚ),
      (countRuns 63 (encryptAc M 63 u x ac)).sum = totalNonZero (encryptAc M 63 u x ac) ∧
      totalNonZero (encryptAc M 63 u x ac) = totalNonZero ac := by
  refine ⟨countRuns_sum_eq 63 ac (fun blk hb => by rw [h63 blk hb]), ?_⟩
  intro M u x
  refine ⟨countRuns_sum_eq 63 _ (fun blk hb => ?_), totalNonZero_encryptAc M 63 u x ac⟩
  rw [encryptAc_block_length M 63 u x ac 63 h63 blk hb]

/-- Group invariance of the AC run-length partition on six sample blocks. -/
theorem run_class_sizes_witness :
    (∀ blk ∈ sampleAc, blk.length = 63) ∧
    ((countRuns 63 sampleAc).sum = totalNonZero sampleAc ∧
    ∀ (M : Mpf) (u x : ℚ),
      (countRuns 63 (encryptAc M 63 u x sampleAc)).sum =
        totalNonZero (encryptAc M 63 u x sampleAc) ∧
      totalNonZero (encryptAc M 63 u x sampleAc) = totalNonZero sampleAc) :=
  ⟨by decide, run_class_sizes sampleAc (by decide)⟩

/-- C15: key parameter ranges.  For every 512-bit hash the values that `initializeKey`
produces, read as exact decimal numerals, satisfy `0.52 <= x0 < 0.53`, hence
`0 < x0 < 1`, and `3.72 <= u < 3.73`. -/
theorem key_ranges (hashBool : List Bool) (_h512 : hashBool.length = 512) :
    (52 / 100 ≤ (initializeKey exactMpf hashBool).1 ∧
      (initializeKey exactMpf hashBool).1 < 53 / 100) ∧
    (0 < (initializeKey exactMpf hashBool).1 ∧ (initializeKey exactMpf hashBool).1 < 1) ∧
    (372 / 100 ≤ (initializeKey exactMpf hashBool).2 ∧
      (initializeKey exactMpf hashBool).2 < 373 / 100) := by
  have hx := decimalValue_bounds 0 5 2 (keyDigits hashBool 0) (length_keyDigits _ _)
    (keyDigits_le _ _)
  have hu := decimalValue_bounds 3 7 2 (keyDigits hashBool 256) (length_keyDigits _ _)
    (keyDigits_le _ _)
  have ex : (initializeKey exactMpf hashBool).1 =
      decimalValue 0 ([5, 2] ++ keyDigits hashBool 0) := rfl
  have eu : (initializeKey exactMpf hashBool).2 =
      decimalValue 3 ([7, 2] ++ keyDigits hashBool 256) := rfl
  rw [ex, eu]
  simp only [List.cons_append, List.nil_append]
  norm_num at hx hu
  refine ⟨⟨?_, ?_⟩, ⟨?_, ?_⟩, ⟨?_, ?_⟩⟩ <;> linarith [hx.1, hx.2, hu.1, hu.2]

/-- Key parameter ranges for the hash whose 512 bits are all set. -/
theorem key_ranges_witness :
    (List.replicate 512 true).length = 512 ∧
    ((52 / 100 ≤ (initializeKey exactMpf (List.replicate 512 true)).1 ∧
      (initializeKey exactMpf (List.replicate 512 true)).1 < 53 / 100) ∧
    (0 < (initializeKey exactMpf (List.replicate 512 true)).1 ∧
      (initializeKey exactMpf (List.replicate 512 true)).1 < 1) ∧
    (372 / 100 ≤ (initializeKey exactMpf (List.replicate 512 true)).2 ∧
      (initializeKey exactMpf (List.replicate 512 true)).2 < 373 / 100)) :=
  ⟨List.length_replicate 512 true,
    key_ranges (List.replicate 512 true) (List.length_replicate 512 true)⟩

/-- C16: permutation descriptor.  For every sequence of `n` values, the descriptors
`(i, value_i)`, `i = 0, ..., n - 1`, sorted by the comparator of `std::sort`, are a
rearrangement of the descriptors that is ascending in the value, and their original
indices contain every index below `n` exactly once and no other number; the sorted
vector that a generation loop of `encrypt` produces is of this shape. -/
theorem descriptor_permutation (values : List ℚ) :
    (sortRand (descriptors values)).Perm (descriptors values) ∧
    (sortRand (descriptors values)).Sorted (fun a b => a.value ≤ b.value) ∧
    ((sortRand (descriptors values)).map (fun r => r.number)).Perm
      (List.range values.length) ∧
    (∀ i : Nat, i < values.length →
      ((sortRand (descriptors values)).map (fun r => r.number)).count i = 1) ∧
    (∀ i : Nat, values.length ≤ i →
      ((sortRand (descriptors values)).map (fun r => r.number)).count i = 0) ∧
    ∀ (M : Mpf) (u : ℚ) (count : Nat) (x : ℚ),
      ((drawLoop M u count 0 x).1.map (fun r => r.value)).length = count ∧
      (drawSorted M u count x).1 =
        sortRand (descriptors ((drawLoop M u count 0 x).1.map (fun r => r.value))) := by
  have hp := sortRand_descriptors_perm values
  refine ⟨List.perm_insertionSort _ _, sortRand_sorted _, hp, ?_, ?_, ?_⟩
  · intro i hi
    rw [hp.count_eq]
    exact List.count_eq_one_of_mem (List.nodup_range _) (List.mem_range.mpr hi)
  · intro i hi
    rw [hp.count_eq]
    exact List.count_eq_zero_of_not_mem (by simp only [List.mem_range]; omega)
  · intro M u count x
    refine ⟨drawLoop_values_length M u count 0 x, ?_⟩
    unfold drawSorted
    simp only []
    rw [← drawLoop_eq_descriptors]

/-- The permutation descriptor of the four sample draws. -/
theorem descriptor_permutation_witness :
    ((sortRand (descriptors sampleDraws)).map (fun r => r.number)).Perm
      (List.range sampleDraws.length) :=
  (descriptor_permutation sampleDraws).2.2.1

/-- C17, counterexample: with the key derived from four blocks without AC coefficients,
`encrypt` returns the DC sequence `[0, 0, 0, 0]` for the DC sequence `[0, 0, 0, 0]`, and
the DC sequence `[3, -1]` for the DC sequence `[3, -1]`. -/
theorem encrypt_dc_unchanged :
    1 < ([0, 0, 0, 0] : List Int).length ∧
    (encrypt exactMpf 15 63 10 (-10) zeroBlocksX zeroBlocksU [0, 0, 0, 0] zeroBlocks).map
      (fun out => out.1) = some [0, 0, 0, 0] ∧
    (encrypt exactMpf 15 63 10 (-10) zeroBlocksX zeroBlocksU [3, -1] (zeroBlocks.take 2)).map
      (fun out => out.1) = some [3, -1] := by
  refine ⟨by decide, ?_, ?_⟩
  · rw [encrypt_eq_some _ _ _ _ _ _ _ _ _ (by decide)]
    simp only [Option.map_some']
    congr 1
    exact perm_eq_of_all_eq _ _ (encryptDc_perm _ _ _ _ _ _ _) (by decide)
  · rw [encrypt_eq_some _ _ _ _ _ _ _ _ _ (by decide)]
    have h : encryptDc exactMpf 15 10 (-10) zeroBlocksU zeroBlocksX [3, -1] = [3, -1] := by
      decide!
    simp only [Option.map_some', List.length_cons, List.length_nil]
    rw [h]

/-- C17, amended: for every DC sequence with more than one block and every key, the DC
sequence that `encrypt` returns is a rearrangement of the original of the same length; it
equals the original when all differences are equal. -/
theorem encrypt_dc_rearranges (M : Mpf) (iter_times ceiling_run : Nat)
    (ceiling_dc floor_dc : Int) (x u : ℚ) (diff : List Int) (ac : List (List Int))
    (hn : 1 < diff.length) :
    ∃ diff' ac', encrypt M iter_times ceiling_run ceiling_dc floor_dc x u diff ac =
        some (diff', ac') ∧
      diff'.Perm diff ∧ diff'.length = diff.length ∧
      ((∀ a ∈ diff, ∀ b ∈ diff, a = b) → diff' = diff) := by
  refine ⟨_, _, encrypt_eq_some M iter_times ceiling_run ceiling_dc floor_dc x u diff ac
    (by omega), encryptDc_perm _ _ _ _ _ _ _, length_encryptDc _ _ _ _ _ _ _, ?_⟩
  intro h
  exact perm_eq_of_all_eq _ _ (encryptDc_perm _ _ _ _ _ _ _) h

/-- The DC sequence of the example scenario is rearranged. -/
theorem encrypt_dc_rearranges_witness :
    1 < sampleDiff.length ∧
    ∃ diff' ac', encrypt exactMpf 15 63 10 (-10) zeroBlocksX zeroBlocksU sampleDiff sampleAc =
        some (diff', ac') ∧
      diff'.Perm sampleDiff ∧ diff'.length = sampleDiff.length ∧
      ((∀ a ∈ sampleDiff, ∀ b ∈ sampleDiff, a = b) → diff' = sampleDiff) :=
  ⟨by decide, encrypt_dc_rearranges exactMpf 15 63 10 (-10) zeroBlocksX zeroBlocksU
    sampleDiff sampleAc (by decide)⟩

/-- C18: determinism.  On a file that can be opened, the key that `Key::Key` computes is a
function of the histogram of nonzero-AC counts alone: it is the key built from the digest
of the serialised histogram, whatever the DC coefficients, the order of the blocks and the
state of `rand()` are.  Two runs over block sets with the same histogram therefore give,
for every hash function and all `mpf_class` operations, the same `(x0, u)`, the same sorted
draw vectors for all draw counts, and the same result of `encrypt` on the same
coefficients.  Only when the file cannot be opened is the key computed from the results of
`rand()`: the histogram is then replaced by the 64 values `rand() % 100`. -/
theorem derivation_deterministic (blocks1 blocks2 : List (List Int))
    (h : specHistogram blocks1 = specHistogram blocks2) :
    ∀ (sha3_512 : String → List Nat) (M : Mpf) (rand1 rand2 : List Nat),
      keyOfFile sha3_512 M (some blocks1) rand1 =
        initializeKey M (byteToBool (sha3_512 (featureString (specHistogram blocks1)))) ∧
      keyOfFile sha3_512 M (some blocks1) rand1 =
        deriveKey sha3_512 M (blocks1.map extractAc) ∧
      keyOfFile sha3_512 M (some blocks1) rand1 = keyOfFile sha3_512 M (some blocks2) rand2 ∧
      (∀ (count : Nat),
        drawSorted M (keyOfFile sha3_512 M (some blocks1) rand1).2 count
            (keyOfFile sha3_512 M (some blocks1) rand1).1 =
          drawSorted M (keyOfFile sha3_512 M (some blocks2) rand2).2 count
            (keyOfFile sha3_512 M (some blocks2) rand2).1) ∧
      (∀ (counts : List Nat),
        drawMany M (keyOfFile sha3_512 M (some blocks1) rand1).2 counts
            (keyOfFile sha3_512 M (some blocks1) rand1).1 =
          drawMany M (keyOfFile sha3_512 M (some blocks2) rand2).2 counts
            (keyOfFile sha3_512 M (some blocks2) rand2).1) ∧
      (∀ (iter_times ceiling_run : Nat) (ceiling_dc floor_dc : Int) (diff : List Int)
        (ac : List (List Int)),
        encrypt M iter_times ceiling_run ceiling_dc floor_dc
            (keyOfFile sha3_512 M (some blocks1) rand1).1
            (keyOfFile sha3_512 M (some blocks1) rand1).2 diff ac =
          encrypt M iter_times ceiling_run ceiling_dc floor_dc
            (keyOfFile sha3_512 M (some blocks2) rand2).1
            (keyOfFile sha3_512 M (some blocks2) rand2).2 diff ac) ∧
      keyOfFile sha3_512 M none rand1 =
        initializeKey M (byteToBool (sha3_512 (featureString (fallbackFeatureVec rand1)))) ∧
      (fallbackFeatureVec rand1).length = 64 ∧
      ∀ i, i < 64 → (fallbackFeatureVec rand1).getD i 0 = rand1.getD i 0 % 100 := by
  intro sha3_512 M rand1 rand2
  have hspec : ∀ (blocks : List (List Int)) (rand_results : List Nat),
      keyOfFile sha3_512 M (some blocks) rand_results =
        initializeKey M (byteToBool (sha3_512 (featureString (specHistogram blocks)))) := by
    intro blocks rand_results
    unfold keyOfFile getImageFeature
    simp only []
    rw [imageFeatureVec_spec]
  have hk : keyOfFile sha3_512 M (some blocks1) rand1 =
      keyOfFile sha3_512 M (some blocks2) rand2 := by
    rw [hspec, hspec, h]
  refine ⟨hspec _ _, keyOfFile_some _ _ _ _, hk, ?_, ?_, ?_, rfl, ?_, ?_⟩
  · intro count; rw [hk]
  · intro counts; rw [hk]
  · intro iter_times ceiling_run ceiling_dc floor_dc diff ac; rw [hk]
  · simp [fallbackFeatureVec]
  · intro i hi
    unfold fallbackFeatureVec
    rw [List.getD_eq_getElem _ _ (by simpa using hi)]
    simp

/-- Determinism at two different block sets with the same histogram: the blocks differ in
their DC coefficients, in the values and positions of the AC coefficients and in their
order.  The vectors of the branch for a file that cannot be opened differ with the results
of `rand()`. -/
theorem derivation_deterministic_witness :
    specHistogram sampleCoef = specHistogram sampleCoefB ∧
    specHistogram sampleCoef = [1, 2] ++ List.replicate 62 0 ∧
    sampleCoef ≠ sampleCoefB ∧
    fallbackFeatureVec [101, 7] ≠ fallbackFeatureVec [102, 7] ∧
    ∀ (sha3_512 : String → List Nat) (M : Mpf) (rand1 rand2 : List Nat),
      keyOfFile sha3_512 M (some sampleCoef) rand1 =
        initializeKey M (byteToBool (sha3_512 (featureString (specHistogram sampleCoef)))) ∧
      keyOfFile sha3_512 M (some sampleCoef) rand1 =
        deriveKey sha3_512 M (sampleCoef.map extractAc) ∧
      keyOfFile sha3_512 M (some sampleCoef) rand1 =
        keyOfFile sha3_512 M (some sampleCoefB) rand2 ∧
      (∀ (count : Nat),
        drawSorted M (keyOfFile sha3_512 M (some sampleCoef) rand1).2 count
            (keyOfFile sha3_512 M (some sampleCoef) rand1).1 =
          drawSorted M (keyOfFile sha3_512 M (some sampleCoefB) rand2).2 count
            (keyOfFile sha3_512 M (some sampleCoefB) rand2).1) ∧
      (∀ (counts : List Nat),
        drawMany M (keyOfFile sha3_512 M (some sampleCoef) rand1).2 counts
            (keyOfFile sha3_512 M (some sampleCoef) rand1).1 =
          drawMany M (keyOfFile sha3_512 M (some sampleCoefB) rand2).2 counts
            (keyOfFile sha3_512 M (some sampleCoefB) rand2).1) ∧
      (∀ (iter_times ceiling_run : Nat) (ceiling_dc floor_dc : Int) (diff : List Int)
        (ac : List (List Int)),
        encrypt M iter_times ceiling_run ceiling_dc floor_dc
            (keyOfFile sha3_512 M (some sampleCoef) rand1).1
            (keyOfFile sha3_512 M (some sampleCoef) rand1).2 diff ac =
          encrypt M iter_times ceiling_run ceiling_dc floor_dc
            (keyOfFile sha3_512 M (some sampleCoefB) rand2).1
            (keyOfFile sha3_512 M (some sampleCoefB) rand2).2 diff ac) ∧
      keyOfFile sha3_512 M none rand1 =
        initializeKey M (byteToBool (sha3_512 (featureString (fallbackFeatureVec rand1)))) ∧
      (fallbackFeatureVec rand1).length = 64 ∧
      ∀ i, i < 64 → (fallbackFeatureVec rand1).getD i 0 = rand1.getD i 0 % 100 :=
  ⟨by decide, by decide, by decide, by decide,
    derivation_deterministic sampleCoef sampleCoefB (by decide)⟩

/-- C19: sign grouping.  For every DC-difference sequence of length at least 1, the groups
that `encrypt` copies out of the sequence concatenate to the sequence, have the sizes
computed by the grouping loop, are not empty, have members of one sign class each, where
the sign class of a value is positive exactly when the value is `>= 0`, and any two
adjacent groups have different sign classes. -/
theorem sign_groups_maximal_runs (diff : List Int) (hn : 1 ≤ diff.length) :
    (copyGroups (groupsDiffNum diff) diff).flatten = diff ∧
    (copyGroups (groupsDiffNum diff) diff).map List.length = groupsDiffNum diff ∧
    (∀ g ∈ copyGroups (groupsDiffNum diff) diff, g ≠ []) ∧
    (∀ g ∈ copyGroups (groupsDiffNum diff) diff, ∃ s, ∀ a ∈ g, signClass a = s) ∧
    (∀ a : Int, signClass a = true ↔ a ≥ 0) ∧
    (copyGroups (groupsDiffNum diff) diff).Chain'
      (fun g h => ∀ a ∈ g, ∀ b ∈ h, signClass a ≠ signClass b) := by
  have hlen := copyGroups_length (groupsDiffNum diff) diff (by rw [groupsDiffNum_sum])
  refine ⟨?_, hlen, ?_, groupsDiffNum_const diff, ?_, groupsDiffNum_chain diff⟩
  · rw [copyGroups_flatten, groupsDiffNum_sum, List.take_length]
  · intro g hg hnil
    have hm : g.length ∈ (copyGroups (groupsDiffNum diff) diff).map List.length :=
      List.mem_map_of_mem _ hg
    rw [hlen] at hm
    have := groupsDiffNum_pos diff hn _ hm
    rw [hnil] at this
    simp at this
  · intro a
    simp [signClass]

/-- The sign groups of the example scenario: `[3]`, `[-1, -2]`, `[5, 0]`, `[-4]`. -/
theorem sign_groups_maximal_runs_witness :
    1 ≤ sampleDiff.length ∧
    copyGroups (groupsDiffNum sampleDiff) sampleDiff = [[3], [-1, -2], [5, 0], [-4]] ∧
    (copyGroups (groupsDiffNum sampleDiff) sampleDiff).flatten = sampleDiff ∧
    (copyGroups (groupsDiffNum sampleDiff) sampleDiff).map List.length =
      groupsDiffNum sampleDiff ∧
    (∀ g ∈ copyGroups (groupsDiffNum sampleDiff) sampleDiff, g ≠ []) ∧
    (∀ g ∈ copyGroups (groupsDiffNum sampleDiff) sampleDiff,
      ∃ s, ∀ a ∈ g, signClass a = s) ∧
    (∀ a : Int, signClass a = true ↔ a ≥ 0) ∧
    (copyGroups (groupsDiffNum sampleDiff) sampleDiff).Chain'
      (fun g h => ∀ a ∈ g, ∀ b ∈ h, signClass a ≠ signClass b) :=
  ⟨by decide, by decide, sign_groups_maximal_runs sampleDiff (by decide)⟩

/-- C20, counterexample: the four values drawn for the sequence `[1, 2, 3, 4]` (one run)
with the key of the example scenario are the second, third, fourth and first in ascending
order, as are the four sample draws; sorting the run's own draws as the specification
describes gives `[2, 3, 4, 1]`, and the sign-group stage of `encrypt` gives
`[4, 1, 2, 3]`. -/
theorem sign_group_not_own_draws :
    groupsDiffNum [1, 2, 3, 4] = [4] ∧
    sortRand (descriptors sampleDraws) = sampleDrawsSorted ∧
    specScrambleRun sampleDraws [1, 2, 3, 4] = [2, 3, 4, 1] ∧
    signGroupStage sampleDrawsSorted [1, 2, 3, 4] = [4, 1, 2, 3] ∧
    specScrambleRun ((drawLoop exactMpf zeroBlocksU 4 0 zeroBlocksX).1.map (fun r => r.value))
      [1, 2, 3, 4] = [2, 3, 4, 1] ∧
    signGroupStage (drawSorted exactMpf zeroBlocksU 4 zeroBlocksX).1 [1, 2, 3, 4] =
      [4, 1, 2, 3] := by
  refine ⟨by decide, by decide!, by decide!, by decide, by decide!, by decide!⟩

/-- C20, amended: for each group `k` of more than one value, the pairs of the group are
`(j, temp_rp1[offset + j].number)` for the local indices `j`, where `temp_rp1` is the one
sorted sequence of all `block_sum` draws and `offset` the first position of the group;
sorted ascending by the second component they give local indices `π` that contain every
index of the group exactly once, and the forward stage sets
`group[i] = original_group[π(i)]`. -/
theorem sign_group_permutation (temp_rp1 : List randSequence) (diff : List Int) (k : Nat)
    (hk : k < (groupsDiffNum diff).length) (hL : 1 < (groupsDiffNum diff).getD k 0)
    (ht : diff.length ≤ temp_rp1.length) :
    groupPairs (groupSlice temp_rp1 (groupsDiffNum diff) k) =
      (List.range ((groupsDiffNum diff).getD k 0)).map
        (fun j => ⟨j, (temp_rp1.getD (groupOffset (groupsDiffNum diff) k + j) ⟨0, 0⟩).number⟩) ∧
    (sortIntPair (groupPairs (groupSlice temp_rp1 (groupsDiffNum diff) k))).Sorted
      (fun a b => a.value ≤ b.value) ∧
    (codeRunPermutation temp_rp1 (groupsDiffNum diff) k).Perm
      (List.range ((groupsDiffNum diff).getD k 0)) ∧
    groupSlice (signGroupStage temp_rp1 diff) (groupsDiffNum diff) k =
      (codeRunPermutation temp_rp1 (groupsDiffNum diff) k).map
        (fun j => (groupSlice diff (groupsDiffNum diff) k).getD j 0) := by
  have hle := groupOffset_add_le (groupsDiffNum diff) k hk
  rw [groupsDiffNum_sum] at hle
  have hlen : (groupSlice temp_rp1 (groupsDiffNum diff) k).length =
      (groupsDiffNum diff).getD k 0 := by
    unfold groupSlice
    rw [length_slice _ _ _ (by omega)]
    omega
  refine ⟨?_, sortIntPair_sorted _, ?_, groupSlice_signGroupStage temp_rp1 diff k hk hL ht⟩
  · unfold groupPairs
    rw [hlen]
    apply List.map_congr_left
    intro j hj
    have hj' : j < (groupsDiffNum diff).getD k 0 := List.mem_range.mp hj
    unfold groupSlice
    rw [slice_getD _ _ _ _ _ (by omega)]
  · unfold codeRunPermutation sortIntPair
    refine ((List.perm_insertionSort _ _).map _).trans ?_
    rw [groupPairs_number, hlen]

/-- The permutation of the single group of `[1, 2, 3, 4]` under the sample sequence. -/
theorem sign_group_permutation_witness :
    0 < (groupsDiffNum [1, 2, 3, 4]).length ∧ 1 < (groupsDiffNum [1, 2, 3, 4]).getD 0 0 ∧
    ([1, 2, 3, 4] : List Int).length ≤ sampleDrawsSorted.length ∧
    codeRunPermutation sampleDrawsSorted (groupsDiffNum [1, 2, 3, 4]) 0 = [3, 0, 1, 2] ∧
    groupPairs (groupSlice sampleDrawsSorted (groupsDiffNum [1, 2, 3, 4]) 0) =
      (List.range ((groupsDiffNum [1, 2, 3, 4]).getD 0 0)).map
        (fun j => ⟨j, (sampleDrawsSorted.getD
          (groupOffset (groupsDiffNum [1, 2, 3, 4]) 0 + j) ⟨0, 0⟩).number⟩) ∧
    (sortIntPair (groupPairs (groupSlice sampleDrawsSorted
        (groupsDiffNum [1, 2, 3, 4]) 0))).Sorted (fun a b => a.value ≤ b.value) ∧
    (codeRunPermutation sampleDrawsSorted (groupsDiffNum [1, 2, 3, 4]) 0).Perm
      (List.range ((groupsDiffNum [1, 2, 3, 4]).getD 0 0)) ∧
    groupSlice (signGroupStage sampleDrawsSorted [1, 2, 3, 4]) (groupsDiffNum [1, 2, 3, 4]) 0 =
      (codeRunPermutation sampleDrawsSorted (groupsDiffNum [1, 2, 3, 4]) 0).map
        (fun j => (groupSlice [1, 2, 3, 4] (groupsDiffNum [1, 2, 3, 4]) 0).getD j 0) :=
  ⟨by decide, by decide, by decide, by decide,
    sign_group_permutation sampleDrawsSorted [1, 2, 3, 4] 0 (by decide) (by decide)
      (by decide)⟩

/-- C21, counterexample: for the DC sequence `[3, -1]` (two runs of length 1) the sum of
`L` over the runs with `L > 1` is 0, while the stage generates two descriptors, the rank
counter ends at 2, and the generator has been advanced by two steps. -/
theorem sign_stage_draws_every_run :
    groupsDiffNum [3, -1] = [1, 1] ∧
    specSignStageDraws [3, -1] = 0 ∧
    (dcSchedule exactMpf 15 zeroBlocksU zeroBlocksX ([3, -1] : List Int).length).1.length = 2 ∧
    randIndexCounter (groupsDiffNum [3, -1]) = 2 ∧
    (drawSorted exactMpf zeroBlocksU ([3, -1] : List Int).length zeroBlocksX).2 =
      logisticNext exactMpf zeroBlocksU (logisticNext exactMpf zeroBlocksU zeroBlocksX) ∧
    (drawSorted exactMpf zeroBlocksU ([3, -1] : List Int).length zeroBlocksX).2 ≠
      zeroBlocksX := by
  refine ⟨by decide, by decide, ?_, by decide, rfl, by decide!⟩
  unfold dcSchedule
  exact length_drawSorted _ _ _ _

/-- C21, amended: in the forward sign-group stage a run of length 1 is left unchanged, but
the stage draws one chaotic value and uses one rank slot for every block, the runs of
length 1 included: `block_sum` descriptors are generated, the generator is advanced by
`block_sum` steps and `rand_index_counter` ends at `block_sum`, which is the sum of `L`
over the runs with `L > 1` plus the number of runs of length 1. -/
theorem sign_stage_draw_count (M : Mpf) (iter_times : Nat) (u x : ℚ) (diff : List Int)
    (temp_rp1 : List randSequence) (k : Nat) (hk : k < (groupsDiffNum diff).length)
    (h1 : (groupsDiffNum diff).getD k 0 = 1) :
    groupSlice (signGroupStage temp_rp1 diff) (groupsDiffNum diff) k =
      groupSlice diff (groupsDiffNum diff) k ∧
    (dcSchedule M iter_times u x diff.length).1.length = diff.length ∧
    (drawSorted M u diff.length x).2 = (logisticNext M u)^[diff.length] x ∧
    randIndexCounter (groupsDiffNum diff) = diff.length ∧
    specSignStageDraws diff + ((groupsDiffNum diff).filter (fun L => decide (L = 1))).length =
      diff.length := by
  refine ⟨groupSlice_signGroupStage_one temp_rp1 diff k hk h1, ?_, ?_, ?_, ?_⟩
  · unfold dcSchedule
    exact length_drawSorted _ _ _ _
  · unfold drawSorted
    exact drawLoop_state M u diff.length 0 x
  · rw [randIndexCounter_eq, groupsDiffNum_sum]
  · unfold specSignStageDraws
    rw [sum_filter_gt_one, groupsDiffNum_sum]

/-- The draw count of the sign-group stage at the example scenario, whose first run has
length 1. -/
theorem sign_stage_draw_count_witness :
    0 < (groupsDiffNum sampleDiff).length ∧ (groupsDiffNum sampleDiff).getD 0 0 = 1 ∧
    groupSlice (signGroupStage sampleTempRp1 sampleDiff) (groupsDiffNum sampleDiff) 0 =
      groupSlice sampleDiff (groupsDiffNum sampleDiff) 0 ∧
    (dcSchedule exactMpf 15 zeroBlocksU zeroBlocksX sampleDiff.length).1.length =
      sampleDiff.length ∧
    (drawSorted exactMpf zeroBlocksU sampleDiff.length zeroBlocksX).2 =
      (logisticNext exactMpf zeroBlocksU)^[sampleDiff.length] zeroBlocksX ∧
    randIndexCounter (groupsDiffNum sampleDiff) = sampleDiff.length ∧
    specSignStageDraws sampleDiff +
      ((groupsDiffNum sampleDiff).filter (fun L => decide (L = 1))).length =
      sampleDiff.length :=
  ⟨by decide, by decide,
    sign_stage_draw_count exactMpf 15 zeroBlocksU zeroBlocksX sampleDiff sampleTempRp1 0
      (by decide) (by decide)⟩

/-- C22: the sign partition is recomputed identically.  For every DC-difference sequence
and every descriptor sequence with at least `block_sum` entries, the forward sign-group
stage keeps the length and leaves the sign class (`>= 0` or `< 0`) of the value at every
position unchanged, so the group sizes computed from the scrambled sequence are the group
sizes computed from the original. -/
theorem sign_classes_stable (temp_rp1 : List randSequence) (diff : List Int)
    (ht : diff.length ≤ temp_rp1.length) :
    (signGroupStage temp_rp1 diff).length = diff.length ∧
    (∀ i : Nat, signClass ((signGroupStage temp_rp1 diff).getD i 0) =
      signClass (diff.getD i 0)) ∧
    (∀ a : Int, signClass a = true ↔ a ≥ 0) ∧
    groupsDiffNum (signGroupStage temp_rp1 diff) = groupsDiffNum diff := by
  have hsign := signGroupStage_sign temp_rp1 diff ht
  refine ⟨length_signGroupStage temp_rp1 diff, ?_, ?_, groupsDiffNum_congr _ _ hsign⟩
  · intro i
    rw [← map_getD signClass 0, ← map_getD signClass 0, hsign]
  · intro a
    simp [signClass]

/-- The sign classes of the example scenario after the sign-group stage. -/
theorem sign_classes_stable_witness :
    sampleDiff.length ≤ sampleTempRp1.length ∧
    (signGroupStage sampleTempRp1 sampleDiff).length = sampleDiff.length ∧
    (∀ i : Nat, signClass ((signGroupStage sampleTempRp1 sampleDiff).getD i 0) =
      signClass (sampleDiff.getD i 0)) ∧
    (∀ a : Int, signClass a = true ↔ a ≥ 0) ∧
    groupsDiffNum (signGroupStage sampleTempRp1 sampleDiff) = groupsDiffNum sampleDiff :=
  ⟨by decide, sign_classes_stable sampleTempRp1 sampleDiff (by decide)⟩

/-- C23: swap step semantics.  For every window `g` of iteration `t` that lies inside the
array, with left half `L` and right half `R`: when every partial sum, accumulated from 0,
of `R` followed by `L` lies in `[floor_dc, ceiling_dc]` and the index `rp[t - 1][g].number`
is odd, the step of `dccIterSwap` replaces the window by `R` followed by `L` and leaves
the rest of the array as it is; otherwise the array is unchanged. -/
theorem swap_step_semantics (ceiling_dc floor_dc : Int) (rp : List (List randSequence))
    (diff : List Int) (t g : Nat) (h : 2 * t * (g + 1) ≤ diff.length) :
    (((∀ s ∈ runningSums (slice diff (2 * t * g + t) (2 * (g + 1) * t) ++
          slice diff (2 * t * g) (2 * t * g + t)) 0, floor_dc ≤ s ∧ s ≤ ceiling_dc) ∧
        ((rp.getD (t - 1) []).getD g ⟨0, 0⟩).number % 2 = 1) →
      swapGroup ceiling_dc floor_dc t (rp.getD (t - 1) []) diff g =
        diff.take (2 * t * g) ++ (slice diff (2 * t * g + t) (2 * (g + 1) * t) ++
          (slice diff (2 * t * g) (2 * t * g + t) ++ diff.drop (2 * t * (g + 1)))) ∧
      slice (swapGroup ceiling_dc floor_dc t (rp.getD (t - 1) []) diff g)
          (2 * t * g) (2 * (g + 1) * t) =
        slice diff (2 * t * g + t) (2 * (g + 1) * t) ++
          slice diff (2 * t * g) (2 * t * g + t)) ∧
    (¬ ((∀ s ∈ runningSums (slice diff (2 * t * g + t) (2 * (g + 1) * t) ++
          slice diff (2 * t * g) (2 * t * g + t)) 0, floor_dc ≤ s ∧ s ≤ ceiling_dc) ∧
        ((rp.getD (t - 1) []).getD g ⟨0, 0⟩).number % 2 = 1) →
      swapGroup ceiling_dc floor_dc t (rp.getD (t - 1) []) diff g = diff) := by
  constructor
  · intro hc
    have hcan := (canSwap_iff ceiling_dc floor_dc diff t g).mpr hc.1
    exact ⟨swapGroup_swapped _ _ _ _ _ _ h hcan hc.2,
      slice_swapGroup_swapped _ _ _ _ _ _ h hcan hc.2⟩
  · intro hno
    apply swapGroup_unswapped
    intro hsw
    exact hno ⟨(canSwap_iff ceiling_dc floor_dc diff t g).mp hsw.1, hsw.2⟩

/-- The swap step at the two windows of `[8, 0, -5, 5]` in iteration 1: the second
window, whose index is odd and whose sums `5, 0` are in range, becomes `[5, -5]`. -/
theorem swap_step_semantics_witness :
    2 * 1 * (1 + 1) ≤ ([8, 0, -5, 5] : List Int).length ∧
    swapGroup 10 (-10) 1 (sampleRp.getD (1 - 1) []) [8, 0, -5, 5] 1 = [8, 0, 5, -5] ∧
    (((∀ s ∈ runningSums (slice [8, 0, -5, 5] (2 * 1 * 1 + 1) (2 * (1 + 1) * 1) ++
          slice [8, 0, -5, 5] (2 * 1 * 1) (2 * 1 * 1 + 1)) 0, -10 ≤ s ∧ s ≤ 10) ∧
        ((sampleRp.getD (1 - 1) []).getD 1 ⟨0, 0⟩).number % 2 = 1) →
      swapGroup 10 (-10) 1 (sampleRp.getD (1 - 1) []) [8, 0, -5, 5] 1 =
        ([8, 0, -5, 5] : List Int).take (2 * 1 * 1) ++
          (slice [8, 0, -5, 5] (2 * 1 * 1 + 1) (2 * (1 + 1) * 1) ++
          (slice [8, 0, -5, 5] (2 * 1 * 1) (2 * 1 * 1 + 1) ++
            ([8, 0, -5, 5] : List Int).drop (2 * 1 * (1 + 1)))) ∧
      slice (swapGroup 10 (-10) 1 (sampleRp.getD (1 - 1) []) [8, 0, -5, 5] 1)
          (2 * 1 * 1) (2 * (1 + 1) * 1) =
        slice [8, 0, -5, 5] (2 * 1 * 1 + 1) (2 * (1 + 1) * 1) ++
          slice [8, 0, -5, 5] (2 * 1 * 1) (2 * 1 * 1 + 1)) ∧
    (¬ ((∀ s ∈ runningSums (slice [8, 0, -5, 5] (2 * 1 * 1 + 1) (2 * (1 + 1) * 1) ++
          slice [8, 0, -5, 5] (2 * 1 * 1) (2 * 1 * 1 + 1)) 0, -10 ≤ s ∧ s ≤ 10) ∧
        ((sampleRp.getD (1 - 1) []).getD 1 ⟨0, 0⟩).number % 2 = 1) →
      swapGroup 10 (-10) 1 (sampleRp.getD (1 - 1) []) [8, 0, -5, 5] 1 = [8, 0, -5, 5]) :=
  ⟨by decide, by decide, swap_step_semantics 10 (-10) sampleRp [8, 0, -5, 5] 1 1 (by decide)⟩

/-- C24: window indexing is in bounds.  For every sequence of `block_sum` differences and
every iteration `t` with `1 <= t <= iter_times`: the number of windows that `dccIterSwap`
visits is `block_sum / (2 t)`, the vector `rp2[t - 1]` that `encrypt` generates has as
many entries, every window `[2 t g, 2 t (g + 1))` with `g` below that number lies inside
`[0, block_sum)`, two different windows do not overlap, and iteration `t` keeps the length
of the array and leaves every position at or beyond `2 t (block_sum / (2 t))` as it is. -/
theorem window_indexing_in_bounds (ceiling_dc floor_dc : Int) (rp : List (List randSequence))
    (iter_times : Nat) (diff : List Int) (t : Nat) (h1 : 1 ≤ t) (h2 : t ≤ iter_times) :
    (itersGroupNum iter_times diff.length).getD (t - 1) 0 = diff.length / (2 * t) ∧
    (∀ (M : Mpf) (u x : ℚ),
      ((dcSchedule M iter_times u x diff.length).2.1.getD (t - 1) []).length =
        diff.length / (2 * t)) ∧
    (∀ g : Nat, g < diff.length / (2 * t) →
      2 * t * g + t ≤ 2 * (g + 1) * t ∧ 2 * (g + 1) * t ≤ diff.length) ∧
    (∀ g g' : Nat, g < g' → 2 * (g + 1) * t ≤ 2 * t * g') ∧
    (swapIteration ceiling_dc floor_dc rp (itersGroupNum iter_times diff.length) diff t).length =
      diff.length ∧
    (∀ p : Nat, 2 * t * (diff.length / (2 * t)) ≤ p →
      (swapIteration ceiling_dc floor_dc rp (itersGroupNum iter_times diff.length) diff t).getD
        p 0 = diff.getD p 0) := by
  have hc : t * 2 = 2 * t := Nat.mul_comm _ _
  have hG := itersGroupNum_getD iter_times diff.length t h1 h2
  rw [hc] at hG
  refine ⟨hG, ?_, ?_, ?_, length_swapIteration _ _ _ _ _ _ _ h1 h2 rfl, ?_⟩
  · intro M u x
    unfold dcSchedule
    simp only []
    rw [length_drawMany_getD, hG]
  · intro g hg
    have hle := window_count_le diff.length t
    rw [hc] at hle
    have hg1 : g + 1 ≤ diff.length / (2 * t) := hg
    have hm : 2 * t * (g + 1) ≤ 2 * t * (diff.length / (2 * t)) := Nat.mul_le_mul_left _ hg1
    have e1 : 2 * (g + 1) * t = 2 * t * (g + 1) := by ring
    have e2 : 2 * t * (g + 1) = 2 * t * g + t + t := by ring
    omega
  · intro g g' hgg
    have hm : 2 * t * (g + 1) ≤ 2 * t * g' := Nat.mul_le_mul_left _ hgg
    have e1 : 2 * (g + 1) * t = 2 * t * (g + 1) := by ring
    omega
  · intro p hp
    exact swapIteration_getD_tail _ _ _ _ _ _ h1 h2 p (by rw [hc]; exact hp)

/-- Window indexing for five differences in iteration 1: two windows, position 4 is
behind the last window. -/
theorem window_indexing_in_bounds_witness :
    1 ≤ 1 ∧ 1 ≤ 15 ∧
    (itersGroupNum 15 ([8, 0, -5, 5, 7] : List Int).length).getD (1 - 1) 0 =
      ([8, 0, -5, 5, 7] : List Int).length / (2 * 1) ∧
    (∀ (M : Mpf) (u x : ℚ),
      ((dcSchedule M 15 u x ([8, 0, -5, 5, 7] : List Int).length).2.1.getD (1 - 1) []).length =
        ([8, 0, -5, 5, 7] : List Int).length / (2 * 1)) ∧
    (∀ g : Nat, g < ([8, 0, -5, 5, 7] : List Int).length / (2 * 1) →
      2 * 1 * g + 1 ≤ 2 * (g + 1) * 1 ∧
        2 * (g + 1) * 1 ≤ ([8, 0, -5, 5, 7] : List Int).length) ∧
    (∀ g g' : Nat, g < g' → 2 * (g + 1) * 1 ≤ 2 * 1 * g') ∧
    (swapIteration 10 (-10) sampleRp (itersGroupNum 15 ([8, 0, -5, 5, 7] : List Int).length)
      [8, 0, -5, 5, 7] 1).length = ([8, 0, -5, 5, 7] : List Int).length ∧
    (∀ p : Nat, 2 * 1 * (([8, 0, -5, 5, 7] : List Int).length / (2 * 1)) ≤ p →
      (swapIteration 10 (-10) sampleRp (itersGroupNum 15 ([8, 0, -5, 5, 7] : List Int).length)
        [8, 0, -5, 5, 7] 1).getD p 0 = ([8, 0, -5, 5, 7] : List Int).getD p 0) :=
  ⟨by decide, by decide,
    window_indexing_in_bounds 10 (-10) sampleRp 15 [8, 0, -5, 5, 7] 1 (by decide)
      (by decide)⟩

/-- C25: run-class positions are stable.  For every list of AC blocks and index vectors
`rp` whose class `r` is a rearrangement of `[0, runs_ac_num[r])`, the blocks after
`scrambleSameRunAcc` have the lengths of the original blocks and a coefficient that is
zero exactly at the positions where the original has a zero, so the positions recorded
for every class and the class counts, recomputed from the scrambled blocks, are those
computed from the original blocks. -/
theorem run_class_positions_stable (ceiling_run : Nat) (rp : List (List randSequence))
    (ac : List (List Int))
    (hrp : ∀ r, r < ceiling_run → ((rp.getD r []).map (fun p => p.number)).Perm
      (List.range ((countRuns ceiling_run ac).getD r 0))) :
    (scrambleSameRunAcc ceiling_run rp ac (recordRuns ceiling_run ac)
      (countRuns ceiling_run ac)).map List.length = ac.map List.length ∧
    (∀ b z : Nat, getAc (scrambleSameRunAcc ceiling_run rp ac (recordRuns ceiling_run ac)
      (countRuns ceiling_run ac)) b z = 0 ↔ getAc ac b z = 0) ∧
    (∀ r : Nat, ((recordRuns ceiling_run (scrambleSameRunAcc ceiling_run rp ac
        (recordRuns ceiling_run ac) (countRuns ceiling_run ac))).getD r []).map infoPos =
      ((recordRuns ceiling_run ac).getD r []).map infoPos) ∧
    countRuns ceiling_run (scrambleSameRunAcc ceiling_run rp ac (recordRuns ceiling_run ac)
      (countRuns ceiling_run ac)) = countRuns ceiling_run ac := by
  have hz := scrambleSameRunAcc_zeroPattern ceiling_run rp ac hrp
  refine ⟨(scrambleSameRunAcc_spec ceiling_run rp ac hrp).1, ?_,
    fun r => recordRuns_pattern ceiling_run _ _ hz r, countRuns_pattern ceiling_run _ _ hz⟩
  intro b z
  have h1 := zeroPattern_getAc (scrambleSameRunAcc ceiling_run rp ac (recordRuns ceiling_run ac)
    (countRuns ceiling_run ac)) b z
  have h2 := zeroPattern_getAc ac b z
  rw [hz, h2] at h1
  exact (decide_eq_decide.mp h1).symm

/-- The positions of the run-length classes of six sample blocks, every class being
reversed. -/
theorem run_class_positions_stable_witness :
    (∀ r, r < 63 → ((sampleRp3.getD r []).map (fun p => p.number)).Perm
      (List.range ((countRuns 63 sampleAc).getD r 0))) ∧
    (scrambleSameRunAcc 63 sampleRp3 sampleAc (recordRuns 63 sampleAc)
      (countRuns 63 sampleAc)).map List.length = sampleAc.map List.length ∧
    (∀ b z : Nat, getAc (scrambleSameRunAcc 63 sampleRp3 sampleAc (recordRuns 63 sampleAc)
      (countRuns 63 sampleAc)) b z = 0 ↔ getAc sampleAc b z = 0) ∧
    (∀ r : Nat, ((recordRuns 63 (scrambleSameRunAcc 63 sampleRp3 sampleAc
        (recordRuns 63 sampleAc) (countRuns 63 sampleAc))).getD r []).map infoPos =
      ((recordRuns 63 sampleAc).getD r []).map infoPos) ∧
    countRuns 63 (scrambleSameRunAcc 63 sampleRp3 sampleAc (recordRuns 63 sampleAc)
      (countRuns 63 sampleAc)) = countRuns 63 sampleAc :=
  ⟨by decide, run_class_positions_stable 63 sampleRp3 sampleAc (by decide)⟩

/-- C26: run-class recording.  For every list of AC blocks and every `ceiling_run`: the
class `r < ceiling_run` recorded by `encrypt` is, in block-then-zigzag order, the list of
the nonzero AC coefficients preceded by exactly `r` consecutive zeros since the previous
nonzero coefficient or the block start, each with its block position, zigzag position and
value; there is no class from `ceiling_run` on; and a nonzero coefficient whose preceding
run is `>= ceiling_run` is a member of no class, is followed by a run counter of zero, and
keeps its value through `scrambleSameRunAcc`. -/
theorem run_class_recording (ceiling_run : Nat) (ac : List (List Int)) :
    (∀ r : Nat, r < ceiling_run → (recordRuns ceiling_run ac).getD r [] = specClass ac r) ∧
    (∀ (r : Nat) (e : nonZeroAcInfo), e ∈ specClass ac r ↔
      e.blockPosition < ac.length ∧
      e.zigzagPosition < (ac.getD e.blockPosition []).length ∧
      e.value = getAc ac e.blockPosition e.zigzagPosition ∧ e.value ≠ 0 ∧
      zeroRunBefore (ac.getD e.blockPosition []) e.zigzagPosition = r) ∧
    (∀ r : Nat, ceiling_run ≤ r → (recordRuns ceiling_run ac).getD r [] = []) ∧
    (∀ b z : Nat, b < ac.length → z < (ac.getD b []).length → getAc ac b z ≠ 0 →
      ceiling_run ≤ zeroRunBefore (ac.getD b []) z →
      (∀ r : Nat, ∀ e ∈ (recordRuns ceiling_run ac).getD r [], infoPos e ≠ (b, z)) ∧
      zeroRunBefore (ac.getD b []) (z + 1) = 0 ∧
      ∀ rp : List (List randSequence),
        (∀ r, r < ceiling_run → ((rp.getD r []).map (fun p => p.number)).Perm
          (List.range ((countRuns ceiling_run ac).getD r 0))) →
        getAc (scrambleSameRunAcc ceiling_run rp ac (recordRuns ceiling_run ac)
          (countRuns ceiling_run ac)) b z = getAc ac b z) := by
  refine ⟨fun r hr => recordRuns_specClass ceiling_run ac r hr,
    fun r e => specClass_mem ac r e,
    fun r hr => recordRuns_getD_ge ceiling_run ac r hr, ?_⟩
  intro b z _ hz hv hrun
  refine ⟨fun r => unrecorded_not_member ceiling_run ac b z hrun r,
    zeroRunBefore_after_nonzero _ z hz hv, ?_⟩
  intro rp hrp
  apply (scrambleSameRunAcc_spec ceiling_run rp ac hrp).2.2 b z
  intro r _ i hi
  unfold classPos
  rw [List.getD_eq_getElem _ _ hi]
  exact unrecorded_not_member ceiling_run ac b z hrun r _ (List.getElem_mem _)

/-- The classes of six sample blocks with `ceiling_run = 2`: class 1 holds the value 5 of
block 0 and the value 2 of block 1; the value 3 at position 4 of block 0, preceded by two
zeros, is in no class. -/
theorem run_class_recording_witness :
    (recordRuns 2 sampleAc).getD 1 [] = [⟨0, 1, 5⟩, ⟨1, 2, 2⟩] ∧
    specClass sampleAc 1 = [⟨0, 1, 5⟩, ⟨1, 2, 2⟩] ∧
    zeroRunBefore (sampleAc.getD 0 []) 4 = 2 ∧
    ∀ r : Nat, ∀ e ∈ (recordRuns 2 sampleAc).getD r [], infoPos e ≠ (0, 4) :=
  ⟨by decide, ((run_class_recording 2 sampleAc).1 1 (by decide)).symm.trans (by decide),
    by decide,
    ((run_class_recording 2 sampleAc).2.2.2 0 4 (by decide) (by decide) (by decide)
      (by decide)).1⟩

/-- C27: block scramble forward.  For every list of `block_sum` AC blocks and every
descriptor sequence `rp` whose indices are a rearrangement of `[0, block_sum)`, after
`scrambleMcuNoDcc` there are `block_sum` blocks, block `i` is the original block
`rp[i].number`, which is a block of the input, and the output is a rearrangement of the
input blocks. -/
theorem block_scramble_forward (rp : List randSequence) (ac : List (List Int))
    (hrp : (rp.map (fun r => r.number)).Perm (List.range ac.length)) :
    (scrambleMcuNoDcc rp ac).length = ac.length ∧
    (∀ i : Nat, i < ac.length →
      (rp.getD i ⟨0, 0⟩).number < ac.length ∧
      (scrambleMcuNoDcc rp ac).getD i [] = ac.getD (rp.getD i ⟨0, 0⟩).number []) ∧
    (scrambleMcuNoDcc rp ac).Perm ac := by
  refine ⟨length_scrambleMcuNoDcc rp ac, ?_, scrambleMcuNoDcc_perm rp ac hrp⟩
  intro i hi
  refine ⟨?_, scrambleMcuNoDcc_getD rp ac i hi⟩
  rw [number_getD]
  exact perm_range_lt _ _ hrp i hi

/-- The block scramble on six sample blocks. -/
theorem block_scramble_forward_witness :
    (sampleRp4.map (fun r => r.number)).Perm (List.range sampleAc.length) ∧
    (scrambleMcuNoDcc sampleRp4 sampleAc).length = sampleAc.length ∧
    (∀ i : Nat, i < sampleAc.length →
      (sampleRp4.getD i ⟨0, 0⟩).number < sampleAc.length ∧
      (scrambleMcuNoDcc sampleRp4 sampleAc).getD i [] =
        sampleAc.getD (sampleRp4.getD i ⟨0, 0⟩).number []) ∧
    (scrambleMcuNoDcc sampleRp4 sampleAc).Perm sampleAc :=
  ⟨by decide, block_scramble_forward sampleRp4 sampleAc (by decide)⟩

/-- C28: key digit derivation.  For every vector of 512 bits, each of the two 256-bit
fields (from bit 0 for `x0`, from bit 256 for `u`) yields 29 digits: digit `i < 28` is the
population count of the 9 bits from `9 i` on, at most 9, and digit 28 is the population
count of the 4 bits from 252 on, at most 4; `x0` is the conversion of the decimal numeral
`0.52` followed by the digits of the first field and `u` the conversion of `3.72` followed
by the digits of the second field, each digit `i` of the fraction weighing
`10 ^ (-(i + 1))`. -/
theorem key_digit_derivation (hashBool : List Bool) (h512 : hashBool.length = 512) :
    (∀ offset : Nat, offset = 0 ∨ offset = 256 →
      (keyDigits hashBool offset).length = 29 ∧
      (∀ i : Nat, i < 28 →
        (keyDigits hashBool offset).getD i 0 =
          popCount (slice hashBool (offset + 9 * i) (offset + 9 * i + 9)) ∧
        (keyDigits hashBool offset).getD i 0 ≤ 9) ∧
      (keyDigits hashBool offset).getD 28 0 =
        popCount (slice hashBool (offset + 252) (offset + 252 + 4)) ∧
      (keyDigits hashBool offset).getD 28 0 ≤ 4) ∧
    (∀ M : Mpf, initializeKey M hashBool =
      (M.ofDecimal (decimalValue 0 ([5, 2] ++ keyDigits hashBool 0)),
        M.ofDecimal (decimalValue 3 ([7, 2] ++ keyDigits hashBool 256)))) ∧
    (initializeKey exactMpf hashBool).1 =
      ((List.range 31).map (fun i =>
        ((([5, 2] ++ keyDigits hashBool 0).getD i 0 : Nat) : ℚ) / (10 : ℚ) ^ (i + 1))).sum ∧
    (initializeKey exactMpf hashBool).2 =
      3 + ((List.range 31).map (fun i =>
        ((([7, 2] ++ keyDigits hashBool 256).getD i 0 : Nat) : ℚ) / (10 : ℚ) ^ (i + 1))).sum := by
  refine ⟨fun offset ho => keyDigits_field hashBool h512 offset ho, fun M => rfl, ?_, ?_⟩
  · have h := decimalValue_expand 0 ([5, 2] ++ keyDigits hashBool 0)
    rw [List.length_append, length_keyDigits] at h
    simp only [List.length_cons, List.length_nil, Nat.cast_zero, zero_add] at h
    exact h
  · have h := decimalValue_expand 3 ([7, 2] ++ keyDigits hashBool 256)
    rw [List.length_append, length_keyDigits] at h
    simp only [List.length_cons, List.length_nil, Nat.cast_ofNat] at h
    exact h

/-- The key digits of the vector of 512 set bits: 28 digits 9 and one digit 4 per field. -/
theorem key_digit_derivation_witness :
    (List.replicate 512 true).length = 512 ∧
    keyDigits (List.replicate 512 true) 0 = List.replicate 28 9 ++ [4] ∧
    ∀ offset : Nat, offset = 0 ∨ offset = 256 →
      (keyDigits (List.replicate 512 true) offset).length = 29 ∧
      (∀ i : Nat, i < 28 →
        (keyDigits (List.replicate 512 true) offset).getD i 0 =
          popCount (slice (List.replicate 512 true) (offset + 9 * i) (offset + 9 * i + 9)) ∧
        (keyDigits (List.replicate 512 true) offset).getD i 0 ≤ 9) ∧
      (keyDigits (List.replicate 512 true) offset).getD 28 0 =
        popCount (slice (List.replicate 512 true) (offset + 252) (offset + 252 + 4)) ∧
      (keyDigits (List.replicate 512 true) offset).getD 28 0 ≤ 4 :=
  ⟨List.length_replicate 512 true, by decide,
    (key_digit_derivation (List.replicate 512 true) (List.length_replicate 512 true)).1⟩

/-- C29: feature histogram.  For every list of blocks of coefficients, the histogram of
`getImageFeature` has 64 bins, bin `k` (`0 <= k <= 63`) is the number of blocks with
exactly `k` nonzero coefficients among the 63 AC positions `1, ..., 63`, the bins add up
to the number of blocks, the coefficient at the DC position 0 has no influence, and the
histogram is the histogram of the zigzag-ordered AC lists that `encrypt` works on. -/
theorem feature_histogram_bins (blocks : List (List Int)) :
    (imageFeatureVec blocks).length = 64 ∧
    (∀ k : Nat, k < 64 → (imageFeatureVec blocks).getD k 0 =
      blocks.countP (fun coef => decide (nonZeroAmongAc coef = k))) ∧
    (imageFeatureVec blocks).sum = blocks.length ∧
    (∀ (coef : List Int) (v : Int),
      blockAcCount coef = nonZeroAmongAc coef ∧
      nonZeroAmongAc (coef.set 0 v) = nonZeroAmongAc coef ∧ nonZeroAmongAc coef ≤ 63) ∧
    imageFeatureVec blocks = featureHistogram (blocks.map extractAc) := by
  refine ⟨?_, fun k _ => imageFeatureVec_getD blocks k, imageFeatureVec_sum blocks,
    fun coef v => ⟨blockAcCount_eq coef, nonZeroAmongAc_set_zero coef v,
      nonZeroAmongAc_le coef⟩, imageFeatureVec_eq blocks⟩
  rw [imageFeatureVec_eq, length_featureHistogram]

/-- The histogram of three sample blocks: one block without nonzero AC coefficients and
two blocks with exactly one. -/
theorem feature_histogram_bins_witness :
    imageFeatureVec sampleCoef = [1, 2] ++ List.replicate 62 0 ∧
    (imageFeatureVec sampleCoef).sum = sampleCoef.length ∧
    (∀ k : Nat, k < 64 → (imageFeatureVec sampleCoef).getD k 0 =
      sampleCoef.countP (fun coef => decide (nonZeroAmongAc coef = k))) :=
  ⟨by decide, (feature_histogram_bins sampleCoef).2.2.1, (feature_histogram_bins sampleCoef).2.1⟩

/-- C30: zigzag table.  The array `zigzag` has 63 entries and is the zigzag scan of an 8x8
block, which starts at the DC position 0, with that first position removed: entry `i` is
the row-major index of position `i + 1` of the scan; its entries are pairwise distinct and
are exactly the integers `1, ..., 63`. -/
theorem zigzag_table :
    zigzag.length = 63 ∧ zigzagScan.length = 64 ∧ zigzagScan.head? = some 0 ∧
    zigzag = zigzagScan.tail ∧
    (∀ i : Nat, i < 63 → zigzag.getD i 0 = zigzagScan.getD (i + 1) 0) ∧
    zigzag.Nodup ∧ zigzag.Perm (List.range' 1 63) ∧
    (∀ k : Nat, k ∈ zigzag ↔ 1 ≤ k ∧ k ≤ 63) := by
  have ht : zigzag = zigzagScan.tail := by decide
  refine ⟨by decide, by decide, by decide, ht, ?_, ?_, zigzag_perm, ?_⟩
  · intro i _
    rw [ht]
    have hs : zigzagScan = 0 :: zigzagScan.tail := by decide
    conv => rhs; rw [hs, List.getD_cons_succ]
  · exact zigzag_perm.nodup_iff.mpr (List.nodup_range' 1 63)
  · intro k
    rw [zigzag_perm.mem_iff, List.mem_range'_1]
    omega

/-- C31: extraction and write-back are inverse.  For every array of blocks of 64
coefficients whose DC coefficients are 16-bit values, every even `block_height` and
`block_width`, and for the luma traversal as well as the raster traversal: the
extraction loop yields `block_sum` differences and `block_sum` AC lists, entry `i` being
the DC value of block `i` of the traversal minus the DC value of the block before it
(minus 0 for the first), stored as `JCOEF`, and the AC values of block `i` through the scan
table; the write-back loop run on them unchanged (DC as the running sum of the
differences, AC through the scan table), into any target array that has blocks of 64
coefficients at the positions of the grid, produces the blocks of the original array at
every position of the grid, coefficient by coefficient, and leaves the target as it is
outside the grid; written into the original array it leaves that array as it is. -/
theorem extract_write_back (block_array target : List (List (List Int)))
    (block_height block_width : Nat)
    (hH : block_height % 2 = 0) (hW : block_width % 2 = 0)
    (hsrc : ∀ p ∈ rasterOrder block_height block_width,
      (getBlock block_array p.1 p.2).length = 64 ∧
      -32768 ≤ (getBlock block_array p.1 p.2).getD 0 0 ∧
        (getBlock block_array p.1 p.2).getD 0 0 ≤ 32767)
    (htgt : ∀ p ∈ rasterOrder block_height block_width,
      p.1 < target.length ∧ p.2 < (target.getD p.1 []).length ∧
        (getBlock target p.1 p.2).length = 64) :
    ∀ order : List (Nat × Nat),
      order = lumaOrder block_height block_width ∨
        order = rasterOrder block_height block_width →
      (extractLoop block_array order 0).1.length = block_height * block_width ∧
      (extractLoop block_array order 0).2.length = block_height * block_width ∧
      (∀ i : Nat, i < block_height * block_width →
        (extractLoop block_array order 0).1.getD i 0 =
          toJcoef ((getBlock block_array (order.getD i (0, 0)).1
              (order.getD i (0, 0)).2).getD 0 0 -
            (if i = 0 then 0
             else (getBlock block_array (order.getD (i - 1) (0, 0)).1
               (order.getD (i - 1) (0, 0)).2).getD 0 0)) ∧
        (extractLoop block_array order 0).2.getD i [] =
          extractAc (getBlock block_array (order.getD i (0, 0)).1 (order.getD i (0, 0)).2)) ∧
      (∀ h w : Nat, h < block_height → w < block_width →
        getBlock (writeBackLoop (extractLoop block_array order 0).1
          (extractLoop block_array order 0).2 order 0 0 target) h w =
          getBlock block_array h w) ∧
      (∀ h w : Nat, ¬ (h < block_height ∧ w < block_width) →
        getBlock (writeBackLoop (extractLoop block_array order 0).1
          (extractLoop block_array order 0).2 order 0 0 target) h w = getBlock target h w) ∧
      writeBackLoop (extractLoop block_array order 0).1 (extractLoop block_array order 0).2
        order 0 0 block_array = block_array := by
  intro order ho
  have hmem : ∀ h w : Nat, (h, w) ∈ order ↔ h < block_height ∧ w < block_width := by
    intro h w
    rcases ho with e | e
    · rw [e]; exact mem_lumaOrder _ _ h w hH hW
    · rw [e]; exact mem_rasterOrder _ _ h w
  have hnd : order.Nodup := by
    rcases ho with e | e
    · rw [e]; exact nodup_lumaOrder _ _
    · rw [e]; exact nodup_rasterOrder _ _
  have hlen : order.length = block_height * block_width := by
    rcases ho with e | e
    · rw [e]; exact length_lumaOrder _ _ hH hW
    · rw [e]; exact length_rasterOrder _ _
  have hin : ∀ p ∈ order, p ∈ rasterOrder block_height block_width := by
    intro p hp
    obtain ⟨h, w⟩ := p
    exact (mem_rasterOrder _ _ h w).mpr ((hmem h w).mp hp)
  have hl := length_extractLoop block_array order 0
  rw [hlen] at hl
  have ht := writeBackLoop_target block_array order [] [] 0 target rfl hnd
    (fun p hp => hsrc p (hin p hp)) (fun p hp => htgt p (hin p hp))
  simp only [List.nil_append, List.length_nil] at ht
  have hb := writeBackLoop_extractLoop block_array order [] [] 0 rfl
    (fun p hp => (hsrc p (hin p hp)).2)
  simp only [List.nil_append, List.length_nil] at hb
  refine ⟨hl.1, hl.2, ?_, ?_, ?_, hb⟩
  · intro i hi
    exact extractLoop_getD block_array order 0 i (by rw [hlen]; exact hi)
  · intro h w hh hw
    exact ht.1 (h, w) ((hmem h w).mpr ⟨hh, hw⟩)
  · intro h w hn
    exact ht.2 h w (fun hm => hn ((hmem h w).mp hm))

/-- Extraction from a grid of two by two blocks and write-back into a grid filled with
the value 9: the second difference, `-30000 - 30000`, is stored as `5536`, and the target
becomes the original grid. -/
theorem extract_write_back_witness :
    2 % 2 = 0 ∧
    (∀ p ∈ rasterOrder 2 2, (getBlock sampleGrid p.1 p.2).length = 64 ∧
      -32768 ≤ (getBlock sampleGrid p.1 p.2).getD 0 0 ∧
        (getBlock sampleGrid p.1 p.2).getD 0 0 ≤ 32767) ∧
    (∀ p ∈ rasterOrder 2 2, p.1 < sampleTarget.length ∧
      p.2 < (sampleTarget.getD p.1 []).length ∧ (getBlock sampleTarget p.1 p.2).length = 64) ∧
    (extractLoop sampleGrid (rasterOrder 2 2) 0).1 = [30000, 5536, 30007, -10] ∧
    writeBackLoop (extractLoop sampleGrid (lumaOrder 2 2) 0).1
      (extractLoop sampleGrid (lumaOrder 2 2) 0).2 (lumaOrder 2 2) 0 0 sampleTarget =
      sampleGrid ∧
    (∀ h w : Nat, h < 2 → w < 2 →
      getBlock (writeBackLoop (extractLoop sampleGrid (lumaOrder 2 2) 0).1
        (extractLoop sampleGrid (lumaOrder 2 2) 0).2 (lumaOrder 2 2) 0 0 sampleTarget) h w =
        getBlock sampleGrid h w) :=
  ⟨by decide, by decide, by decide, by decide, by decide,
    (extract_write_back sampleGrid sampleTarget 2 2 (by decide) (by decide) (by decide)
      (by decide) (lumaOrder 2 2) (Or.inl rfl)).2.2.2.1⟩

/-- C32: block traversal covers the grid once.  For even `block_height` and `block_width`,
the luma traversal in 2x2 sub-groups and the raster traversal each have
`block_sum = block_height * block_width` entries, visit no position twice, visit exactly
the positions `(h, w)` with `h < block_height` and `w < block_width`, and so give every
block of the grid exactly one index below `block_sum`; the dimensions that the program
uses are even. -/
theorem traversal_covers_grid (block_height block_width : Nat)
    (hH : block_height % 2 = 0) (hW : block_width % 2 = 0) :
    ((lumaOrder block_height block_width).length = block_height * block_width ∧
      (lumaOrder block_height block_width).Nodup ∧
      (∀ h w : Nat, (h, w) ∈ lumaOrder block_height block_width ↔
        h < block_height ∧ w < block_width) ∧
      (∀ h w : Nat, h < block_height → w < block_width →
        ∃ i : Nat, i < block_height * block_width ∧
          (lumaOrder block_height block_width).getD i (0, 0) = (h, w) ∧
          ∀ j : Nat, j < block_height * block_width →
            (lumaOrder block_height block_width).getD j (0, 0) = (h, w) → j = i)) ∧
    ((rasterOrder block_height block_width).length = block_height * block_width ∧
      (rasterOrder block_height block_width).Nodup ∧
      (∀ h w : Nat, (h, w) ∈ rasterOrder block_height block_width ↔
        h < block_height ∧ w < block_width) ∧
      (∀ h w : Nat, h < block_height → w < block_width →
        ∃ i : Nat, i < block_height * block_width ∧
          (rasterOrder block_height block_width).getD i (0, 0) = (h, w) ∧
          ∀ j : Nat, j < block_height * block_width →
            (rasterOrder block_height block_width).getD j (0, 0) = (h, w) → j = i)) ∧
    (∀ n : Nat, evenDim n % 2 = 0) := by
  refine ⟨⟨length_lumaOrder _ _ hH hW, nodup_lumaOrder _ _,
    fun h w => mem_lumaOrder _ _ h w hH hW, ?_⟩,
    ⟨length_rasterOrder _ _, nodup_rasterOrder _ _, fun h w => mem_rasterOrder _ _ h w, ?_⟩,
    fun n => (evenDim_even n).1⟩
  · intro h w hh hw
    have := index_unique _ (nodup_lumaOrder block_height block_width) (h, w)
      ((mem_lumaOrder _ _ h w hH hW).mpr ⟨hh, hw⟩)
    rw [length_lumaOrder _ _ hH hW] at this
    exact this
  · intro h w hh hw
    have := index_unique _ (nodup_rasterOrder block_height block_width) (h, w)
      ((mem_rasterOrder _ _ h w).mpr ⟨hh, hw⟩)
    rw [length_rasterOrder] at this
    exact this

/-- The two traversals of a grid of two rows of four blocks. -/
theorem traversal_covers_grid_witness :
    2 % 2 = 0 ∧ 4 % 2 = 0 ∧
    lumaOrder 2 4 = [(0, 0), (0, 1), (1, 0), (1, 1), (0, 2), (0, 3), (1, 2), (1, 3)] ∧
    rasterOrder 2 4 = [(0, 0), (0, 1), (0, 2), (0, 3), (1, 0), (1, 1), (1, 2), (1, 3)] ∧
    (lumaOrder 2 4).length = 2 * 4 ∧ (lumaOrder 2 4).Nodup ∧
    (∀ h w : Nat, (h, w) ∈ lumaOrder 2 4 ↔ h < 2 ∧ w < 4) :=
  ⟨by decide, by decide, by decide, by decide,
    (traversal_covers_grid 2 4 (by decide) (by decide)).1.1,
    (traversal_covers_grid 2 4 (by decide) (by decide)).1.2.1,
    (traversal_covers_grid 2 4 (by decide) (by decide)).1.2.2.1⟩

/-- C33, counterexample: with the DC quantisation step 16 the bounds are
`ceiling_dc = 64` and `floor_dc = -64`, and the value 64, which lies between them,
dequantises to 1024, above 1016; with the step 5 the lower bound is `floor_dc = -205`,
which dequantises to -1025, below -1024. -/
theorem dc_bounds_leave_range :
    ceilingDc 16 = 64 ∧ floorDc 16 = -64 ∧
    (floorDc 16 ≤ 64 ∧ (64 : Int) ≤ ceilingDc 16 ∧ ¬ ((64 : Int) * 16 ≤ 1016)) ∧
    ceilingDc 5 = 203 ∧ floorDc 5 = -205 ∧
    (floorDc 5 ≤ -205 ∧ (-205 : Int) ≤ ceilingDc 5 ∧ ¬ (-1024 ≤ (-205 : Int) * 5)) := by
  decide!

/-- C33, amended: for every quantisation step `q >= 1` the bounds `ceiling_dc = round(1016 / q)`
and `floor_dc = round(-1024 / q)` are the quantised extremes of the range: `ceiling_dc * q`
lies within `q / 2` of 1016 and `floor_dc * q` within `q / 2` of -1024.  Every integer `v`
with `floor_dc <= v <= ceiling_dc` dequantises to within half a step of the range,
`-1024 - q / 2 <= v * q <= 1016 + q / 2`, and every `v` strictly between the bounds
dequantises inside the range, `-1024 <= v * q <= 1016`. -/
theorem dc_bounds_quantised (dc_step : Nat) (hq : 1 ≤ dc_step) :
    (2032 - (dc_step : Int) ≤ 2 * (ceilingDc dc_step * dc_step) ∧
      2 * (ceilingDc dc_step * dc_step) ≤ 2032 + (dc_step : Int)) ∧
    (-2048 - (dc_step : Int) ≤ 2 * (floorDc dc_step * dc_step) ∧
      2 * (floorDc dc_step * dc_step) ≤ -2048 + (dc_step : Int)) ∧
    (∀ v : Int, floorDc dc_step ≤ v → v ≤ ceilingDc dc_step →
      -2048 - (dc_step : Int) ≤ 2 * (v * dc_step) ∧
        2 * (v * dc_step) ≤ 2032 + (dc_step : Int)) ∧
    (∀ v : Int, floorDc dc_step < v → v < ceilingDc dc_step →
      -1024 ≤ v * dc_step ∧ v * dc_step ≤ 1016) := by
  have hq0 : (0 : Int) ≤ (dc_step : Int) := Int.ofNat_nonneg _
  have hq1 : (1 : Int) ≤ (dc_step : Int) := by exact_mod_cast hq
  obtain ⟨c1, c2⟩ := ceilingDc_near dc_step hq
  obtain ⟨f1, f2⟩ := floorDc_near dc_step hq
  refine ⟨⟨c1, c2⟩, ⟨f1, f2⟩, ?_, ?_⟩
  · intro v hv1 hv2
    have a1 := mul_le_mul_of_nonneg_right hv1 hq0
    have a2 := mul_le_mul_of_nonneg_right hv2 hq0
    constructor <;> linarith
  · intro v hv1 hv2
    have hv1' : floorDc dc_step + 1 ≤ v := hv1
    have hv2' : v + 1 ≤ ceilingDc dc_step := hv2
    have a1 := mul_le_mul_of_nonneg_right hv1' hq0
    have a2 := mul_le_mul_of_nonneg_right hv2' hq0
    rw [add_mul, one_mul] at a1 a2
    constructor <;> linarith

/-- The quantised bounds at the step 16: the bounds are 64 and -64, they dequantise to
1024 and -1024, and the values strictly between them stay inside the range. -/
theorem dc_bounds_quantised_witness :
    1 ≤ 16 ∧ ceilingDc 16 = 64 ∧ floorDc 16 = -64 ∧
    ((2032 - ((16 : Nat) : Int) ≤ 2 * (ceilingDc 16 * (16 : Nat)) ∧
      2 * (ceilingDc 16 * (16 : Nat)) ≤ 2032 + ((16 : Nat) : Int)) ∧
    (-2048 - ((16 : Nat) : Int) ≤ 2 * (floorDc 16 * (16 : Nat)) ∧
      2 * (floorDc 16 * (16 : Nat)) ≤ -2048 + ((16 : Nat) : Int)) ∧
    (∀ v : Int, floorDc 16 ≤ v → v ≤ ceilingDc 16 →
      -2048 - ((16 : Nat) : Int) ≤ 2 * (v * (16 : Nat)) ∧
        2 * (v * (16 : Nat)) ≤ 2032 + ((16 : Nat) : Int)) ∧
    (∀ v : Int, floorDc 16 < v → v < ceilingDc 16 →
      -1024 ≤ v * (16 : Nat) ∧ v * (16 : Nat) ≤ 1016)) :=
  ⟨by decide, by decide!, by decide!, dc_bounds_quantised 16 (by decide)⟩

/-- C34: guard-free DC round trip.  For every DC-difference sequence with at least one
block whose absolute values add up to at most `min(ceiling_dc, -floor_dc)`, every key and
every list of AC blocks, `encrypt` returns and `decrypt`, applied to its output with the
same key, returns the original DC-difference sequence (and the original AC blocks): no
window of the forward or of the inverse iterative swap fails the guard. -/
theorem guard_free_dc_round_trip (M : Mpf) (iter_times ceiling_run : Nat)
    (ceiling_dc floor_dc : Int) (x u : ℚ) (diff : List Int) (ac : List (List Int))
    (hn : 1 ≤ diff.length) (hsmall : absSum diff ≤ min ceiling_dc (-floor_dc)) :
    ∃ diff' ac', encrypt M iter_times ceiling_run ceiling_dc floor_dc x u diff ac =
        some (diff', ac') ∧
      decrypt M iter_times ceiling_run ceiling_dc floor_dc x u diff' ac' = some (diff, ac) ∧
      (∀ t g : Nat, 2 * t * (g + 1) ≤ diff.length →
        canSwap ceiling_dc floor_dc diff' t g = true) := by
  have hc : absSum diff ≤ ceiling_dc := le_trans hsmall (min_le_left _ _)
  have hf : absSum diff ≤ -floor_dc := le_trans hsmall (min_le_right _ _)
  have hp := encryptDc_perm M iter_times ceiling_dc floor_dc u x diff
  have hl := length_encryptDc M iter_times ceiling_dc floor_dc u x diff
  refine ⟨encryptDc M iter_times ceiling_dc floor_dc u x diff,
    encryptAc M ceiling_run u (dcSchedule M iter_times u x diff.length).2.2 ac,
    encrypt_eq_some M iter_times ceiling_run ceiling_dc floor_dc x u diff ac hn, ?_, ?_⟩
  · rw [decrypt_eq_some M iter_times ceiling_run ceiling_dc floor_dc x u _ _
      (by rw [hl]; exact hn), hl, decryptAc_encryptAc,
      decryptDc_encryptDc M iter_times ceiling_dc floor_dc u x diff hc hf]
  · intro t g hw
    exact canSwap_of_small ceiling_dc floor_dc _ t g (by rw [hl]; exact hw)
      (by rw [absSum_perm _ _ hp]; exact hc) (by rw [absSum_perm _ _ hp]; exact hf)

/-- The round trip for six differences whose absolute values add up to 9, with the
bounds 10 and -10. -/
theorem guard_free_dc_round_trip_witness :
    1 ≤ ([1, -2, 3, 0, -1, 2] : List Int).length ∧
    absSum [1, -2, 3, 0, -1, 2] ≤ min 10 (-(-10)) ∧
    ∃ diff' ac', encrypt exactMpf 15 63 10 (-10) zeroBlocksX zeroBlocksU [1, -2, 3, 0, -1, 2]
        sampleAc = some (diff', ac') ∧
      decrypt exactMpf 15 63 10 (-10) zeroBlocksX zeroBlocksU diff' ac' =
        some ([1, -2, 3, 0, -1, 2], sampleAc) ∧
      (∀ t g : Nat, 2 * t * (g + 1) ≤ ([1, -2, 3, 0, -1, 2] : List Int).length →
        canSwap 10 (-10) diff' t g = true) :=
  ⟨by decide, by decide,
    guard_free_dc_round_trip exactMpf 15 63 10 (-10) zeroBlocksX zeroBlocksU
      [1, -2, 3, 0, -1, 2] sampleAc (by decide) (by decide)⟩

/-- C35: swap decisions are balanced regardless of the key.  In every iteration `t` with
`1 <= t <= iter_times`, whatever the key and the `mpf_class` arithmetic are, the decision
values `rp2[t - 1][g].number` that `encrypt` generates are a rearrangement of
`0, ..., G - 1` with `G = block_sum / (2 t)`, so exactly `G / 2` of the windows have an odd
decision; and an iteration with a single window has the decision 0 and leaves every
sequence as it is. -/
theorem swap_decisions_balanced (M : Mpf) (iter_times : Nat) (u x : ℚ) (block_sum t : Nat)
    (h1 : 1 ≤ t) (h2 : t ≤ iter_times) :
    (((dcSchedule M iter_times u x block_sum).2.1.getD (t - 1) []).map
      (fun r => r.number)).Perm (List.range (block_sum / (2 * t))) ∧
    ((dcSchedule M iter_times u x block_sum).2.1.getD (t - 1) []).countP
      (fun r => decide (r.number % 2 = 1)) = block_sum / (2 * t) / 2 ∧
    (block_sum / (2 * t) = 1 →
      (((dcSchedule M iter_times u x block_sum).2.1.getD (t - 1) []).getD 0 ⟨0, 0⟩).number = 0 ∧
      ∀ (ceiling_dc floor_dc : Int) (diff : List Int),
        swapIteration ceiling_dc floor_dc (dcSchedule M iter_times u x block_sum).2.1
          (itersGroupNum iter_times block_sum) diff t = diff) := by
  have hc : t * 2 = 2 * t := Nat.mul_comm _ _
  have hG := itersGroupNum_getD iter_times block_sum t h1 h2
  rw [hc] at hG
  have hperm : (((dcSchedule M iter_times u x block_sum).2.1.getD (t - 1) []).map
      (fun r => r.number)).Perm (List.range (block_sum / (2 * t))) := by
    have := drawMany_perm M u (itersGroupNum iter_times block_sum)
      (drawSorted M u block_sum x).2 (t - 1)
    rw [hG] at this
    exact this
  refine ⟨hperm, countP_number_odd _ _ hperm, ?_⟩
  intro hone
  rw [hone] at hperm
  have h0 := single_window_number _ hperm
  refine ⟨h0, ?_⟩
  intro ceiling_dc floor_dc diff
  unfold swapIteration
  have hr1 : List.range 1 = [0] := rfl
  rw [hG, hone, hr1]
  simp only [List.foldl_cons, List.foldl_nil]
  apply swapGroup_unswapped
  intro hsw
  rw [h0] at hsw
  exact absurd hsw.2 (by decide)

/-- The decisions of iteration 2 for six blocks: there is one window, its decision is 0
and it is never swapped. -/
theorem swap_decisions_balanced_witness :
    1 ≤ 2 ∧ 2 ≤ 15 ∧ 6 / (2 * 2) = 1 ∧
    (((dcSchedule exactMpf 15 zeroBlocksU zeroBlocksX 6).2.1.getD (2 - 1) []).map
      (fun r => r.number)).Perm (List.range (6 / (2 * 2))) ∧
    ((dcSchedule exactMpf 15 zeroBlocksU zeroBlocksX 6).2.1.getD (2 - 1) []).countP
      (fun r => decide (r.number % 2 = 1)) = 6 / (2 * 2) / 2 ∧
    (6 / (2 * 2) = 1 →
      (((dcSchedule exactMpf 15 zeroBlocksU zeroBlocksX 6).2.1.getD (2 - 1) []).getD 0
        ⟨0, 0⟩).number = 0 ∧
      ∀ (ceiling_dc floor_dc : Int) (diff : List Int),
        swapIteration ceiling_dc floor_dc (dcSchedule exactMpf 15 zeroBlocksU zeroBlocksX 6).2.1
          (itersGroupNum 15 6) diff 2 = diff) :=
  ⟨by decide, by decide, by decide,
    swap_decisions_balanced exactMpf 15 zeroBlocksU zeroBlocksX 6 2 (by decide) (by decide)⟩

/-- C36: the sign-group scramble keeps the absolute DC values in range.  For every
DC-difference sequence and every descriptor sequence with at least `block_sum` entries,
every running sum of the sequence after the forward sign-group stage lies between two
running sums of the original sequence, the initial value 0 included; so bounds that hold
for all running sums of the original hold for all running sums of the scrambled
sequence. -/
theorem sign_stage_sums_in_range (temp_rp1 : List randSequence) (diff : List Int)
    (ht : diff.length ≤ temp_rp1.length) :
    (∀ s ∈ runningSums (signGroupStage temp_rp1 diff) 0,
      (∃ lo ∈ 0 :: runningSums diff 0, lo ≤ s) ∧ (∃ hi ∈ 0 :: runningSums diff 0, s ≤ hi)) ∧
    (∀ lo hi : Int, (∀ r ∈ 0 :: runningSums diff 0, lo ≤ r ∧ r ≤ hi) →
      ∀ s ∈ runningSums (signGroupStage temp_rp1 diff) 0, lo ≤ s ∧ s ≤ hi) := by
  have h := signGroupStage_sums temp_rp1 diff ht
  refine ⟨h, ?_⟩
  intro lo hi hb s hs
  obtain ⟨⟨a, ha, hal⟩, ⟨b, hb', hbl⟩⟩ := h s hs
  exact ⟨le_trans (hb a ha).1 hal, le_trans hbl (hb b hb').2⟩

/-- The running sums of the example scenario after the sign-group stage: the original
sums are `3, 2, 0, 5, 5, 1`, the scrambled sequence is `[3, -2, -1, 5, 0, -4]` with the
sums `3, 1, 0, 5, 5, 1`. -/
theorem sign_stage_sums_in_range_witness :
    sampleDiff.length ≤ sampleTempRp1.length ∧
    runningSums sampleDiff 0 = [3, 2, 0, 5, 5, 1] ∧
    signGroupStage sampleTempRp1 sampleDiff = [3, -2, -1, 5, 0, -4] ∧
    runningSums (signGroupStage sampleTempRp1 sampleDiff) 0 = [3, 1, 0, 5, 5, 1] ∧
    (∀ s ∈ runningSums (signGroupStage sampleTempRp1 sampleDiff) 0,
      (∃ lo ∈ 0 :: runningSums sampleDiff 0, lo ≤ s) ∧
        (∃ hi ∈ 0 :: runningSums sampleDiff 0, s ≤ hi)) ∧
    (∀ lo hi : Int, (∀ r ∈ 0 :: runningSums sampleDiff 0, lo ≤ r ∧ r ≤ hi) →
      ∀ s ∈ runningSums (signGroupStage sampleTempRp1 sampleDiff) 0, lo ≤ s ∧ s ≤ hi) :=
  ⟨by decide, by decide, by decide, by decide,
    sign_stage_sums_in_range sampleTempRp1 sampleDiff (by decide)⟩

/-- C37: the DC values are only rearranged.  For every key, every bounds and every DC
sequence with at least one block, `encrypt` returns a DC sequence that is a rearrangement
of the input: the same length, every value as often as in the input, and the same sum of
all differences, which is the last running sum, the absolute DC value of the last
block. -/
theorem dc_only_rearranged (M : Mpf) (iter_times ceiling_run : Nat)
    (ceiling_dc floor_dc : Int) (x u : ℚ) (diff : List Int) (ac : List (List Int))
    (hn : 1 ≤ diff.length) :
    ∃ diff' ac', encrypt M iter_times ceiling_run ceiling_dc floor_dc x u diff ac =
        some (diff', ac') ∧
      diff'.Perm diff ∧ diff'.length = diff.length ∧
      (∀ v : Int, diff'.count v = diff.count v) ∧
      diff'.sum = diff.sum ∧
      (runningSums diff 0).getLast? = some diff.sum ∧
      (runningSums diff' 0).getLast? = some diff.sum := by
  have hp := encryptDc_perm M iter_times ceiling_dc floor_dc u x diff
  have hl := length_encryptDc M iter_times ceiling_dc floor_dc u x diff
  refine ⟨_, _, encrypt_eq_some M iter_times ceiling_run ceiling_dc floor_dc x u diff ac hn,
    hp, hl, fun v => hp.count_eq v, hp.sum_eq, ?_, ?_⟩
  · rw [runningSums_getLast diff 0 (by intro h; rw [h] at hn; simp at hn), zero_add]
  · rw [runningSums_getLast _ 0 (by
      intro h
      rw [h] at hl
      simp at hl
      omega), zero_add, hp.sum_eq]

/-- The DC sequence of the example scenario is rearranged and keeps its sum. -/
theorem dc_only_rearranged_witness :
    1 ≤ sampleDiff.length ∧
    ∃ diff' ac', encrypt exactMpf 15 63 10 (-10) zeroBlocksX zeroBlocksU sampleDiff sampleAc =
        some (diff', ac') ∧
      diff'.Perm sampleDiff ∧ diff'.length = sampleDiff.length ∧
      (∀ v : Int, diff'.count v = sampleDiff.count v) ∧
      diff'.sum = sampleDiff.sum ∧
      (runningSums sampleDiff 0).getLast? = some sampleDiff.sum ∧
      (runningSums diff' 0).getLast? = some sampleDiff.sum :=
  ⟨by decide, dc_only_rearranged exactMpf 15 63 10 (-10) zeroBlocksX zeroBlocksU sampleDiff
    sampleAc (by decide)⟩

/-- C38: the keystream stays in the unit interval.  For every `x0` with `0 < x0 < 1` and
every `u` with `0 < u < 4`, every value produced by the recurrence
`x <- u * x * (1 - x)` computed without rounding, after one step or more, lies in
`(0, u / 4]` and so strictly between 0 and 1; this holds for the values of every generation
loop, and every key derived from a 512-bit hash meets the two conditions. -/
theorem keystream_unit_interval (x0 u : ℚ) (hx0 : 0 < x0) (hx1 : x0 < 1) (hu0 : 0 < u)
    (hu4 : u < 4) :
    (∀ n : Nat, 1 ≤ n → 0 < (logisticNext exactMpf u)^[n] x0 ∧
      (logisticNext exactMpf u)^[n] x0 ≤ u / 4 ∧ (logisticNext exactMpf u)^[n] x0 < 1) ∧
    (∀ (count i : Nat), ∀ r ∈ (drawLoop exactMpf u count i x0).1,
      0 < r.value ∧ r.value ≤ u / 4 ∧ r.value < 1) ∧
    (∀ count : Nat, ∀ r ∈ (drawSorted exactMpf u count x0).1,
      0 < r.value ∧ r.value ≤ u / 4 ∧ r.value < 1) ∧
    (∀ hashBool : List Bool,
      (0 < (initializeKey exactMpf hashBool).1 ∧ (initializeKey exactMpf hashBool).1 < 1) ∧
      (0 < (initializeKey exactMpf hashBool).2 ∧ (initializeKey exactMpf hashBool).2 < 4)) := by
  refine ⟨logistic_iterate u x0 hu0 hu4 hx0 hx1,
    fun count i => drawLoop_unit u hu0 hu4 count i x0 hx0 hx1, ?_, ?_⟩
  · intro count r hr
    unfold drawSorted sortRand at hr
    exact drawLoop_unit u hu0 hu4 count 0 x0 hx0 hx1 r
      ((List.perm_insertionSort _ _).subset hr)
  · intro hashBool
    have hx := decimalValue_bounds 0 5 2 (keyDigits hashBool 0) (length_keyDigits _ _)
      (keyDigits_le _ _)
    have hu := decimalValue_bounds 3 7 2 (keyDigits hashBool 256) (length_keyDigits _ _)
      (keyDigits_le _ _)
    have ex : (initializeKey exactMpf hashBool).1 =
        decimalValue 0 ([5, 2] ++ keyDigits hashBool 0) := rfl
    have eu : (initializeKey exactMpf hashBool).2 =
        decimalValue 3 ([7, 2] ++ keyDigits hashBool 256) := rfl
    rw [ex, eu]
    simp only [List.cons_append, List.nil_append]
    norm_num at hx hu
    refine ⟨⟨?_, ?_⟩, ⟨?_, ?_⟩⟩ <;> linarith [hx.1, hx.2, hu.1, hu.2]

/-- The keystream of the example key stays in the unit interval. -/
theorem keystream_unit_interval_witness :
    0 < zeroBlocksX ∧ zeroBlocksX < 1 ∧ 0 < zeroBlocksU ∧ zeroBlocksU < 4 ∧
    (∀ n : Nat, 1 ≤ n → 0 < (logisticNext exactMpf zeroBlocksU)^[n] zeroBlocksX ∧
      (logisticNext exactMpf zeroBlocksU)^[n] zeroBlocksX ≤ zeroBlocksU / 4 ∧
      (logisticNext exactMpf zeroBlocksU)^[n] zeroBlocksX < 1) :=
  ⟨by decide!, by decide!, by decide!, by decide!,
    (keystream_unit_interval zeroBlocksX zeroBlocksU (by decide!) (by decide!) (by decide!)
      (by decide!)).1⟩

/-- C39: the ranks inside a sign group never tie.  For every sorted global sequence whose
indices are pairwise distinct (the sequence that `encrypt` and `decrypt` generate is a
rearrangement of `[0, block_sum)`) and for every list of group sizes, those computed by
`encrypt` as well as those recomputed by `decrypt`, the entry `rp1[k]` is built from the
entries of the global sequence at the positions of group `k`, the ranks of its pairs are
pairwise distinct, and every rearrangement of the pairs that is ascending in the rank is
`rp1[k]`, whatever the sort does with equal keys. -/
theorem sign_group_ranks_distinct (temp_rp1 : List randSequence) (groups_diff_num : List Nat)
    (k : Nat) (hnd : (temp_rp1.map (fun r => r.number)).Nodup)
    (hk : k < groups_diff_num.length) :
    (assignRanks groups_diff_num temp_rp1).getD k [] =
      sortIntPair (groupPairs (groupSlice temp_rp1 groups_diff_num k)) ∧
    ((groupPairs (groupSlice temp_rp1 groups_diff_num k)).map (fun p => p.value)).Nodup ∧
    (((assignRanks groups_diff_num temp_rp1).getD k []).map (fun p => p.value)).Nodup ∧
    (∀ l : List intPair, l.Perm (groupPairs (groupSlice temp_rp1 groups_diff_num k)) →
      l.Sorted (fun a b => a.value ≤ b.value) →
      l = (assignRanks groups_diff_num temp_rp1).getD k []) ∧
    (∀ (M : Mpf) (u x : ℚ) (block_sum : Nat),
      ((drawSorted M u block_sum x).1.map (fun r => r.number)).Nodup ∧
      ((drawSorted M u block_sum x).1.map (fun r => r.number)).Perm
        (List.range block_sum)) := by
  have hget := assignRanks_getD groups_diff_num k temp_rp1 hk
  have hv : ((groupPairs (groupSlice temp_rp1 groups_diff_num k)).map
      (fun p => p.value)).Nodup := by
    rw [groupPairs_value]
    exact ((slice_sublist temp_rp1 _ _).map _).nodup hnd
  have hps : (sortIntPair (groupPairs (groupSlice temp_rp1 groups_diff_num k))).Perm
      (groupPairs (groupSlice temp_rp1 groups_diff_num k)) := List.perm_insertionSort _ _
  refine ⟨hget, hv, ?_, ?_, fun M u x block_sum =>
    ⟨drawSorted_nodup M u block_sum x, drawSorted_perm M u block_sum x⟩⟩
  · rw [hget]
    exact (hps.map _).nodup_iff.mpr hv
  · intro l hp hs
    rw [hget]
    exact sorted_unique _ l _ hv hp hs hps (sortIntPair_sorted _)

/-- The ranks of the second group of the example scenario. -/
theorem sign_group_ranks_distinct_witness :
    (sampleTempRp1.map (fun r => r.number)).Nodup ∧ 1 < (groupsDiffNum sampleDiff).length ∧
    (assignRanks (groupsDiffNum sampleDiff) sampleTempRp1).getD 1 [] = [⟨1, 1⟩, ⟨0, 3⟩] ∧
    (assignRanks (groupsDiffNum sampleDiff) sampleTempRp1).getD 1 [] =
      sortIntPair (groupPairs (groupSlice sampleTempRp1 (groupsDiffNum sampleDiff) 1)) ∧
    ((groupPairs (groupSlice sampleTempRp1 (groupsDiffNum sampleDiff) 1)).map
      (fun p => p.value)).Nodup :=
  ⟨by decide, by decide, by decide,
    (sign_group_ranks_distinct sampleTempRp1 (groupsDiffNum sampleDiff) 1 (by decide)
      (by decide)).1,
    (sign_group_ranks_distinct sampleTempRp1 (groupsDiffNum sampleDiff) 1 (by decide)
      (by decide)).2.1⟩

end JpegScramble
